import Mathlib

/-!
# Seq2Seq decoding: greedy decode, beam search and batched decoder states

A shallow embedding of `flashlight/app/asr/criterion/Seq2SeqCriterion.cpp`.

Modelling conventions.

* A tensor is seen through its batch axis only: a `Variable` is the list of its
  batch elements, each a flattened `Slice`; the empty list is the empty
  `Variable`.  Operations of the tensor library (concatenation, indexing,
  addition, tiling) are total on this representation; the argument checks that
  the library performs internally are outside the sources and are not modelled.
* Accesses that the source itself makes into a `std::vector` (`hidden[i]`,
  `beam[hypIdx]`, `scoreVec[indices[j]]`, `beam[0]`, `complete.back()`) and the
  exceptions the source throws are modelled strictly, through `Except`.
* Scores are integers that stand for the floating-point values in their order.  The
  library routines that round (`logSoftmax` and the addition of the running score) are
  routines of the backend, so that any rounding can be supplied.
* The neural modules (embedding, recurrent cells, attention, window, output
  projection) are fields of the criterion and act on one batch element at a
  time.
-/

namespace Flashlight

/-- Flattened payload of one batch element of a tensor. -/
abbrev Slice := List Int

/-- A tensor as the list of its batch elements; `[]` is the empty tensor. -/
abbrev Variable := List Slice

/-- Failures of the decoder code: the three `runtime_error`s of `concatState`,
an out-of-range access into a `std::vector`, and a batch-size mismatch in the
score addition of `beamSearch`. -/
inductive Err where
  | emptyStateVec
  | stepUnmatched
  | isValidUnmatched
  | outOfRange
  | shapeMismatch
  deriving DecidableEq, Repr

instance instDecidableEqExcept {ε α : Type} [DecidableEq ε] [DecidableEq α] :
    DecidableEq (Except ε α)
  | .ok a, .ok b => if h : a = b then isTrue (by rw [h]) else isFalse (fun h2 => h (by cases h2; rfl))
  | .error a, .error b =>
    if h : a = b then isTrue (by rw [h]) else isFalse (fun h2 => h (by cases h2; rfl))
  | .ok _, .error _ => isFalse (fun h => by cases h)
  | .error _, .ok _ => isFalse (fun h => by cases h)

/-- The `Seq2SeqState` of the decoder: attention weights, one hidden tensor per
attention round, attention summary, step counter, attention peak and validity
flag. -/
structure Seq2SeqState where
  alpha : Variable
  hidden : List Variable
  summary : Variable
  step : Int
  peakAttnPos : Int
  isValid : Bool
  deriving DecidableEq, Repr

/-- Library `concatenate` along the batch axis (axis 2 for `alpha` and
`summary`, axis 1 for `hidden[i]` and for the previous tokens). -/
def concatenate (vs : List Variable) : Variable := vs.flatten

/-- Library `concatenate` along axis 0 for single-sequence tensors, used for the
attention trace of the greedy decode: payloads are appended inside the one batch
element. -/
def concatenateRows (vs : List Variable) : Variable :=
  if vs.isEmpty then [] else [(vs.map (fun v => v.headD [])).flatten]

/-- Library indexing `v(span, ..., batchIdx)`: the batch element `batchIdx` as a
tensor of batch size one. -/
def index (v : Variable) (batchIdx : Nat) : Variable :=
  match v[batchIdx]? with
  | some s => [s]
  | none => []

/-- Element-wise addition of two payloads. -/
def addSlice (a b : Slice) : Slice := List.zipWith (fun x y => x + y) a b

/-- Element-wise addition `a + b` of two tensors, batch element by batch
element. -/
def addVar (a b : Variable) : Variable := a.mapIdx (fun k x => addSlice x (b.getD k []))

/-- The first `n` entries `state.hidden[0..n)`, read one by one as the inner loop
of `concatState` does; reading past the end of the vector is an error. -/
def readHidden (state : Seq2SeqState) : (n i : Nat) → Except Err (List Variable)
  | 0, _ => .ok []
  | n + 1, i =>
    match state.hidden[i]? with
    | none => .error .outOfRange
    | some h =>
      match readHidden state n (i + 1) with
      | .error e => .error e
      | .ok hs => .ok (h :: hs)

/-- The loop of `concatState` over `stateVec`: checks `step` and `isValid`
against the first state and pushes `alpha`, `hidden[i]` (for `i < nAttnRound`) and
`summary` of every state.  Returns `alphaVec`, `hiddenVec` (one list per round)
and `summaryVec`. -/
def concatLoop (step : Int) (isValid : Bool) (nAttnRound : Nat) :
    List Seq2SeqState → Except Err (List Variable × List (List Variable) × List Variable)
  | [] => .ok ([], List.replicate nAttnRound [], [])
  | state :: rest =>
    if state.step ≠ step then .error .stepUnmatched
    else if state.isValid ≠ isValid then .error .isValidUnmatched
    else
      match readHidden state nAttnRound 0 with
      | .error e => .error e
      | .ok hs =>
        match concatLoop step isValid nAttnRound rest with
        | .error e => .error e
        | .ok (alphaVec, hiddenVec, summaryVec) =>
          .ok (state.alpha :: alphaVec,
               List.zipWith (fun h col => h :: col) hs hiddenVec,
               state.summary :: summaryVec)

/-- Embedding of `detail::concatState`. -/
def concatState (stateVec : List Seq2SeqState) : Except Err Seq2SeqState :=
  match stateVec with
  | [] => .error .emptyStateVec
  | s0 :: _ =>
    match concatLoop s0.step s0.isValid s0.hidden.length stateVec with
    | .error e => .error e
    | .ok (alphaVec, hiddenVec, summaryVec) =>
      .ok { step := s0.step
            peakAttnPos := s0.peakAttnPos
            isValid := s0.isValid
            alpha := concatenate alphaVec
            hidden := hiddenVec.map concatenate
            summary := concatenate summaryVec }

/-- Embedding of `detail::selectState`. -/
def selectState (state : Seq2SeqState) (batchIdx : Nat) : Seq2SeqState :=
  { step := state.step
    peakAttnPos := state.peakAttnPos
    isValid := state.isValid
    alpha := index state.alpha batchIdx
    summary := index state.summary batchIdx
    hidden := state.hidden.map (fun h => index h batchIdx) }

/-- A single-sequence state without hidden tensors (sample input). -/
def stateNoHidden : Seq2SeqState :=
  { alpha := [[1, 2]], hidden := [], summary := [[3]], step := 4, peakAttnPos := 0, isValid := true }

/-- A single-sequence state with one hidden tensor (sample input). -/
def stateOneHidden : Seq2SeqState :=
  { alpha := [[5, 6]], hidden := [[[7]]], summary := [[8]], step := 4, peakAttnPos := 1,
    isValid := true }

/-- A second single-sequence state with one hidden tensor (sample input). -/
def stateOneHiddenB : Seq2SeqState :=
  { alpha := [[9, 10]], hidden := [[[11]]], summary := [[12]], step := 4, peakAttnPos := 0,
    isValid := true }

/-- Sampling strategies named by the configuration string `samplingStrategy_`;
`other` stands for any string that is none of the three known names. -/
inductive SamplingStrategy where
  | rand
  | model
  | gumbel
  | other
  deriving DecidableEq, Repr

/-- The criterion: configuration, the training-mode flag, the values that the
`Seq2SeqState` constructor gives to `peakAttnPos` and `isValid` (declared in the
header), and the neural modules, each acting on one batch element.

* `decodeRNN i hy hiddenIn = (hy', hiddenOut)`;
* `attention i hy xEncoded b prevAlpha windowWeight inputSizes = (alpha, summary)`
  for batch element `b`;
* `computeWindow prevAlpha step maxDecoderSteps xEncoded batchsize inputSizes
  targetSizes b` is the window weight of batch element `b`;
* `linearOut hy k` is row `k` of the output projection, `k < nClass_`. -/
structure Seq2SeqCriterion where
  eos_ : Int
  pad_ : Int
  maxDecoderOutputLen_ : Nat
  nClass_ : Nat
  nAttnRound_ : Nat
  inputFeeding_ : Bool
  hasWindow : Bool
  trainWithWindow_ : Bool
  pctTeacherForcing_ : Int
  samplingStrategy_ : SamplingStrategy
  train_ : Bool
  statePeakAttnPos : Int
  stateIsValid : Bool
  startEmbedding : Slice
  embedding : Slice → Slice
  embeddingLinear : Slice → Slice
  decodeRNN : Nat → Slice → Slice → Slice × Slice
  computeWindow : Slice → Int → Int → Variable → Nat → Slice → Slice → Nat → Slice
  attention : Nat → Slice → Variable → Nat → Slice → Slice → Slice → Slice × Slice
  linearOut : Slice → Nat → Int

/-- Modelled from the spec: the header declaring `Seq2SeqState` is not part of the
sources.  The constructor `Seq2SeqState(nAttnRound)` creates the state "empty at decode
start (step=0, empty alpha/hidden)", with the `nAttnRound` hidden tensors that the
source assigns through `hidden[i]`, `i < nAttnRound`; the initial `peakAttnPos` and
`isValid` are the criterion's `statePeakAttnPos` and `stateIsValid`. -/
def Seq2SeqCriterion.newState (c : Seq2SeqCriterion) (nAttnRound : Nat) : Seq2SeqState :=
  { step := 0
    peakAttnPos := c.statePeakAttnPos
    isValid := c.stateIsValid
    alpha := []
    summary := []
    hidden := List.replicate nAttnRound [] }

/-- `Module::eval()`: the criterion with the training flag cleared. -/
def Seq2SeqCriterion.eval (c : Seq2SeqCriterion) : Seq2SeqCriterion := { c with train_ := false }

/-- The attention rounds `i, i+1, ...` of `decodeStep` (`k` rounds remain).
Carries `hy`, the hidden tensors stored so far in `outState.hidden`, and the
current `outState.alpha` and `summaries`. -/
def attnRounds (c : Seq2SeqCriterion) (xEncoded : Variable) (inState : Seq2SeqState)
    (inputSizes targetSizes : Slice) (maxDecoderSteps : Int) (batchsize : Nat) :
    (k i : Nat) → (hy : Variable) → (outHidden : List Variable) → (alpha summaries : Variable) →
    Except Err (Variable × List Variable × Variable × Variable)
  | 0, _, hy, outHidden, alpha, summaries => .ok (hy, outHidden, alpha, summaries)
  | k + 1, i, hy, outHidden, _, _ =>
    match inState.hidden[i]? with
    | none => .error .outOfRange
    | some hiddenIn =>
      let rnnOut := hy.mapIdx (fun b h => c.decodeRNN i h (hiddenIn.getD b []))
      let hyR := rnnOut.map Prod.fst
      let windowWeight : Nat → Slice := fun b =>
        if c.hasWindow && (!c.train_ || c.trainWithWindow_) then
          c.computeWindow (inState.alpha.getD b []) inState.step maxDecoderSteps xEncoded
            batchsize inputSizes targetSizes b
        else []
      let attOut := hyR.mapIdx (fun b h =>
        c.attention i h xEncoded b (inState.alpha.getD b []) (windowWeight b) inputSizes)
      let summaries := attOut.map Prod.snd
      attnRounds c xEncoded inState inputSizes targetSizes maxDecoderSteps batchsize k (i + 1)
        (addVar hyR summaries) (outHidden ++ [rnnOut.map Prod.snd]) (attOut.map Prod.fst) summaries

/-- Embedding of `Seq2SeqCriterion::decodeStep`.  Returns the logits (one column
of `nClass_` entries per batch element) and the new state. -/
def decodeStep (c : Seq2SeqCriterion) (xEncoded y : Variable) (inState : Seq2SeqState)
    (inputSizes targetSizes : Slice) (maxDecoderSteps : Int) :
    Except Err (Variable × Seq2SeqState) :=
  let hy0 : Variable :=
    if y.isEmpty then List.replicate xEncoded.length c.startEmbedding
    else if c.train_ && c.samplingStrategy_ == SamplingStrategy.gumbel then y.map c.embeddingLinear
    else y.map c.embedding
  let hy1 : Variable :=
    if c.inputFeeding_ && !y.isEmpty then addVar hy0 inState.summary else hy0
  let batchsize := if y.isEmpty then xEncoded.length else y.length
  match attnRounds c xEncoded inState inputSizes targetSizes maxDecoderSteps batchsize
      c.nAttnRound_ 0 hy1 [] [] [] with
  | .error e => .error e
  | .ok (hy, outHidden, alpha, summaries) =>
    .ok (hy.map (fun h => (List.range c.nClass_).map (c.linearOut h)),
         { step := inState.step + 1
           peakAttnPos := c.statePeakAttnPos
           isValid := c.stateIsValid
           alpha := alpha
           hidden := outHidden
           summary := summaries })

/-- Index of the maximum of a column, as computed by the library `max` with
indices: the first position holding the largest value (`0` on an empty column).
`go xs i best bestVal` scans `xs`, whose first entry has position `i`. -/
def argmaxGo : Slice → (i best : Nat) → (bestVal : Int) → Nat
  | [], _, best, _ => best
  | x :: xs, i, best, bestVal =>
    if bestVal < x then argmaxGo xs (i + 1) i x else argmaxGo xs (i + 1) best bestVal

/-- First index of the largest entry. -/
def argmax : Slice → Nat
  | [] => 0
  | x :: xs => argmaxGo xs 1 0 x

/-- The loop of `viterbiPathBase` with `fuel` iterations left.  State of the
loop: previous token `y`, decoder state, `maxPath`, `alphaVec`, and the number of
`decodeStep` calls made so far (a ghost counter). -/
def viterbiLoop (c : Seq2SeqCriterion) (input : Slice) (inputT : Int) (inputSizes : Slice)
    (saveAttn : Bool) :
    (fuel : Nat) → (y : Variable) → (state : Seq2SeqState) → (maxPath : List Int) →
    (alphaVec : List Variable) → (calls : Nat) → Except Err (List Int × List Variable × Nat)
  | 0, _, _, maxPath, alphaVec, calls => .ok (maxPath, alphaVec, calls)
  | fuel + 1, y, state, maxPath, alphaVec, calls =>
    match decodeStep c [input] y state inputSizes [] inputT with
    | .error e => .error e
    | .ok (ox, state1) =>
      let pred : Int := (argmax (ox.headD []) : Nat)
      let alphaVec1 := if saveAttn then alphaVec ++ [state1.alpha] else alphaVec
      if pred = c.eos_ then .ok (maxPath, alphaVec1, calls + 1)
      else viterbiLoop c input inputT inputSizes saveAttn fuel [[pred]] state1
        (maxPath ++ [pred]) alphaVec1 (calls + 1)

/-- The greedy decode in evaluation mode, started as `viterbiPathBase` starts it:
no previous token, a fresh state, empty path.  Returns the path, the attention
tensors saved, and the number of `decodeStep` calls. -/
def viterbiRun (c : Seq2SeqCriterion) (input : Slice) (inputT : Int) (inputSizes : Slice)
    (saveAttn : Bool) : Except Err (List Int × List Variable × Nat) :=
  viterbiLoop c.eval input inputT inputSizes saveAttn c.maxDecoderOutputLen_ []
    (c.newState c.nAttnRound_) [] [] 0

/-- What a call leaves behind: its result (a value or a raised error) and the
value of the training flag `train_` when control leaves the function. -/
structure Exit (α : Type) where
  result : Except Err α
  train : Bool

/-- Embedding of `Seq2SeqCriterion::viterbiPathBase` for an encoder output
`input` of batch size one (`inputT` is `input.dims(1)`).  The training flag is
restored after the loop; an error raised inside the loop leaves it cleared. -/
def viterbiPathBase (c : Seq2SeqCriterion) (input : Slice) (inputT : Int) (inputSizes : Slice)
    (saveAttn : Bool) : Exit (List Int × Variable) :=
  match viterbiRun c input inputT inputSizes saveAttn with
  | .error e => { result := .error e, train := false }
  | .ok (maxPath, alphaVec, _) =>
    { result := .ok (maxPath, if saveAttn then concatenateRows alphaVec else [])
      train := c.train_ }

/-- Embedding of `Seq2SeqCriterion::viterbiPath`. -/
def viterbiPath (c : Seq2SeqCriterion) (input : Slice) (inputT : Int) (inputSizes : Slice) :
    Except Err (List Int) :=
  match (viterbiPathBase c input inputT inputSizes false).result with
  | .error e => .error e
  | .ok r => .ok r.1

/-- The batch size `decodeStep` works on: that of the encoder output when there is
no previous token, that of the previous tokens otherwise. -/
def stepBatch (xEncoded y : Variable) : Nat := if y.isEmpty then xEncoded.length else y.length

/-- Reference definition for the greedy decode, following the claim's words: the
logits of steps `0, 1, ..., n - 1` of the greedy trajectory that never stops, each step
being fed the argmax `p_k` of the step before (no end-token test, no path). -/
def greedyTrace (c : Seq2SeqCriterion) (input : Slice) (inputT : Int) (inputSizes : Slice) :
    (n : Nat) → (y : Variable) → (state : Seq2SeqState) → List Slice
  | 0, _, _ => []
  | n + 1, y, state =>
    match decodeStep c [input] y state inputSizes [] inputT with
    | .error _ => []
    | .ok (ox, state1) =>
      ox.headD [] :: greedyTrace c input inputT inputSizes n [[(argmax (ox.headD []) : Nat)]] state1

/-- Reference definition: the per-step argmax tokens `p_0, p_1, ..., p_(n-1)` of the
greedy trajectory. -/
def greedyTokens (c : Seq2SeqCriterion) (input : Slice) (inputT : Int) (inputSizes : Slice)
    (n : Nat) (y : Variable) (state : Seq2SeqState) : List Int :=
  (greedyTrace c input inputT inputSizes n y state).map (fun col => ((argmax col : Nat) : Int))

/-- A beam-search hypothesis: cumulative score, emitted tokens, decoder state. -/
structure CandidateHypo where
  score : Int
  path : List Int
  state : Seq2SeqState
  deriving DecidableEq, Repr

/-- The numeric and standard-library routines the beam search relies on.

* `logProb col v` is the entry of the library `logSoftmax` of the column `col` at a
  position whose logit is `v`: the library computes every entry from its own logit and
  the column (the logit minus the log-sum-exp of the column, in floating point).
* `add s v` is the floating-point sum `s + v` of a running score and a log-probability
  (`scoreArr + ox`).
* `partialSort scores k` is `std::partial_sort` over the positions
  `0 .. scores.length - 1`, with `middle = begin + k` and the comparison
  "greater score first": it returns the rearranged positions. -/
structure Backend where
  logProb : Slice → Int → Int
  add : Int → Int → Int
  partialSort : List Int → Nat → List Nat

/-- Postcondition of `std::partial_sort` the C++ standard gives: the result is a
rearrangement of the positions, and each of its first `k` entries scores at least
as much as every entry after it (so the first `k` are the best `k`, in
non-increasing order; the rest is in unspecified order). -/
def IsPartialSort (scores : List Int) (k : Nat) (out : List Nat) : Prop :=
  out.Perm (List.range scores.length) ∧
  ∀ i j : Nat, i < j → i < k → j < out.length →
    scores.getD (out.getD j 0) 0 ≤ scores.getD (out.getD i 0) 0

/-- A backend whose `partialSort` meets the postcondition on every input. -/
def Backend.Lawful (be : Backend) : Prop :=
  ∀ (scores : List Int) (k : Nat), IsPartialSort scores k (be.partialSort scores k)

/-- Library `logSoftmax` along the class axis of one column. -/
def logSoftmax (be : Backend) (col : Slice) : Slice := col.map (be.logProb col)

/-- Rounding keeps the order: a larger logit of a column does not get a smaller
log-probability, and adding a larger log-probability to a score does not give a smaller
sum.  Floating-point subtraction and addition round monotonically. -/
def Backend.Monotone (be : Backend) : Prop :=
  (∀ (col : Slice) (v w : Int), v ≤ w → be.logProb col v ≤ be.logProb col w) ∧
  (∀ (s v w : Int), v ≤ w → be.add s v ≤ be.add s w)

/-- Reference definition for the candidates that a search of width one ranks along the
greedy decode.  For each step the greedy decode executes (it stops after the step whose
argmax is the end token, and after `n` steps at the latest) the list holds the candidate
scores of the step: `add score v` for every entry `v` of the log-softmax of the step's
logits, where `score` is the running score of the greedy path so far. -/
def greedyScores (c : Seq2SeqCriterion) (be : Backend) (input : Slice) (inputT : Int)
    (inputSizes : Slice) :
    (n : Nat) → (y : Variable) → (state : Seq2SeqState) → (score : Int) → List Slice
  | 0, _, _, _ => []
  | n + 1, y, state, score =>
    match decodeStep c [input] y state inputSizes [] inputT with
    | .error _ => []
    | .ok (ox, state1) =>
      let scores := (logSoftmax be (ox.headD [])).map (fun v => be.add score v)
      let pred : Int := (argmax (ox.headD []) : Nat)
      if pred = c.eos_ then [scores]
      else scores :: greedyScores c be input inputT inputSizes n [[pred]] state1
        (scores.getD (argmax (ox.headD [])) 0)

/-- The previous token of a hypothesis as the tensor `y` of `beamSearch`: empty
for an empty path, `constant(path.back(), 1)` otherwise. -/
def prevYOf (hypo : CandidateHypo) : Variable :=
  match hypo.path.getLast? with
  | none => []
  | some tok => [[tok]]

/-- Modelled from the spec: the array library is not part of the sources; `dims(1)`
of the batched previous tokens is the batch size the encoder input sizes are
"tiled to", and an empty tensor reports the unit dimension 1. -/
def dims1 (y : Variable) : Nat := if y.isEmpty then 1 else y.length

/-- Library `af::tile(inputSizes, 1, n)`. -/
def tile (inputSizes : Slice) (n : Nat) : Slice := (List.replicate n inputSizes).flatten

/-- The flat score vector of a round: `scoreArr = tile(prevScores) + ox`, a
floating-point addition, flattened column-first, so that entry `b * nClass + k` is the
score of hypothesis `b` extended by class `k`. -/
def flatScores (be : Backend) (prevScoreVec : List Int) (ox : Variable) : List Int :=
  (List.zipWith (fun s col => col.map (fun v => be.add s v)) prevScoreVec ox).flatten

/-- The body of the candidate loop of `beamSearch` for the candidate at position `j`
of `indices`, whose flat index is `idx`: decodes hypothesis and class, then either moves
the hypothesis (end token not appended) to `complete`, or appends the extended
hypothesis to `newBeam`, or drops the candidate.  `beam[hypIdx]` is read for every
candidate, `scoreVec[indices[j]]` only when a hypothesis is stored. -/
def selectStep (eos : Int) (nClass beamSize : Nat) (beam : List CandidateHypo)
    (state : Seq2SeqState) (scoreVec : List Int) (j idx : Nat)
    (complete newBeam : List CandidateHypo) :
    Except Err (List CandidateHypo × List CandidateHypo) :=
  let hypIdx := idx / nClass
  let clsIdx := idx % nClass
  match beam[hypIdx]? with
  | none => .error .outOfRange
  | some hyp =>
    let path_ := hyp.path ++ [(clsIdx : Int)]
    if j < beamSize ∧ (clsIdx : Int) = eos then
      match scoreVec[idx]? with
      | none => .error .outOfRange
      | some sc =>
        .ok (complete ++ [{ score := sc, path := path_.dropLast,
                            state := selectState state hypIdx }], newBeam)
    else if (clsIdx : Int) ≠ eos then
      match scoreVec[idx]? with
      | none => .error .outOfRange
      | some sc =>
        .ok (complete, newBeam ++ [{ score := sc, path := path_,
                                     state := selectState state hypIdx }])
    else .ok (complete, newBeam)

/-- The candidate loop of one round of `beamSearch` (`for j ...` over `indices`),
entered at position `j` with the positions still to be examined; it stops as soon as
`newBeam` holds `beamSize` hypotheses. -/
def selectLoop (eos : Int) (nClass beamSize : Nat) (beam : List CandidateHypo)
    (state : Seq2SeqState) (scoreVec : List Int) :
    (j : Nat) → (indices : List Nat) → (complete newBeam : List CandidateHypo) →
    Except Err (List CandidateHypo × List CandidateHypo)
  | _, [], complete, newBeam => .ok (complete, newBeam)
  | j, idx :: rest, complete, newBeam =>
    match selectStep eos nClass beamSize beam state scoreVec j idx complete newBeam with
    | .error e => .error e
    | .ok (complete1, newBeam1) =>
      if newBeam1.length ≥ beamSize then .ok (complete1, newBeam1)
      else selectLoop eos nClass beamSize beam state scoreVec (j + 1) rest complete1 newBeam1

/-- The trimming of `complete` once it holds `beamSize` hypotheses:
`std::partial_sort` of its first `beamSize` places by score, then
`resize(beamSize)`. -/
def trimComplete (be : Backend) (beamSize : Nat) (complete : List CandidateHypo) :
    List CandidateHypo :=
  ((be.partialSort (complete.map (fun h => h.score)) beamSize).filterMap
    (fun i => complete[i]?)).take beamSize

/-- The first half of a round of `beamSearch`: batches the live hypotheses through
`concatState` and `decodeStep`, and returns the batched new state, the flat score
vector and the partially sorted candidate positions `indices`. -/
def expandBeam (c : Seq2SeqCriterion) (be : Backend) (input : Slice) (inputT : Int)
    (inputSizes : Slice) (beamSize : Nat) (beam : List CandidateHypo) :
    Except Err (Seq2SeqState × List Int × List Nat) :=
  let prevY := concatenate (beam.map prevYOf)
  let prevScoreVec := beam.map (fun h => h.score)
  match concatState (beam.map (fun h => h.state)) with
  | .error e => .error e
  | .ok prevState =>
    match decodeStep c [input] prevY prevState (tile inputSizes (dims1 prevY)) [] inputT with
    | .error e => .error e
    | .ok (ox0, state) =>
      let ox := ox0.map (logSoftmax be)
      if ox.length ≠ beam.length then .error .shapeMismatch
      else
        let scoreVec := flatScores be prevScoreVec ox
        .ok (state, scoreVec, be.partialSort scoreVec (min (2 * beamSize) scoreVec.length))

/-- One expansion round of `beamSearch` (the body of `for l ...`), run in
evaluation mode.  Returns the new live beam, the completed set and whether the
search stops early. -/
def beamRound (c : Seq2SeqCriterion) (be : Backend) (input : Slice) (inputT : Int)
    (inputSizes : Slice) (beamSize : Nat) (beam complete : List CandidateHypo) :
    Except Err (List CandidateHypo × List CandidateHypo × Bool) :=
  match expandBeam c be input inputT inputSizes beamSize beam with
  | .error e => .error e
  | .ok (state, scoreVec, indices) =>
    match selectLoop c.eos_ c.nClass_ beamSize beam state scoreVec 0 indices complete [] with
    | .error e => .error e
    | .ok (complete1, newBeam) =>
      if complete1.length ≥ beamSize then
        let complete2 := trimComplete be beamSize complete1
        match complete2.getLast?, newBeam[0]? with
        | some worst, some best => .ok (newBeam, complete2, decide (worst.score > best.score))
        | _, _ => .error .outOfRange
      else .ok (newBeam, complete1, false)

/-- The round loop of `beamSearch` with `fuel` rounds left.  Returns the number
of rounds entered (a ghost counter) together with the final live beam and
completed set, or the error raised. -/
def beamLoop (c : Seq2SeqCriterion) (be : Backend) (input : Slice) (inputT : Int)
    (inputSizes : Slice) (beamSize : Nat) :
    (fuel : Nat) → (beam complete : List CandidateHypo) → (rounds : Nat) →
    Nat × Except Err (List CandidateHypo × List CandidateHypo)
  | 0, beam, complete, rounds => (rounds, .ok (beam, complete))
  | fuel + 1, beam, complete, rounds =>
    match beamRound c be input inputT inputSizes beamSize beam complete with
    | .error e => (rounds + 1, .error e)
    | .ok (beam1, complete1, stop) =>
      if stop then (rounds + 1, .ok (beam1, complete1))
      else beamLoop c be input inputT inputSizes beamSize fuel beam1 complete1 (rounds + 1)

/-- Embedding of `Seq2SeqCriterion::beamSearch` for an encoder output of batch
size one; `beamSize` and `maxLen` are natural numbers (the `int` arguments taken
non-negative).  The training flag is restored after the loop; an error raised
inside the loop leaves it cleared. -/
def beamSearch (c : Seq2SeqCriterion) (be : Backend) (input : Slice) (inputT : Int)
    (inputSizes : Slice) (beam : List CandidateHypo) (beamSize maxLen : Nat) :
    Exit (List CandidateHypo) :=
  match (beamLoop c.eval be input inputT inputSizes beamSize maxLen beam [] 0).2 with
  | .error e => { result := .error e, train := false }
  | .ok (beam1, complete) =>
    { result := .ok (if complete.isEmpty then beam1 else complete), train := c.train_ }

/-- Modelled from the spec: the header declaring `CandidateHypo` is not part of
the sources.  The default hypothesis `CandidateHypo{}` has score 0, an empty path
and a decoder state "created empty at decode start (step=0, empty
alpha/hidden)", with one empty hidden tensor per attention round as the state
`viterbiPathBase` starts from. -/
def Seq2SeqCriterion.emptyHypo (c : Seq2SeqCriterion) : CandidateHypo :=
  { score := 0, path := [], state := c.newState c.nAttnRound_ }

/-- Embedding of `Seq2SeqCriterion::beamPath`: `beamPaths[0].path`. -/
def beamPath (c : Seq2SeqCriterion) (be : Backend) (input : Slice) (inputT : Int)
    (inputSizes : Slice) (beamSize : Nat) : Except Err (List Int) :=
  match (beamSearch c be input inputT inputSizes [c.emptyHypo] beamSize
      c.maxDecoderOutputLen_).result with
  | .error e => .error e
  | .ok beamPaths =>
    match beamPaths[0]? with
    | some h => .ok h.path
    | none => .error .outOfRange

/-- A `std::partial_sort` that sorts everything: positions by non-increasing
score, equal scores in position order. -/
def sortAll (scores : List Int) (_k : Nat) : List Nat :=
  (List.range scores.length).insertionSort (fun i j => scores.getD j 0 ≤ scores.getD i 0)

/-- A concrete backend: exact sorting, exact addition, and a log-softmax with a zero
normaliser, which leaves the logits as they are. -/
def refBackend : Backend :=
  { logProb := fun _ v => v, add := fun s v => s + v, partialSort := sortAll }

/-- A live beam every round can expand: it is non-empty, every state holds one hidden
tensor per attention round, all states share step and validity flag, and either every
path is non-empty or the beam is a single hypothesis with an empty path (the start of a
search). -/
def WellFormedBeam (c : Seq2SeqCriterion) (beam : List CandidateHypo) : Prop :=
  beam ≠ [] ∧
  (∀ h ∈ beam, h.state.hidden.length = c.nAttnRound_) ∧
  (∀ h ∈ beam, ∀ g ∈ beam, h.state.step = g.state.step ∧ h.state.isValid = g.state.isValid) ∧
  ((∀ h ∈ beam, h.path ≠ []) ∨ (beam.length = 1 ∧ ∀ h ∈ beam, h.path = []))

instance instDecidableWellFormedBeam (c : Seq2SeqCriterion) (beam : List CandidateHypo) :
    Decidable (WellFormedBeam c beam) := by
  unfold WellFormedBeam; infer_instance

/-- The vocabulary holds a class that is not the end token. -/
def HasNonEosClass (c : Seq2SeqCriterion) : Prop :=
  ∃ k, k < c.nClass_ ∧ (k : Int) ≠ c.eos_

instance instDecidableHasNonEosClass (c : Seq2SeqCriterion) : Decidable (HasNonEosClass c) := by
  unfold HasNonEosClass; infer_instance

/-- The column has a unique strict maximum: one entry is larger than every other
entry. -/
def UniqueMax (col : Slice) : Prop :=
  ∃ m, m < col.length ∧ ∀ j, j < col.length → j ≠ m → col.getD j 0 < col.getD m 0

instance instDecidableUniqueMax : DecidablePred UniqueMax := fun col => by
  unfold UniqueMax; infer_instance

/-- A small criterion for concrete runs: one attention round, hidden size one, and
logits that depend on the previous token only.  Row 0 of `table` holds the logits of
the first step, row `t + 1` the logits of a step whose previous token is `t`. -/
def bigramCriterion (nClass : Nat) (eos : Int) (maxLen : Nat) (table : List (List Int)) :
    Seq2SeqCriterion :=
  { eos_ := eos, pad_ := -1, maxDecoderOutputLen_ := maxLen, nClass_ := nClass, nAttnRound_ := 1
    inputFeeding_ := false, hasWindow := false, trainWithWindow_ := false
    pctTeacherForcing_ := 100, samplingStrategy_ := SamplingStrategy.rand, train_ := true
    statePeakAttnPos := -1, stateIsValid := false
    startEmbedding := [0]
    embedding := fun y => [y.headD 0 + 1]
    embeddingLinear := fun y => y
    decodeRNN := fun _ hy _ => (hy, hy)
    computeWindow := fun _ _ _ _ _ _ _ _ => []
    attention := fun _ hy _ _ _ _ _ => (hy, [0])
    linearOut := fun hy k => (table.getD (hy.headD 0).toNat []).getD k 0 }


/-- Sample model (3 classes, end token 2): the first step ranks token 0, then token 1,
then the end token far below; after token 0 the end token is best. -/
def sampleLateEos : Seq2SeqCriterion :=
  bigramCriterion 3 2 2 [[0, -2, -9], [-5, -6, -1], [-1, -1, -50]]

/-- Sample model (3 classes, end token 2): the first step ranks token 0, then the end
token, then token 1; after either token the end token is best. -/
def sampleEosSecond : Seq2SeqCriterion :=
  bigramCriterion 3 2 2 [[0, -2, -1], [-5, -6, -1], [-5, -6, -1]]

/-- Sample model (3 classes, end token 2): the first step ranks token 0, then token 1;
in the second step the best candidates are token 0 after token 0, then the end token
after token 0, then the end token after token 1. -/
def sampleTwoEos : Seq2SeqCriterion :=
  bigramCriterion 3 2 2 [[0, -1, -5], [0, -10, -1], [-10, -10, -1]]

/-- Sample model with 5 classes, end token 4 and at most 3 decoding steps, whose first
step ranks the end token first. -/
def sampleEosFirst : Seq2SeqCriterion := bigramCriterion 5 4 3 [[0, 1, 2, 3, 9]]

/-- Sample model whose vocabulary is the end token alone. -/
def sampleOnlyEos : Seq2SeqCriterion := bigramCriterion 1 0 1 [[0]]

/-! ## Tensor indexing: `range` and `Index` (`fl/tensor/Index.cpp`)

The C++ `int` is a 32-bit two's complement integer: its values are the integers from
`INT_MIN` to `INT_MAX`.  A result outside that range is reduced modulo `2 ^ 32`, the
wrap-around of two's complement hardware (the language itself leaves signed overflow
undefined). -/

/-- The smallest value of the C++ type `int`. -/
def INT_MIN : Int := -2147483648

/-- The largest value of the C++ type `int`. -/
def INT_MAX : Int := 2147483647

/-- A value of the C++ type `int`. -/
abbrev CInt := { i : Int // INT_MIN ≤ i ∧ i ≤ INT_MAX }

/-- The `int` a computation with the mathematical result `x` yields: `x` itself inside
the range of `int`, and `x` reduced modulo `2 ^ 32` into the range otherwise. -/
def wrapInt (x : Int) : CInt :=
  ⟨(x - INT_MIN) % 4294967296 + INT_MIN, by unfold INT_MIN INT_MAX; omega⟩

instance instOfNatCInt (n : Nat) : OfNat CInt n := ⟨wrapInt n⟩

/-- The argument type `range::idx`, a `std::variant<fl::end_t, int>`: either the
"to the final element" sentinel `fl::end` or an `int`. -/
inductive Idx where
  | end_
  | int (i : CInt)
  deriving DecidableEq, Repr

/-- Modelled from the spec: the header defining the "to final element" sentinel
`fl::end` is not part of the sources.  Its integer value is the one the comment of the
constructor states: "fl::end --> -1". -/
def endSentinel : Int := -1

/-- A `range`: the values of the private `int` members `start_`, `end_` and
`stride_`. -/
structure range where
  start_ : Int
  end_ : Int
  stride_ : Int
  deriving DecidableEq, Repr

/-- The constructor `range::range(idx start, idx end, int stride)`: the start decays
to `int` (the sentinel to -1), the end is the sentinel's value for `fl::end` and the
integer minus one, computed in `int`, otherwise. -/
def range.ofStartEndStride (start stop : Idx) (stride : CInt) : range :=
  { start_ := match start with
              | Idx.end_ => endSentinel
              | Idx.int i => i.val
    end_ := match stop with
            | Idx.end_ => endSentinel
            | Idx.int e => (wrapInt (e.val - 1)).val
    stride_ := stride.val }

/-- The constructor `range::range(idx start, idx end)`, which delegates with stride 1. -/
def range.ofStartEnd (start stop : Idx) : range := range.ofStartEndStride start stop 1

/-- The constructor `range::range(idx idx)`, which delegates with start 0. -/
def range.ofEnd (stop : Idx) : range := range.ofStartEnd (Idx.int 0) stop

/-- The accessor `range::start()`. -/
def range.start (r : range) : Int := r.start_

/-- The accessor `range::end()`. -/
def range.end' (r : range) : Int := r.end_

/-- The accessor `range::stride()`. -/
def range.stride (r : range) : Int := r.stride_

/-- The comparison `range::operator==`. -/
def range.opEq (r other : range) : Bool :=
  r.start_ == other.start && r.end_ == other.end' && r.stride_ == other.stride

/-- The comparison `range::operator!=`. -/
def range.opNe (r other : range) : Bool := !(r.opEq other)

/-- Modelled from the spec: the header declaring `fl::span` is not part of the
sources.  The distinguished "full span" value is the value `range(0, end)` "is equal
to". -/
def span : range := range.ofStartEnd (Idx.int 0) Idx.end_

/-- The tag `detail::IndexType` of an index. -/
inductive IndexType where
  | Tensor
  | Range
  | Literal
  deriving DecidableEq, Repr

/-- An `Index`: the tag `type_` is set together with the stored alternative by each
constructor (`Index(const Tensor&)`, `Index(const range&)`, `Index(const int)`), so
the index is one of three shapes. -/
inductive Index where
  | ofTensor (tensor : List Int)
  | ofRange (r : range)
  | ofInt (idx : Int)
  deriving DecidableEq, Repr

/-- The accessor `Index::type()`. -/
def Index.type : Index → IndexType
  | Index.ofTensor _ => IndexType.Tensor
  | Index.ofRange _ => IndexType.Range
  | Index.ofInt _ => IndexType.Literal

/-- The test `Index::isSpan()`: false unless the index is a range, and then the
comparison of the stored range with `fl::span`. -/
def Index.isSpan (i : Index) : Bool :=
  if i.type ≠ IndexType.Range then false
  else
    match i with
    | Index.ofRange r => r.opEq span
    | _ => false

/-! ## The training forward pass (`Seq2SeqCriterion::forward` and its decoders)

A tensor with a target-length axis `U` (the target `U x B`, the logits `C x U x B`, the
embedded input `H x U x B`) is the list of its `U` slices, each a `Variable`.  Losses
are rationals: rounding of floating point arithmetic is not modelled.  Random draws are
read from an oracle. -/

/-- Failures of `forward`: the `std::invalid_argument` on the number of inputs, the
`std::invalid_argument` of the sequential decoder on an unknown sampling strategy, the
`std::logic_error` of the vectorized decoder on model sampling, an out-of-range read of
`inputs`, and a failure inside `decodeStep`. -/
inductive ForwardErr where
  | invalidInputsSize
  | invalidSamplingStrategy
  | modelSamplingUnsupported
  | outOfRange
  | decode (e : Err)
  deriving DecidableEq, Repr

/-- Whether the failure is a `std::invalid_argument`. -/
def ForwardErr.isInvalidArgument : ForwardErr → Bool
  | ForwardErr.invalidInputsSize => true
  | ForwardErr.invalidSamplingStrategy => true
  | _ => false

/-- The dynamic type of the attention module `attention(0)`, as the
`dynamic_pointer_cast`s of `setUseSequentialDecoder` see it. -/
inductive AttentionKind where
  | content
  | simpleLocation
  | location
  | neuralLocation
  | other
  deriving DecidableEq, Repr

/-- The criterion with what `forward` needs beyond decoding: the label-smoothing
weight, the dynamic types of `attention(0)` and of the window, the modules in their
whole-sequence form used by the vectorized decoder, and the loss routines of the
library.

* `rnnSeq i hy` is `decodeRNN(i)->forward(hy)` on a whole sequence;
* `attentionSeq i hy input windowWeight inputSizes = (alpha, summaries)`;
* `computeVectorizedWindow U input B inputSizes targetSizes` is the window weight
  `window_->computeVectorizedWindow(U, T, B, inputSizes, targetSizes)`; it receives
  the input in place of its length `T = input.dims(1)`;
* `crossEntropy out target pad` is the per-sequence sum over tokens of
  `categoricalCrossEntropy(out, target, ReduceMode::NONE, pad)`;
* `applySeq2SeqMask out target pad` masks the pad positions of `out`, and
  `sumAll out` is `moddims(sum(out, {0, 1}), -1)`. -/
structure Seq2SeqModel extends Seq2SeqCriterion where
  labelSmooth_ : ℚ
  attentionKind : AttentionKind
  windowIsMedian : Bool
  rnnSeq : Nat → List Variable → List Variable
  attentionSeq : Nat → List Variable → Variable → List Variable → Slice →
    List Variable × List Variable
  computeVectorizedWindow : Nat → Variable → Nat → Slice → Slice → List Variable
  crossEntropy : List Variable → Variable → Int → List ℚ
  applySeq2SeqMask : List Variable → Variable → Int → List Variable
  sumAll : List Variable → List ℚ

/-- The random draws of one forward pass, by decode step `u` and batch element `b`.

* `percent u b` is the value of `randu * 100` compared with `pctTeacherForcing_`;
* `token u b` is the value of `(randu * (nClass_ - 1)).as(s32)`;
* `gumbelOx u ox` is `logSoftmax((ox + gb) / gumbelTemperature_, 0)` for the noise `gb`
  drawn at step `u`, and `gumbelY u ox` is `exp` of it. -/
structure RandomDraws where
  percent : Nat → Nat → Int
  token : Nat → Nat → Int
  gumbelOx : Nat → Variable → Variable
  gumbelY : Nat → Variable → Variable

/-- Embedding of `Seq2SeqCriterion::setUseSequentialDecoder`: the value it leaves in
`useSequentialDecoder_`. -/
def setUseSequentialDecoder (m : Seq2SeqModel) : Bool :=
  if (m.pctTeacherForcing_ < 100 ∧ m.samplingStrategy_ = SamplingStrategy.model) ∨
      m.samplingStrategy_ = SamplingStrategy.gumbel ∨ m.inputFeeding_ = true then true
  else if m.attentionKind = AttentionKind.simpleLocation ∨
      m.attentionKind = AttentionKind.location ∨
      m.attentionKind = AttentionKind.neuralLocation then true
  else if m.hasWindow = true ∧ m.trainWithWindow_ = true ∧ m.windowIsMedian = true then true
  else false

/-- `target.dims(0)`, the target length `U`. -/
def dims0 (target : Variable) : Nat := (target.headD []).length

/-- The slice `target(u, af::span)`: token `u` of every sequence, a `1 x B` tensor. -/
def targetRow (target : Variable) (u : Nat) : Variable := target.map (fun s => [s.getD u 0])

/-- The slices of `target(af::seq(0, U - 2), af::span)`, one per position. -/
def targetRows (target : Variable) (U : Nat) : List Variable :=
  (List.range (U - 1)).map (targetRow target)

/-- The first part of `vectorizedDecoder`: the embedded input `hy`, one slice per
position.  Position 0 is the start embedding tiled over the batch; for `U > 1` the
target without its last token follows, replaced in training mode by the scheduled
samples (random strategy) or refused (model strategy). -/
def vectorizedInput (m : Seq2SeqModel) (rng : RandomDraws) (target : Variable) :
    Except ForwardErr (List Variable) :=
  let U := dims0 target
  let B := target.length
  let hy : List Variable := [List.replicate B m.startEmbedding]
  if U > 1 then
    let y := targetRows target U
    let ySampled : Except ForwardErr (List Variable) :=
      if m.train_ = true then
        if m.samplingStrategy_ = SamplingStrategy.model then
          .error ForwardErr.modelSamplingUnsupported
        else if m.samplingStrategy_ = SamplingStrategy.rand then
          .ok (y.mapIdx (fun u row => row.mapIdx (fun b tok =>
            if rng.percent u b ≤ m.pctTeacherForcing_ then tok else [rng.token u b])))
        else .ok y
      else .ok y
    match ySampled with
    | .error e => .error e
    | .ok y1 => .ok (hy ++ y1.map (fun row => row.map m.embedding))
  else .ok hy

/-- The attention rounds of `vectorizedDecoder` (`k` rounds remain, round `i` is
next), carrying `hy` and the last `alpha`. -/
def vectorizedRounds (m : Seq2SeqModel) (input : Variable) (inputSizes targetSizes : Slice)
    (U B : Nat) : (k i : Nat) → (hy alpha : List Variable) → List Variable × List Variable
  | 0, _, hy, alpha => (hy, alpha)
  | k + 1, i, hy, _ =>
    let hyR := m.rnnSeq i hy
    let windowWeight : List Variable :=
      if m.hasWindow && (!m.train_ || m.trainWithWindow_) then
        m.computeVectorizedWindow U input B inputSizes targetSizes
      else []
    let att := m.attentionSeq i hyR input windowWeight inputSizes
    vectorizedRounds m input inputSizes targetSizes U B k (i + 1)
      (List.zipWith addVar hyR att.2) att.1

/-- Embedding of `Seq2SeqCriterion::vectorizedDecoder`: the logits `out`
(`C x U x B`) and the attention `alpha`. -/
def vectorizedDecoder (m : Seq2SeqModel) (rng : RandomDraws) (input target : Variable)
    (inputSizes targetSizes : Slice) : Except ForwardErr (List Variable × List Variable) :=
  match vectorizedInput m rng target with
  | .error e => .error e
  | .ok hy0 =>
    let r := vectorizedRounds m input inputSizes targetSizes (dims0 target) target.length
      m.nAttnRound_ 0 hy0 []
    .ok (r.1.map (fun hyU => hyU.map (fun h => (List.range m.nClass_).map (m.linearOut h))), r.2)

/-- The loop of the sequential `decoder` at step `u`, `fuel` steps left.  State of the
loop: the previous-token input `y`, the decoder state, `outvec`, `alphaVec`, and the
list `fed` of the previous-token inputs passed to `decodeStep` so far (a ghost
record). -/
def decoderLoop (m : Seq2SeqModel) (rng : RandomDraws) (input target : Variable)
    (inputSizes targetSizes : Slice) (U : Nat) :
    (fuel u : Nat) → (y : Variable) → (state : Seq2SeqState) →
    (outvec alphaVec fed : List Variable) →
    Except ForwardErr (List Variable × List Variable × List Variable)
  | 0, _, _, _, outvec, alphaVec, fed => .ok (outvec, alphaVec, fed)
  | fuel + 1, u, y, state, outvec, alphaVec, fed =>
    match decodeStep m.toSeq2SeqCriterion input y state inputSizes targetSizes U with
    | .error e => .error (ForwardErr.decode e)
    | .ok (ox, state1) =>
      let next : Except ForwardErr (Variable × Variable) :=
        if m.train_ = false then .ok (targetRow target u, ox)
        else if m.samplingStrategy_ = SamplingStrategy.gumbel then
          .ok (rng.gumbelY u ox, rng.gumbelOx u ox)
        else if rng.percent u 0 ≤ m.pctTeacherForcing_ then .ok (targetRow target u, ox)
        else if m.samplingStrategy_ = SamplingStrategy.model then
          .ok (ox.map (fun col => [((argmax col : Nat) : Int)]), ox)
        else if m.samplingStrategy_ = SamplingStrategy.rand then
          .ok (target.mapIdx (fun b _ => [rng.token u b]), ox)
        else .error ForwardErr.invalidSamplingStrategy
      match next with
      | .error e => .error e
      | .ok (y1, ox1) =>
        decoderLoop m rng input target inputSizes targetSizes U fuel (u + 1) y1 state1
          (outvec ++ [ox1]) (alphaVec ++ [state1.alpha]) (fed ++ [y])

/-- Embedding of the sequential `Seq2SeqCriterion::decoder`: `outvec` (the slices of
`out`), `alphaVec`, and the record of the previous-token inputs fed to the steps.  The
final `concatenate` calls of the library are the identity on these lists of slices. -/
def decoder (m : Seq2SeqModel) (rng : RandomDraws) (input target : Variable)
    (inputSizes targetSizes : Slice) :
    Except ForwardErr (List Variable × List Variable × List Variable) :=
  decoderLoop m rng input target inputSizes targetSizes (dims0 target) (dims0 target) 0 []
    (m.newState m.nAttnRound_) [] [] []

/-- The optional third and fourth inputs as `forward` reads them: `inputSizes` is
empty for two inputs and `inputs[2]` otherwise; `targetSizes` is empty for three
inputs and `inputs[3]` otherwise.  Reading a position the list does not have is an
error. -/
def readSizes (inputs : List Variable) : Except ForwardErr (Slice × Slice) :=
  let inputSizes : Except ForwardErr Slice :=
    if inputs.length = 2 then .ok []
    else match inputs[2]? with
      | some v => .ok v.flatten
      | none => .error ForwardErr.outOfRange
  match inputSizes with
  | .error e => .error e
  | .ok inputSizes1 =>
    if inputs.length = 3 then .ok (inputSizes1, [])
    else match inputs[3]? with
      | some v => .ok (inputSizes1, v.flatten)
      | none => .error ForwardErr.outOfRange

/-- The decoding part of `forward`, for a given value of `useSequentialDecoder_`:
runs the chosen decoder and takes the log-softmax of its logits over the class
axis.  The result is `out` (`C x U x B`). -/
def decodeOut (m : Seq2SeqModel) (be : Backend) (rng : RandomDraws)
    (useSequentialDecoder_ : Bool) (input target : Variable) (inputSizes targetSizes : Slice) :
    Except ForwardErr (List Variable) :=
  let decoded : Except ForwardErr (List Variable) :=
    if useSequentialDecoder_ then
      match decoder m rng input target inputSizes targetSizes with
      | .error e => .error e
      | .ok r => .ok r.1
    else
      match vectorizedDecoder m rng input target inputSizes targetSizes with
      | .error e => .error e
      | .ok r => .ok r.1
  match decoded with
  | .error e => .error e
  | .ok out0 => .ok (out0.map (fun outU => outU.map (logSoftmax be)))

/-- The loss part of `forward`: the per-sequence losses of `out` and, in training mode
with a positive label-smoothing weight, their smoothing, which also replaces `out` by
its masked form.  Returns the losses and `out`. -/
def lossOf (m : Seq2SeqModel) (target : Variable) (out : List Variable) : List ℚ × List Variable :=
  let losses := m.crossEntropy out target m.pad_
  if m.train_ = true ∧ m.labelSmooth_ > 0 then
    let nClass : Nat := ((out.headD []).headD []).length
    let outMasked := m.applySeq2SeqMask out target m.pad_
    let smoothLoss := m.sumAll outMasked
    (List.zipWith (fun l s => (1 - m.labelSmooth_) * l - (m.labelSmooth_ / nClass) * s)
       losses smoothLoss, outMasked)
  else (losses, out)

/-- The body of `forward` after the inputs have been read: decoding, then the loss. -/
def forwardLoss (m : Seq2SeqModel) (be : Backend) (rng : RandomDraws)
    (useSequentialDecoder_ : Bool) (input target : Variable) (inputSizes targetSizes : Slice) :
    Except ForwardErr (List ℚ × List Variable) :=
  match decodeOut m be rng useSequentialDecoder_ input target inputSizes targetSizes with
  | .error e => .error e
  | .ok out => .ok (lossOf m target out)

/-- Embedding of `Seq2SeqCriterion::forward` for a given value of the member
`useSequentialDecoder_`. -/
def forwardWith (m : Seq2SeqModel) (be : Backend) (rng : RandomDraws)
    (useSequentialDecoder_ : Bool) (inputs : List Variable) :
    Except ForwardErr (List ℚ × List Variable) :=
  if inputs.length < 2 ∨ inputs.length > 4 then .error ForwardErr.invalidInputsSize
  else
    match inputs[0]?, inputs[1]? with
    | some input, some target =>
      match readSizes inputs with
      | .error e => .error e
      | .ok (inputSizes, targetSizes) =>
        forwardLoss m be rng useSequentialDecoder_ input target inputSizes targetSizes
    | _, _ => .error ForwardErr.outOfRange

/-- `forward` on a constructed criterion: the constructor has stored the value of
`setUseSequentialDecoder` in `useSequentialDecoder_`. -/
def forward (m : Seq2SeqModel) (be : Backend) (rng : RandomDraws) (inputs : List Variable) :
    Except ForwardErr (List ℚ × List Variable) :=
  forwardWith m be rng (setUseSequentialDecoder m) inputs

/-- Modelled from the spec: the token cross-entropy of the library is not part of the
sources.  For each sequence `b` it sums, over the positions `u` whose target token is
not `pad`, the negated log-probability `out[u][b][target[b][u]]`. -/
def tokenCrossEntropy (out : List Variable) (target : Variable) (pad : Int) : List ℚ :=
  target.mapIdx (fun b toks =>
    ((toks.mapIdx (fun u tok =>
      if tok = pad then (0 : Int) else - (((out.getD u []).getD b []).getD tok.toNat 0))).sum : Int))

/-- A sample model for concrete runs: the criterion `c` with content attention, no
label smoothing, sequence modules that leave the decoder input unchanged, and the
token cross-entropy as loss. -/
def sampleModel (c : Seq2SeqCriterion) : Seq2SeqModel :=
  { toSeq2SeqCriterion := c
    labelSmooth_ := 0
    attentionKind := AttentionKind.content
    windowIsMedian := false
    rnnSeq := fun _ hy => hy
    attentionSeq := fun _ hy _ _ _ => ([], hy.map (fun hyU => hyU.map (fun h => h.map (fun _ => 0))))
    computeVectorizedWindow := fun _ _ _ _ _ => []
    crossEntropy := tokenCrossEntropy
    applySeq2SeqMask := fun out _ _ => out
    sumAll := fun out => ((out.headD []).map (fun _ => (0 : ℚ))) }

/-- Sample random draws: every percentage drawn is `p`, every token drawn is `0`, and
the Gumbel noise leaves the logits unchanged. -/
def constDraws (p : Int) : RandomDraws :=
  { percent := fun _ _ => p
    token := fun _ _ => 0
    gumbelOx := fun _ ox => ox
    gumbelY := fun _ ox => ox }

/-- The bigram sample criterion (3 classes, end token 2) with a given sampling
strategy, teacher-forcing percentage, input-feeding flag and training flag. -/
def sampleConfig (strategy : SamplingStrategy) (pct : Int) (inputFeeding train : Bool) :
    Seq2SeqCriterion :=
  { bigramCriterion 3 2 2 [[0, -2, -9], [-5, -6, -1], [-1, -1, -50]] with
    samplingStrategy_ := strategy
    pctTeacherForcing_ := pct
    inputFeeding_ := inputFeeding
    train_ := train }

/-! ## ArrayFire dims and shapes (`fl/tensor/backend/af/Utils.cpp`)

An extent is a `dim_t`, a signed 64-bit integer; the element counts are products
computed in that type, reduced modulo `2 ^ 64` when they leave its range (the wrap-around
of two's complement hardware). -/

/-- Failures of the dims conversions: the `std::invalid_argument` of `flToAfDims`, and
a read of `d[idx]` outside the four entries of an `af::dim4`. -/
inductive DimsErr where
  | invalidArgument
  | outOfRange
  deriving DecidableEq, Repr

/-- An ArrayFire `af::dim4`: the four extents `dims[0..3]`. -/
structure dim4 where
  d0 : Int
  d1 : Int
  d2 : Int
  d3 : Int
  deriving DecidableEq, Repr

/-- The entry `d[idx]` of a `dim4`, for `idx ≤ 3`. -/
def dim4.get (d : dim4) : Nat → Int
  | 0 => d.d0
  | 1 => d.d1
  | 2 => d.d2
  | _ => d.d3

/-- The `dim_t` a computation with the mathematical result `x` yields: `x` itself
inside the 64-bit range, and `x` reduced modulo `2 ^ 64` into the range otherwise. -/
def wrapDim (x : Int) : Int :=
  (x + 9223372036854775808) % 18446744073709551616 - 9223372036854775808

/-- The element count `af::dim4::elements()`: the product of the four extents, computed
in `dim_t`. -/
def dim4.elements (d : dim4) : Int := wrapDim (d.d0 * d.d1 * d.d2 * d.d3)

/-- Modelled from the spec: the header declaring `Shape` is not part of the sources.
A shape is the list of its extents: `ndim()` is their number, `dim(i)` the extent `i`,
`elements()` their product. -/
abbrev Shape := List Int

/-- The number of dimensions `Shape::ndim()`. -/
def Shape.ndim (s : Shape) : Nat := s.length

/-- The element count `Shape::elements()`, a product computed in `Dim` (64 bits). -/
def Shape.elements (s : Shape) : Int := wrapDim s.prod

/-- Embedding of `detail::flToAfDims`: more than four dimensions are refused, a shape
without elements gives `af::dim4(0)`, which is `(0, 1, 1, 1)`, and otherwise the extents
overwrite the leading entries of `(1, 1, 1, 1)`. -/
def flToAfDims (shape : Shape) : Except DimsErr dim4 :=
  if Shape.ndim shape > 4 then .error .invalidArgument
  else if Shape.elements shape = 0 then .ok { d0 := 0, d1 := 1, d2 := 1, d3 := 1 }
  else .ok { d0 := shape.getD 0 1, d1 := shape.getD 1 1, d2 := shape.getD 2 1,
             d3 := shape.getD 3 1 }

/-- The backward scan `while (d[idx] == 1) --idx` of `afToFlDims`, entered at `idx`:
returns the index it stops at.  Decrementing the unsigned index 0 wraps around, and the
next read `d[idx]` is outside the four entries. -/
def afToFlDimsScan (d : dim4) : Nat → Except DimsErr Nat
  | 0 => if d.get 0 = 1 then .error .outOfRange else .ok 0
  | idx + 1 => if d.get (idx + 1) = 1 then afToFlDimsScan d idx else .ok (idx + 1)

/-- Embedding of `detail::afToFlDims`: no elements give the empty shape, one element
gives the shape `(1)`, and otherwise the shape holds the entries up to the last one that
is not 1 (`AF_MAX_DIMS` is 4, so the scan starts at index 3). -/
def afToFlDims (d : dim4) : Except DimsErr Shape :=
  if d.elements = 0 then .ok []
  else if d.elements = 1 then .ok [1]
  else
    match afToFlDimsScan d 3 with
    | .error e => .error e
    | .ok idx => .ok ((List.range (idx + 1)).map d.get)

/-! ## Per-round outputs of `decodeStep` -/

/-- The decoder input `hy` with which `decodeStep` enters its attention rounds: the
start embedding tiled over the batch when there is no previous token, the embedded
previous token otherwise, plus the previous summary under input feeding. -/
def stepInput (c : Seq2SeqCriterion) (xEncoded y : Variable) (inState : Seq2SeqState) :
    Variable :=
  let hy0 : Variable :=
    if y.isEmpty then List.replicate xEncoded.length c.startEmbedding
    else if c.train_ && c.samplingStrategy_ == SamplingStrategy.gumbel then y.map c.embeddingLinear
    else y.map c.embedding
  if c.inputFeeding_ && !y.isEmpty then addVar hy0 inState.summary else hy0

/-- What the attention rounds `i, i+1, ...` of `decodeStep` produce (`k` rounds
remain, `hy` enters round `i`): for each round the new hidden state of its recurrent
cell, computed from `inState.hidden[i]`, and the attention weights of its attention
module. -/
def roundOutputs (c : Seq2SeqCriterion) (xEncoded : Variable) (inState : Seq2SeqState)
    (inputSizes targetSizes : Slice) (maxDecoderSteps : Int) (batchsize : Nat) :
    (k i : Nat) → (hy : Variable) → List (Variable × Variable)
  | 0, _, _ => []
  | k + 1, i, hy =>
    let hiddenIn := inState.hidden.getD i []
    let rnnOut := hy.mapIdx (fun b h => c.decodeRNN i h (hiddenIn.getD b []))
    let hyR := rnnOut.map Prod.fst
    let windowWeight : Nat → Slice := fun b =>
      if c.hasWindow && (!c.train_ || c.trainWithWindow_) then
        c.computeWindow (inState.alpha.getD b []) inState.step maxDecoderSteps xEncoded
          batchsize inputSizes targetSizes b
      else []
    let attOut := hyR.mapIdx (fun b h =>
      c.attention i h xEncoded b (inState.alpha.getD b []) (windowWeight b) inputSizes)
    (rnnOut.map Prod.snd, attOut.map Prod.fst) ::
      roundOutputs c xEncoded inState inputSizes targetSizes maxDecoderSteps batchsize k (i + 1)
        (addVar hyR (attOut.map Prod.snd))

/-- A sample criterion with two attention rounds: round `i` leaves `hy` unchanged,
stores the hidden state `10 + i` and produces the attention weights `i + 1`. -/
def sampleTwoRounds : Seq2SeqCriterion :=
  { bigramCriterion 3 2 2 [[0, -2, -9], [-5, -6, -1], [-1, -1, -50]] with
    nAttnRound_ := 2
    decodeRNN := fun i hy _ => (hy, [10 + (i : Int)])
    attention := fun i _ _ _ _ _ _ => ([(i : Int) + 1], [0]) }

/-! ## Candidates of a beam-search round -/

/-- The live hypothesis the candidate loop builds from the flat candidate index `idx`:
score `scoreVec[idx]`, the path of the parent `beam[idx / nClass]` extended by the
class `idx % nClass`, and the parent's slice of the batched state. -/
def extendHypo (nClass : Nat) (beam : List CandidateHypo) (state : Seq2SeqState)
    (scoreVec : List Int) (idx : Nat) : CandidateHypo :=
  { score := scoreVec.getD idx 0
    path := (match beam[idx / nClass]? with
             | some hyp => hyp.path
             | none => []) ++ [((idx % nClass : Nat) : Int)]
    state := selectState state (idx / nClass) }

/-- The completed hypothesis the candidate loop builds from a flat candidate index
`idx` whose class is the end token: score `scoreVec[idx]`, the path of the parent
`beam[idx / nClass]` as it is, and the parent's slice of the batched state. -/
def finishHypo (nClass : Nat) (beam : List CandidateHypo) (state : Seq2SeqState)
    (scoreVec : List Int) (idx : Nat) : CandidateHypo :=
  { score := scoreVec.getD idx 0
    path := (match beam[idx / nClass]? with
             | some hyp => hyp.path
             | none => [])
    state := selectState state (idx / nClass) }

/-- The class of the flat candidate index `idx` is not the end token. -/
def nonEos (eos : Int) (nClass : Nat) (idx : Nat) : Bool :=
  decide (((idx % nClass : Nat) : Int) ≠ eos)

/-- The number of candidates the candidate loop of `beamSearch` examines before it
stops: the iterations of `for j ...`, counted along the loop itself. -/
def selectLoopSteps (eos : Int) (nClass beamSize : Nat) (beam : List CandidateHypo)
    (state : Seq2SeqState) (scoreVec : List Int) :
    (j : Nat) → (indices : List Nat) → (complete newBeam : List CandidateHypo) → Nat
  | _, [], _, _ => 0
  | j, idx :: rest, complete, newBeam =>
    match selectStep eos nClass beamSize beam state scoreVec j idx complete newBeam with
    | .error _ => 1
    | .ok (complete1, newBeam1) =>
      if newBeam1.length ≥ beamSize then 1
      else 1 + selectLoopSteps eos nClass beamSize beam state scoreVec (j + 1) rest complete1
        newBeam1

/-- Every token log-probability is at most 0: the entries of a log-softmax column are
not positive. -/
def NonPosLogProb (be : Backend) : Prop :=
  ∀ (col : Slice), ∀ v ∈ logSoftmax be col, v ≤ 0

/-- Adding a log-probability that is at most 0 does not raise a score: the
floating-point sum `s + v` with `v ≤ 0` is at most `s`. -/
def Backend.AddNonPos (be : Backend) : Prop :=
  ∀ (s v : Int), v ≤ 0 → be.add s v ≤ s

/-- The largest entry of a column (`0` for the empty column). -/
def colMax : Slice → Int
  | [] => 0
  | x :: xs => xs.foldl max x

/-- A backend with exact sorting and exact addition whose normaliser is the largest
logit, so that every log-probability is at most 0. -/
def maxBackend : Backend :=
  { logProb := fun col v => v - colMax col, add := fun s v => s + v, partialSort := sortAll }

/-! ### The `std::partial_sort` of libstdc++

The standard leaves the order of the places after the sorted part open.  The GNU
implementation (`bits/stl_algo.h`, `bits/stl_heap.h`) selects with a heap over the first
`k` places and then sorts the heap; the routines below follow it statement by statement,
on the array of positions, with `comp x y` for "`x` goes before `y`". -/

/-- The library `std::__push_heap(first, holeIndex, topIndex, value, comp)`: moves the
hole up while the parent goes before `value`, then stores `value` (`fuel` bounds the
number of moves). -/
def pushHeap (comp : Nat → Nat → Bool) (topIndex value : Nat) :
    (fuel : Nat) → (a : List Nat) → (holeIndex : Nat) → List Nat
  | 0, a, holeIndex => a.set holeIndex value
  | fuel + 1, a, holeIndex =>
    let parent := (holeIndex - 1) / 2
    if holeIndex > topIndex ∧ comp (a.getD parent 0) value = true then
      pushHeap comp topIndex value fuel (a.set holeIndex (a.getD parent 0)) parent
    else a.set holeIndex value

/-- The loop `while (secondChild < (len - 1) / 2)` of `std::__adjust_heap`: moves the
hole down to the child that does not go before the other.  Returns the array, the hole
and `secondChild`. -/
def adjustDown (comp : Nat → Nat → Bool) (len : Nat) :
    (fuel : Nat) → (a : List Nat) → (holeIndex secondChild : Nat) → List Nat × Nat × Nat
  | 0, a, holeIndex, secondChild => (a, holeIndex, secondChild)
  | fuel + 1, a, holeIndex, secondChild =>
    if secondChild < (len - 1) / 2 then
      let child := 2 * (secondChild + 1)
      let child1 := if comp (a.getD child 0) (a.getD (child - 1) 0) = true then child - 1 else child
      adjustDown comp len fuel (a.set holeIndex (a.getD child1 0)) child1 child1
    else (a, holeIndex, secondChild)

/-- The library `std::__adjust_heap(first, holeIndex, len, value, comp)`: the loop
above, the step `if ((len & 1) == 0 && secondChild == (len - 2) / 2)` for a last parent
with a single child, then `std::__push_heap` of `value` from the hole.  For `len = 0`
the signed quotient `(len - 2) / 2` is `-1` and the test fails, which the condition
`2 ≤ len` expresses over the natural numbers. -/
def adjustHeap (comp : Nat → Nat → Bool) (a : List Nat) (holeIndex len value : Nat) : List Nat :=
  let down := adjustDown comp len len a holeIndex holeIndex
  let last : List Nat × Nat :=
    if len % 2 = 0 ∧ 2 ≤ len ∧ down.2.2 = (len - 2) / 2 then
      (down.1.set down.2.1 (down.1.getD (2 * (down.2.2 + 1) - 1) 0), 2 * (down.2.2 + 1) - 1)
    else (down.1, down.2.1)
  pushHeap comp holeIndex value len last.1 last.2

/-- The library `std::__pop_heap(first, last, result, comp)` with `len = last - first`:
the value at `result` is taken out, the top of the heap is stored there, and the value
is sifted in from the top. -/
def popHeap (comp : Nat → Nat → Bool) (a : List Nat) (len result : Nat) : List Nat :=
  adjustHeap comp (a.set result (a.getD 0 0)) 0 len (a.getD result 0)

/-- The loop of `std::__make_heap`: `adjust_heap` for `parent`, `parent - 1`, ..., 0. -/
def makeHeapLoop (comp : Nat → Nat → Bool) (len : Nat) : (parent : Nat) → (a : List Nat) → List Nat
  | 0, a => adjustHeap comp a 0 len (a.getD 0 0)
  | parent + 1, a =>
    makeHeapLoop comp len parent (adjustHeap comp a (parent + 1) len (a.getD (parent + 1) 0))

/-- The library `std::__make_heap(first, first + len, comp)`. -/
def makeHeap (comp : Nat → Nat → Bool) (a : List Nat) (len : Nat) : List Nat :=
  if len < 2 then a else makeHeapLoop comp len ((len - 2) / 2) a

/-- The loop of `std::__heap_select` over the places `i = middle, ..., last - 1`
(`remaining` places left): a place that goes before the top of the heap is exchanged
with it through `std::__pop_heap`. -/
def heapSelectLoop (comp : Nat → Nat → Bool) (k : Nat) :
    (remaining i : Nat) → (a : List Nat) → List Nat
  | 0, _, a => a
  | remaining + 1, i, a =>
    heapSelectLoop comp k remaining (i + 1)
      (if comp (a.getD i 0) (a.getD 0 0) = true then popHeap comp a k i else a)

/-- The library `std::__sort_heap(first, first + last, comp)`:
`while (last - first > 1) { --last; pop_heap(first, last, last); }`. -/
def sortHeap (comp : Nat → Nat → Bool) : (last : Nat) → (a : List Nat) → List Nat
  | 0, a => a
  | last + 1, a => if last + 1 > 1 then sortHeap comp last (popHeap comp a last last) else a

/-- The `std::partial_sort` of libstdc++ on the positions `0 .. scores.length - 1` with
`middle = begin + k` and the comparison "greater score first": `std::__heap_select`
followed by `std::__sort_heap`. -/
def stdPartialSort (scores : List Int) (k : Nat) : List Nat :=
  let comp : Nat → Nat → Bool := fun x y => decide (scores.getD x 0 > scores.getD y 0)
  sortHeap comp k
    (heapSelectLoop comp k (scores.length - k) k (makeHeap comp (List.range scores.length) k))

/-- A backend with the partial sort of libstdc++, exact addition, and the largest logit
as normaliser, so that every log-probability is at most 0. -/
def stdBackend : Backend :=
  { logProb := fun col v => v - colMax col, add := fun s v => s + v,
    partialSort := stdPartialSort }

/-- A backend with the partial sort of libstdc++, exact addition, and a log-softmax of
coarse precision: the distance of a logit to the largest logit of its column is rounded
down to a multiple of 4, so that logits less than 4 below the largest one get the
log-probability 0. -/
def coarseBackend : Backend :=
  { logProb := fun col v => -((colMax col - v) / 4 * 4), add := fun s v => s + v,
    partialSort := stdPartialSort }

/-- Sample model (3 classes, end token 2): the first step ranks token 1 just above
token 0 and the end token far below; after either token the end token is best. -/
def sampleNearTie : Seq2SeqCriterion :=
  bigramCriterion 3 2 2 [[0, 1, -9], [-9, -9, 0], [-9, -9, 0]]

/-- Sample model with two classes (end token 1) whose logits are read from the hidden
state of a hypothesis: a state holding 0 gives the logits `(0, 0)`, a state holding 1 the
logits `(-1, 0)`.  The recurrent cell leaves every hypothesis in the state holding 1. -/
def sampleByHidden : Seq2SeqCriterion :=
  { bigramCriterion 2 1 5 [[0, 0], [-1, 0]] with
    decodeRNN := fun _ _ hidden => (hidden, [1]) }

/-- A single-sequence state at step 1 whose one hidden tensor holds `r` (sample
input). -/
def stateHolding (r : Int) : Seq2SeqState :=
  { alpha := [[0]], hidden := [[[r]]], summary := [[0]], step := 1, peakAttnPos := -1,
    isValid := false }

/-- A sample beam of eight hypotheses with path `[0]`: hypotheses 0 and 4 hold the hidden
state 0 and score -1, hypotheses 1 to 3 hold the hidden state 1 and score -1, hypotheses
5 to 7 hold the hidden state 1 and score 0. -/
def sampleEightBeam : List CandidateHypo :=
  [{ score := -1, path := [0], state := stateHolding 0 },
   { score := -1, path := [0], state := stateHolding 1 },
   { score := -1, path := [0], state := stateHolding 1 },
   { score := -1, path := [0], state := stateHolding 1 },
   { score := -1, path := [0], state := stateHolding 0 },
   { score := 0, path := [0], state := stateHolding 1 },
   { score := 0, path := [0], state := stateHolding 1 },
   { score := 0, path := [0], state := stateHolding 1 }]

/-- A sample beam of two hypotheses whose states share step 4 and the validity
flag. -/
def sampleTwoHypos : List CandidateHypo :=
  [{ score := 0, path := [0], state := stateOneHidden },
   { score := -1, path := [1], state := stateOneHiddenB }]

/-! ## Batched decoding for the external beam-search driver
(`decodeBatchStep`, `buildSeq2SeqRnnAmUpdateFunction`)

The previous states arrive as pointers: `Seq2SeqState*` in `decodeBatchStep` (never
null there in this model), `AMStatePtr` in the update function, where `none` stands for
a null pointer. -/

/-- Failures of the batched decode step and of the update function: the
`std::runtime_error` on a model with an active window, a read outside a `std::vector`,
and the use of a null previous state. -/
inductive BatchErr where
  | windowUnsupported
  | outOfRange
  | nullState
  deriving DecidableEq, Repr

/-- The loop "Batch Ys" of `decodeBatchStep` from position `i` on: an empty previous
token becomes the start embedding, any other one is embedded and, under input feeding,
added to the summary of `inStates[i]`. -/
def batchYs (c : Seq2SeqCriterion) (inStates : List Seq2SeqState) :
    (i : Nat) → (ys : List Variable) → Except BatchErr (List Variable)
  | _, [] => .ok []
  | i, y :: rest =>
    let yi : Except BatchErr Variable :=
      if y.isEmpty then .ok [c.startEmbedding]
      else if c.inputFeeding_ then
        match inStates[i]? with
        | none => .error .outOfRange
        | some s => .ok (addVar (y.map c.embedding) s.summary)
      else .ok (y.map c.embedding)
    match yi with
    | .error e => .error e
    | .ok v =>
      match batchYs c inStates (i + 1) rest with
      | .error e => .error e
      | .ok vs => .ok (v :: vs)

/-- The loop of `decodeBatchStep` that creates the output states, from position `i` on
(`k` states remain): a fresh `Seq2SeqState(nAttnRound_)` with the step of `inStates[i]`
plus one. -/
def newOutStates (c : Seq2SeqCriterion) (inStates : List Seq2SeqState) :
    (k i : Nat) → Except BatchErr (List Seq2SeqState)
  | 0, _ => .ok []
  | k + 1, i =>
    match inStates[i]? with
    | none => .error .outOfRange
    | some s =>
      match newOutStates c inStates k (i + 1) with
      | .error e => .error e
      | .ok os => .ok ({ c.newState c.nAttnRound_ with step := s.step + 1 } :: os)

/-- The loop `statesVector[i] = inStates[i]->hidden[n]` of `decodeBatchStep`, from
position `i` on (`k` states remain). -/
def gatherHidden (inStates : List Seq2SeqState) (n : Nat) :
    (k i : Nat) → Except BatchErr (List Variable)
  | 0, _ => .ok []
  | k + 1, i =>
    match inStates[i]? with
    | none => .error .outOfRange
    | some s =>
      match s.hidden[n]? with
      | none => .error .outOfRange
      | some h =>
        match gatherHidden inStates n k (i + 1) with
        | .error e => .error e
        | .ok hs => .ok (h :: hs)

/-- The per-hypothesis updates of round `n` of `decodeBatchStep`, from position `i`
on: the output state `i` receives its slice of the new hidden state, the attention
peak, the validity flag `|peak - previous peak| <= attentionThreshold`, and its slices
of the attention weights and of `yBatched`. -/
def updateOutStates (inStates : List Seq2SeqState) (attentionThreshold : Int) (n : Nat)
    (outStateBatched alphaBatched yBatched : Variable) :
    (i : Nat) → (outstates : List Seq2SeqState) → Except BatchErr (List Seq2SeqState)
  | _, [] => .ok []
  | i, o :: rest =>
    match inStates[i]? with
    | none => .error .outOfRange
    | some s =>
      match updateOutStates inStates attentionThreshold n outStateBatched alphaBatched yBatched
          (i + 1) rest with
      | .error e => .error e
      | .ok os =>
        let peak : Int := (argmax (alphaBatched.getD i []) : Nat)
        .ok ({ o with
               hidden := o.hidden.set n (index outStateBatched i)
               peakAttnPos := peak
               isValid := decide (|peak - s.peakAttnPos| ≤ attentionThreshold)
               alpha := index alphaBatched i
               summary := index yBatched i } :: os)

/-- The attention rounds `n, n+1, ...` of `decodeBatchStep` (`k` rounds remain),
carrying `yBatched` and the output states.  The recurrent cell gets no hidden state when
`inStates[0]->hidden[n]` is empty and the batched hidden states otherwise; a model with
an active window is refused; the attention gets neither previous weights nor a
window. -/
def batchRounds (c : Seq2SeqCriterion) (xEncoded : Variable) (inStates : List Seq2SeqState)
    (attentionThreshold : Int) (batchSize : Nat) :
    (k n : Nat) → (yBatched : Variable) → (outstates : List Seq2SeqState) →
    Except BatchErr (Variable × List Seq2SeqState)
  | 0, _, yBatched, outstates => .ok (yBatched, outstates)
  | k + 1, n, yBatched, outstates =>
    match inStates[0]? with
    | none => .error .outOfRange
    | some s0 =>
      match s0.hidden[n]? with
      | none => .error .outOfRange
      | some h0 =>
        let hiddenIn : Except BatchErr Variable :=
          if h0.isEmpty then .ok []
          else
            match gatherHidden inStates n batchSize 0 with
            | .error e => .error e
            | .ok statesVector => .ok (concatenate statesVector)
        match hiddenIn with
        | .error e => .error e
        | .ok inStateHiddenBatched =>
          let rnnOut := yBatched.mapIdx (fun b h =>
            c.decodeRNN n h (inStateHiddenBatched.getD b []))
          let yR := rnnOut.map Prod.fst
          let outStateBatched := rnnOut.map Prod.snd
          if c.hasWindow && (!c.train_ || c.trainWithWindow_) then .error .windowUnsupported
          else
            let attOut := yR.mapIdx (fun b h => c.attention n h xEncoded b [] [] [])
            let alphaBatched := attOut.map Prod.fst
            let summaries := attOut.map Prod.snd
            let yNext := addVar yR summaries
            match updateOutStates inStates attentionThreshold n outStateBatched alphaBatched
                yNext 0 outstates with
            | .error e => .error e
            | .ok outstates1 =>
              batchRounds c xEncoded inStates attentionThreshold batchSize k (n + 1) yNext
                outstates1

/-- Embedding of `Seq2SeqCriterion::decodeBatchStep`: the score vectors, one per
hypothesis, and the output states.  `divide col` is `col / smoothingTemperature`. -/
def decodeBatchStep (c : Seq2SeqCriterion) (be : Backend) (divide : Slice → Slice)
    (xEncoded : Variable) (ys : List Variable) (inStates : List Seq2SeqState)
    (attentionThreshold : Int) : Except BatchErr (List Slice × List Seq2SeqState) :=
  let batchSize := ys.length
  match batchYs c inStates 0 ys with
  | .error e => .error e
  | .ok ysEmbedded =>
    let yBatched := concatenate ysEmbedded
    match newOutStates c inStates batchSize 0 with
    | .error e => .error e
    | .ok outstates0 =>
      match batchRounds c xEncoded inStates attentionThreshold batchSize c.nAttnRound_ 0
          yBatched outstates0 with
      | .error e => .error e
      | .ok (yFinal, outstates) =>
        let outBatched := yFinal.map (fun h =>
          logSoftmax be (divide ((List.range c.nClass_).map (c.linearOut h))))
        .ok ((List.range batchSize).map (fun i => outBatched.getD i []), outstates)

theorem addVar_length (a b : Variable) : (addVar a b).length = a.length := by
  simp [addVar]

/-- The attention rounds succeed when the input state holds the hidden tensors they read. -/
theorem attnRounds_ok (c : Seq2SeqCriterion) (xEncoded : Variable) (inState : Seq2SeqState)
    (inputSizes targetSizes : Slice) (maxDecoderSteps : Int) (batchsize : Nat) :
    ∀ (k i : Nat) (hy : Variable) (outHidden : List Variable) (alpha summaries : Variable),
      i + k ≤ inState.hidden.length →
      ∃ hy1 oh a s,
        attnRounds c xEncoded inState inputSizes targetSizes maxDecoderSteps batchsize k i hy
          outHidden alpha summaries = .ok (hy1, oh, a, s) ∧
        hy1.length = hy.length ∧ oh.length = outHidden.length + k ∧
        (∀ h ∈ oh, h ∉ outHidden → h.length = hy.length) ∧
        (0 < k → a.length = hy.length ∧ s.length = hy.length) ∧
        (k = 0 → a = alpha ∧ s = summaries) := by
  intro k
  induction k with
  | zero =>
    intro i hy oh a s _
    exact ⟨hy, oh, a, s, rfl, rfl, rfl, fun h hh hn => absurd hh hn, fun h => absurd h (by decide),
      fun _ => ⟨rfl, rfl⟩⟩
  | succ k ih =>
    intro i hy oh a s hlen
    have hi : i < inState.hidden.length := by omega
    have hget : inState.hidden[i]? = some inState.hidden[i] := List.getElem?_eq_getElem hi
    simp only [attnRounds, hget]
    obtain ⟨hy1, oh1, a1, s1, heq, h1, h2, h3, h4, h5⟩ := ih (i + 1) _ (oh ++ [_]) _ _ (by omega)
    refine ⟨hy1, oh1, a1, s1, heq, ?_, ?_, ?_, ?_, ?_⟩
    · simpa [addVar_length] using h1
    · simp at h2; omega
    · intro h hh hn
      by_cases hmem : h ∈ oh ++ [List.map Prod.snd (List.mapIdx (fun b h => c.decodeRNN i h (inState.hidden[i].getD b [])) hy)]
      · simp at hmem
        rcases hmem with hmem | hmem
        · exact absurd hmem hn
        · subst hmem; simp
      · have := h3 h hh hmem
        simpa [addVar_length] using this
    · intro _
      rcases Nat.eq_zero_or_pos k with hk | hk
      · have := h5 hk
        rw [this.1, this.2]; simp
      · have := h4 hk
        simpa [addVar_length] using this
    · intro h; omega

/-- `decodeStep` succeeds on a state that holds one hidden tensor per attention round;
the new state holds one hidden tensor per round again, and every tensor it produces has
the batch size of the step. -/
theorem decodeStep_ok (c : Seq2SeqCriterion) (xEncoded y : Variable) (inState : Seq2SeqState)
    (inputSizes targetSizes : Slice) (maxDecoderSteps : Int)
    (h : c.nAttnRound_ ≤ inState.hidden.length) :
    ∃ ox st, decodeStep c xEncoded y inState inputSizes targetSizes maxDecoderSteps = .ok (ox, st) ∧
      st.hidden.length = c.nAttnRound_ ∧ st.step = inState.step + 1 ∧
      st.isValid = c.stateIsValid ∧ st.peakAttnPos = c.statePeakAttnPos ∧
      ox.length = stepBatch xEncoded y ∧ (∀ col ∈ ox, col.length = c.nClass_) ∧
      (∀ hd ∈ st.hidden, hd.length = stepBatch xEncoded y) ∧
      st.alpha.length ≤ stepBatch xEncoded y ∧ st.summary.length ≤ stepBatch xEncoded y := by
  obtain ⟨hy1, oh, a, s, heq, h1, h2, h3, h4, h5⟩ :=
    attnRounds_ok c xEncoded inState inputSizes targetSizes maxDecoderSteps
      (if y.isEmpty then xEncoded.length else y.length) c.nAttnRound_ 0
      (if c.inputFeeding_ && !y.isEmpty then
        addVar (if y.isEmpty then List.replicate xEncoded.length c.startEmbedding
          else if c.train_ && c.samplingStrategy_ == SamplingStrategy.gumbel then
            y.map c.embeddingLinear
          else y.map c.embedding) inState.summary
       else (if y.isEmpty then List.replicate xEncoded.length c.startEmbedding
          else if c.train_ && c.samplingStrategy_ == SamplingStrategy.gumbel then
            y.map c.embeddingLinear
          else y.map c.embedding)) [] [] [] (by simpa using h)
  have hd : decodeStep c xEncoded y inState inputSizes targetSizes maxDecoderSteps =
      .ok (hy1.map (fun h => (List.range c.nClass_).map (c.linearOut h)),
         { step := inState.step + 1
           peakAttnPos := c.statePeakAttnPos
           isValid := c.stateIsValid
           alpha := a
           hidden := oh
           summary := s }) := by
    simp only [decodeStep, heq]
  have hB : (if c.inputFeeding_ && !y.isEmpty then
        addVar (if y.isEmpty then List.replicate xEncoded.length c.startEmbedding
          else if c.train_ && c.samplingStrategy_ == SamplingStrategy.gumbel then
            y.map c.embeddingLinear
          else y.map c.embedding) inState.summary
       else (if y.isEmpty then List.replicate xEncoded.length c.startEmbedding
          else if c.train_ && c.samplingStrategy_ == SamplingStrategy.gumbel then
            y.map c.embeddingLinear
          else y.map c.embedding)).length = stepBatch xEncoded y := by
    simp only [stepBatch]
    split_ifs <;> simp [addVar_length]
  rw [hB] at h1 h3 h4
  refine ⟨_, _, hd, ?_, rfl, rfl, rfl, ?_, ?_, ?_, ?_, ?_⟩
  · simpa using h2
  · simp only [List.length_map, h1]
  · intro col hcol
    simp only [List.mem_map] at hcol
    obtain ⟨_, _, rfl⟩ := hcol
    simp
  · intro hd' hmem
    exact h3 hd' hmem (by simp)
  · show a.length ≤ _
    rcases Nat.eq_zero_or_pos c.nAttnRound_ with hz | hp
    · rw [(h5 hz).1]; simp
    · rw [(h4 hp).1]
  · show s.length ≤ _
    rcases Nat.eq_zero_or_pos c.nAttnRound_ with hz | hp
    · rw [(h5 hz).2]; simp
    · rw [(h4 hp).2]

theorem viterbiLoop_spec (c : Seq2SeqCriterion) (input : Slice) (inputT : Int)
    (inputSizes : Slice) (saveAttn : Bool) :
    ∀ (fuel : Nat) (y : Variable) (state : Seq2SeqState) (maxPath : List Int)
      (alphaVec : List Variable) (calls : Nat),
      c.nAttnRound_ ≤ state.hidden.length →
      (greedyTrace c input inputT inputSizes fuel y state).length = fuel ∧
      ∃ av k,
        viterbiLoop c input inputT inputSizes saveAttn fuel y state maxPath alphaVec calls =
          .ok (maxPath ++ (greedyTokens c input inputT inputSizes fuel y state).takeWhile
                (fun p => decide (p ≠ c.eos_)), av, calls + k) ∧
        k ≤ fuel ∧
        ((greedyTokens c input inputT inputSizes fuel y state).takeWhile
                (fun p => decide (p ≠ c.eos_))).length ≤ k := by
  intro fuel
  induction fuel with
  | zero =>
    intro y state maxPath alphaVec calls _
    exact ⟨rfl, alphaVec, 0, by simp [viterbiLoop, greedyTokens, greedyTrace], le_refl _, by
      simp [greedyTokens, greedyTrace]⟩
  | succ n ih =>
    intro y state maxPath alphaVec calls hh
    obtain ⟨ox, st, heq, hlen, -⟩ := decodeStep_ok c [input] y state inputSizes [] inputT hh
    have ih1 := fun mp av cl => ih [[(argmax (ox.headD []) : Nat)]] st mp av cl (by omega)
    have htr : greedyTrace c input inputT inputSizes (n + 1) y state =
        ox.headD [] :: greedyTrace c input inputT inputSizes n [[(argmax (ox.headD []) : Nat)]] st := by
      simp only [greedyTrace, heq]
    refine ⟨by rw [htr, List.length_cons, (ih1 [] [] 0).1], ?_⟩
    by_cases hp : ((argmax (ox.headD []) : Nat) : Int) = c.eos_
    · have htw : (greedyTokens c input inputT inputSizes (n + 1) y state).takeWhile
          (fun p => decide (p ≠ c.eos_)) = [] := by
        rw [greedyTokens, htr, List.map_cons, List.takeWhile_cons_of_neg]
        simp only [hp, ne_eq, not_true_eq_false, decide_False, Bool.false_eq_true,
          not_false_eq_true]
      rw [htw]
      refine ⟨if saveAttn then alphaVec ++ [st.alpha] else alphaVec, 1, ?_, by omega, by simp⟩
      simp only [viterbiLoop, heq, hp, if_true, List.append_nil]
    · have htw : (greedyTokens c input inputT inputSizes (n + 1) y state).takeWhile
          (fun p => decide (p ≠ c.eos_)) = ((argmax (ox.headD []) : Nat) : Int) ::
            (greedyTokens c input inputT inputSizes n [[(argmax (ox.headD []) : Nat)]] st).takeWhile
              (fun p => decide (p ≠ c.eos_)) := by
        rw [greedyTokens, htr, List.map_cons, List.takeWhile_cons_of_pos]
        · rfl
        · simp only [ne_eq, hp, not_false_eq_true, decide_True]
      rw [htw]
      obtain ⟨-, av, k, hk, hk1, hk2⟩ := ih1 (maxPath ++ [((argmax (ox.headD []) : Nat) : Int)])
        (if saveAttn then alphaVec ++ [st.alpha] else alphaVec) (calls + 1)
      refine ⟨av, k + 1, ?_, by omega, ?_⟩
      · simp only [viterbiLoop, heq, hp, if_false]
        rw [hk, List.append_assoc, List.singleton_append, Nat.add_assoc, Nat.add_comm 1 k]
      · rw [List.length_cons]; omega

theorem newState_hidden_length (c : Seq2SeqCriterion) (n : Nat) :
    (c.newState n).hidden.length = n := by
  simp [Seq2SeqCriterion.newState]

/-- The greedy decode never fails: its run is the greedy trajectory cut at the first
end token. -/
theorem viterbiRun_spec (c : Seq2SeqCriterion) (input : Slice) (inputT : Int)
    (inputSizes : Slice) (saveAttn : Bool) :
    (greedyTokens c.eval input inputT inputSizes c.maxDecoderOutputLen_ []
        (c.newState c.nAttnRound_)).length = c.maxDecoderOutputLen_ ∧
    ∃ av k,
      viterbiRun c input inputT inputSizes saveAttn =
        .ok ((greedyTokens c.eval input inputT inputSizes c.maxDecoderOutputLen_ []
            (c.newState c.nAttnRound_)).takeWhile (fun p => decide (p ≠ c.eos_)), av, k) ∧
      k ≤ c.maxDecoderOutputLen_ ∧
      ((greedyTokens c.eval input inputT inputSizes c.maxDecoderOutputLen_ []
            (c.newState c.nAttnRound_)).takeWhile (fun p => decide (p ≠ c.eos_))).length ≤ k := by
  have h := viterbiLoop_spec c.eval input inputT inputSizes saveAttn c.maxDecoderOutputLen_ []
    (c.newState c.nAttnRound_) [] [] 0
    (by rw [newState_hidden_length]; exact le_refl _)
  obtain ⟨h1, av, k, h2, h3, h4⟩ := h
  refine ⟨by rw [greedyTokens, List.length_map, h1], av, k, ?_, h3, h4⟩
  rw [viterbiRun, h2, List.nil_append, Nat.zero_add]
  rfl

theorem readHidden_ok (state : Seq2SeqState) :
    ∀ (n i : Nat), i + n ≤ state.hidden.length →
      readHidden state n i = .ok ((state.hidden.drop i).take n) := by
  intro n
  induction n with
  | zero => intro i _; simp [readHidden]
  | succ n ih =>
    intro i h
    have hi : i < state.hidden.length := by omega
    have hd : state.hidden.drop i = state.hidden[i] :: state.hidden.drop (i + 1) :=
      List.drop_eq_getElem_cons hi
    simp only [readHidden, List.getElem?_eq_getElem hi, ih (i + 1) (by omega), hd, List.take_succ_cons]

theorem readHidden_error (state : Seq2SeqState) :
    ∀ (n i : Nat), i ≤ state.hidden.length → state.hidden.length < i + n →
      readHidden state n i = .error .outOfRange := by
  intro n
  induction n with
  | zero => intro i h h2; omega
  | succ n ih =>
    intro i h0 h
    by_cases hi : i < state.hidden.length
    · simp only [readHidden, List.getElem?_eq_getElem hi, ih (i + 1) (by omega) (by omega)]
    · have : state.hidden[i]? = none := List.getElem?_eq_none (by omega)
      simp only [readHidden, this]

/-- What makes the loop of `concatState` stop on a state: a different step, a different
validity flag, or fewer hidden tensors than the loop reads. -/
theorem concatLoop_error_iff (step : Int) (isValid : Bool) (n : Nat) (sv : List Seq2SeqState) :
    (∃ e, concatLoop step isValid n sv = .error e) ↔
      ∃ s ∈ sv, s.step ≠ step ∨ s.isValid ≠ isValid ∨ s.hidden.length < n := by
  induction sv with
  | nil => simp [concatLoop]
  | cons s rest ih =>
    by_cases h1 : s.step = step
    · by_cases h2 : s.isValid = isValid
      · by_cases h3 : n ≤ s.hidden.length
        · have hr := readHidden_ok s n 0 (by omega)
          cases hc : concatLoop step isValid n rest with
          | error e =>
            have : ∃ s ∈ rest, s.step ≠ step ∨ s.isValid ≠ isValid ∨ s.hidden.length < n :=
              ih.mp ⟨e, hc⟩
            obtain ⟨t, ht, hb⟩ := this
            constructor
            · intro _; exact ⟨t, List.mem_cons_of_mem _ ht, hb⟩
            · intro _; exact ⟨e, by simp only [concatLoop, h1, h2, hr, hc]; simp⟩
          | ok v =>
            obtain ⟨a, hv, sm⟩ := v
            have hno : ¬ ∃ s ∈ rest, s.step ≠ step ∨ s.isValid ≠ isValid ∨ s.hidden.length < n := by
              intro hex
              obtain ⟨e, he⟩ := ih.mpr hex
              rw [hc] at he; cases he
            constructor
            · intro ⟨e, he⟩
              simp only [concatLoop, h1, h2, hr, hc] at he
              simp at he
            · intro ⟨t, ht, hb⟩
              rcases List.mem_cons.mp ht with rfl | ht
              · exfalso; rcases hb with hb | hb | hb
                · exact hb h1
                · exact hb h2
                · omega
              · exact absurd ⟨t, ht, hb⟩ hno
        · constructor
          · intro _; exact ⟨s, List.mem_cons_self _ _, Or.inr (Or.inr (by omega))⟩
          · intro _
            have hr := readHidden_error s n 0 (by omega) (by omega)
            exact ⟨.outOfRange, by simp [concatLoop, h1, h2, hr]⟩
      · constructor
        · intro _; exact ⟨s, List.mem_cons_self _ _, Or.inr (Or.inl h2)⟩
        · intro _; exact ⟨.isValidUnmatched, by simp [concatLoop, h1, h2]⟩
    · constructor
      · intro _; exact ⟨s, List.mem_cons_self _ _, Or.inl h1⟩
      · intro _; exact ⟨.stepUnmatched, by simp [concatLoop, h1]⟩

/-- The vectors the loop of `concatState` builds when it does not stop. -/
theorem concatLoop_ok (step : Int) (isValid : Bool) (n : Nat) (sv : List Seq2SeqState)
    (h : ∀ s ∈ sv, s.step = step ∧ s.isValid = isValid ∧ n ≤ s.hidden.length) :
    ∃ hv, concatLoop step isValid n sv =
        .ok (sv.map (fun s => s.alpha), hv, sv.map (fun s => s.summary)) ∧
      hv.length = n ∧
      ∀ r, r < n → hv.getD r [] = sv.map (fun s => s.hidden.getD r []) := by
  induction sv with
  | nil =>
    refine ⟨List.replicate n [], rfl, by simp, ?_⟩
    intro r hr
    simp [List.getD_eq_getElem?_getD, List.getElem?_replicate, hr]
  | cons s rest ih =>
    obtain ⟨hv, hc, hl, hg⟩ := ih (fun t ht => h t (List.mem_cons_of_mem _ ht))
    obtain ⟨h1, h2, h3⟩ := h s (List.mem_cons_self _ _)
    have hr := readHidden_ok s n 0 (by omega)
    refine ⟨List.zipWith (fun h col => h :: col) ((s.hidden.drop 0).take n) hv, ?_, ?_, ?_⟩
    · simp only [concatLoop, h1, h2, hr, hc]
      simp
    · simp [hl, h3]
    · intro r hrn
      have hg' := hg r hrn
      have hrl : r < hv.length := by omega
      have hrs : r < s.hidden.length := by omega
      simp only [List.getD_eq_getElem?_getD] at hg' ⊢
      rw [List.getElem?_eq_getElem hrl] at hg'
      simp only [Option.getD_some] at hg'
      simp [List.getElem?_zipWith, List.getElem?_take, hrn, List.getElem?_eq_getElem hrl,
        List.getElem?_eq_getElem hrs, hg']

theorem index_concatenate_singletons :
    ∀ (vs : List Variable) (i : Nat) (hi : i < vs.length), (∀ v ∈ vs, v.length = 1) →
      index (concatenate vs) i = vs[i] := by
  intro vs
  induction vs with
  | nil => intro i hi; simp at hi
  | cons v vs ih =>
    intro i hi h
    have hv := h v (List.mem_cons_self _ _)
    obtain ⟨x, rfl⟩ := List.length_eq_one.mp hv
    cases i with
    | zero => simp [index, concatenate]
    | succ i =>
      have := ih i (by simpa using hi) (fun w hw => h w (List.mem_cons_of_mem _ hw))
      simpa [index, concatenate] using this

theorem selectStep_sizes (eos : Int) (nClass W : Nat) (beam : List CandidateHypo)
    (state : Seq2SeqState) (scoreVec : List Int) (j idx : Nat)
    (complete newBeam c1 nb1 : List CandidateHypo)
    (h : selectStep eos nClass W beam state scoreVec j idx complete newBeam = .ok (c1, nb1)) :
    nb1.length ≤ newBeam.length + 1 ∧ newBeam.length ≤ nb1.length ∧
    complete.length ≤ c1.length ∧ c1.length ≤ complete.length + (if j < W then 1 else 0) := by
  unfold selectStep at h
  dsimp only at h
  cases hb : beam[idx / nClass]? with
  | none => rw [hb] at h; cases h
  | some hyp =>
    rw [hb] at h
    dsimp only at h
    cases hs : scoreVec[idx]? with
    | none =>
      rw [hs] at h
      split_ifs at h with h1 h2
      · simp only [Except.ok.injEq, Prod.mk.injEq] at h
        obtain ⟨rfl, rfl⟩ := h
        simp
    | some sc =>
      rw [hs] at h
      split_ifs at h with h1 h2 <;> simp only [Except.ok.injEq, Prod.mk.injEq] at h <;>
        obtain ⟨rfl, rfl⟩ := h
      · simp [h1.1]
      · simp
      · simp

theorem selectLoop_sizes (eos : Int) (nClass W : Nat) (beam : List CandidateHypo)
    (state : Seq2SeqState) (scoreVec : List Int) :
    ∀ (indices : List Nat) (j : Nat) (complete newBeam c1 nb1 : List CandidateHypo),
      newBeam.length < W →
      selectLoop eos nClass W beam state scoreVec j indices complete newBeam = .ok (c1, nb1) →
      nb1.length ≤ W ∧ c1.length ≤ complete.length + (W - j) := by
  intro indices
  induction indices with
  | nil =>
    intro j complete newBeam c1 nb1 hnb h
    simp only [selectLoop, Except.ok.injEq, Prod.mk.injEq] at h
    obtain ⟨rfl, rfl⟩ := h
    exact ⟨by omega, by omega⟩
  | cons idx rest ih =>
    intro j complete newBeam c1 nb1 hnb h
    simp only [selectLoop] at h
    cases hs : selectStep eos nClass W beam state scoreVec j idx complete newBeam with
    | error e => rw [hs] at h; cases h
    | ok v =>
      obtain ⟨c2, nb2⟩ := v
      rw [hs] at h
      simp only at h
      have hsz := selectStep_sizes eos nClass W beam state scoreVec j idx complete newBeam c2 nb2 hs
      split_ifs at h with hfull
      · simp only [Except.ok.injEq, Prod.mk.injEq] at h
        obtain ⟨rfl, rfl⟩ := h
        refine ⟨by omega, ?_⟩
        have := hsz.2.2.2
        split_ifs at this <;> omega
      · have := ih (j + 1) c2 nb2 c1 nb1 (by omega) h
        refine ⟨this.1, ?_⟩
        have h4 := hsz.2.2.2
        split_ifs at h4 <;> omega

theorem trimComplete_length (be : Backend) (W : Nat) (complete : List CandidateHypo) :
    (trimComplete be W complete).length ≤ W := by
  simp [trimComplete, List.length_take]

theorem beamRound_sizes (c : Seq2SeqCriterion) (be : Backend) (input : Slice) (inputT : Int)
    (inputSizes : Slice) (W : Nat) (hW : 1 ≤ W) (beam complete b1 c1 : List CandidateHypo)
    (stop : Bool)
    (h : beamRound c be input inputT inputSizes W beam complete = .ok (b1, c1, stop)) :
    b1.length ≤ W ∧ c1.length ≤ W := by
  unfold beamRound at h
  split at h
  · cases h
  · rename_i state scoreVec indices _
    split at h
    · cases h
    · rename_i cm nb hsl
      have hsz := selectLoop_sizes c.eos_ c.nClass_ W beam state scoreVec indices 0 complete []
        cm nb (by simpa using hW) hsl
      split_ifs at h with hge
      · dsimp only at h
        split at h
        · simp only [Except.ok.injEq, Prod.mk.injEq] at h
          obtain ⟨rfl, rfl, -⟩ := h
          exact ⟨hsz.1, trimComplete_length be W cm⟩
        · cases h
      · simp only [Except.ok.injEq, Prod.mk.injEq] at h
        obtain ⟨rfl, rfl, -⟩ := h
        exact ⟨hsz.1, by omega⟩

theorem beamLoop_sizes (c : Seq2SeqCriterion) (be : Backend) (input : Slice) (inputT : Int)
    (inputSizes : Slice) (W : Nat) (hW : 1 ≤ W) :
    ∀ (fuel : Nat) (beam complete : List CandidateHypo) (rounds r : Nat)
      (b1 c1 : List CandidateHypo),
      beam.length ≤ W → complete.length ≤ W →
      beamLoop c be input inputT inputSizes W fuel beam complete rounds = (r, .ok (b1, c1)) →
      b1.length ≤ W ∧ c1.length ≤ W := by
  intro fuel
  induction fuel with
  | zero =>
    intro beam complete rounds r b1 c1 hb hc h
    simp only [beamLoop, Prod.mk.injEq, Except.ok.injEq] at h
    obtain ⟨-, rfl, rfl⟩ := h
    exact ⟨hb, hc⟩
  | succ n ih =>
    intro beam complete rounds r b1 c1 hb hc h
    simp only [beamLoop] at h
    cases hr : beamRound c be input inputT inputSizes W beam complete with
    | error e => rw [hr] at h; simp at h
    | ok v =>
      obtain ⟨b2, c2, stop⟩ := v
      rw [hr] at h
      simp only at h
      have hsz := beamRound_sizes c be input inputT inputSizes W hW beam complete b2 c2 stop hr
      split_ifs at h
      · simp only [Prod.mk.injEq, Except.ok.injEq] at h
        obtain ⟨-, rfl, rfl⟩ := h
        exact hsz
      · exact ih b2 c2 (rounds + 1) r b1 c1 hsz.1 hsz.2 h

/-- The outcome of the loop body on a candidate whose hypothesis and score exist. -/
theorem selectStep_ok (eos : Int) (nClass W : Nat) (beam : List CandidateHypo)
    (state : Seq2SeqState) (scoreVec : List Int) (j idx : Nat)
    (complete newBeam : List CandidateHypo) (hyp : CandidateHypo) (sc : Int)
    (hb : beam[idx / nClass]? = some hyp) (hs : scoreVec[idx]? = some sc) :
    selectStep eos nClass W beam state scoreVec j idx complete newBeam =
      .ok (if ((idx % nClass : Nat) : Int) = eos then
             (if j < W then
                (complete ++ [{ score := sc, path := hyp.path,
                                state := selectState state (idx / nClass) }], newBeam)
              else (complete, newBeam))
           else
             (complete, newBeam ++ [{ score := sc, path := hyp.path ++ [((idx % nClass : Nat) : Int)],
                                      state := selectState state (idx / nClass) }])) := by
  by_cases h1 : ((idx % nClass : Nat) : Int) = eos
  · by_cases h2 : j < W
    · simp only [selectStep, hb, hs, h1, h2, and_self, if_true, List.dropLast_concat]
    · simp only [selectStep, hb, hs, h1, h2, false_and, if_false, ne_eq, not_true_eq_false,
        if_true]
  · simp only [selectStep, hb, hs, h1, and_false, if_false, ne_eq, not_false_eq_true, if_true]

theorem argmaxGo_spec :
    ∀ (xs : Slice) (i best : Nat) (bestVal : Int) (pre : Slice),
      pre.length = i → best < i → pre.getD best 0 = bestVal →
      (∀ p, p < i → pre.getD p 0 ≤ bestVal) →
      argmaxGo xs i best bestVal < (pre ++ xs).length ∧
      ∀ p, p < (pre ++ xs).length →
        (pre ++ xs).getD p 0 ≤ (pre ++ xs).getD (argmaxGo xs i best bestVal) 0 := by
  intro xs
  induction xs with
  | nil =>
    intro i best bestVal pre hlen hb hv hmax
    simp only [argmaxGo, List.append_nil]
    exact ⟨by omega, fun p hp => by rw [hv]; exact hmax p (by omega)⟩
  | cons x xs ih =>
    intro i best bestVal pre hlen hb hv hmax
    have hpre : pre ++ x :: xs = (pre ++ [x]) ++ xs := by simp
    have hlen' : (pre ++ [x]).length = i + 1 := by simp [hlen]
    have hx : (pre ++ [x]).getD i 0 = x := by
      simp [List.getD_eq_getElem?_getD, List.getElem?_append_right, hlen]
    have hold : ∀ p, p < i → (pre ++ [x]).getD p 0 = pre.getD p 0 := by
      intro p hp
      simp [List.getD_eq_getElem?_getD, List.getElem?_append_left, hlen, hp]
    simp only [argmaxGo]
    rw [hpre]
    split_ifs with hlt
    · apply ih (i + 1) i x (pre ++ [x]) hlen' (by omega) hx
      intro p hp
      rcases Nat.lt_succ_iff_lt_or_eq.mp hp with h | h
      · rw [hold p h]; exact le_trans (hmax p h) (le_of_lt hlt)
      · rw [h, hx]
    · apply ih (i + 1) best bestVal (pre ++ [x]) hlen' (by omega) (by rw [hold best hb]; exact hv)
      intro p hp
      rcases Nat.lt_succ_iff_lt_or_eq.mp hp with h | h
      · rw [hold p h]; exact hmax p h
      · rw [h, hx]; exact not_lt.mp hlt

/-- `argmax` returns a position of a largest entry. -/
theorem argmax_spec (col : Slice) (hne : col ≠ []) :
    argmax col < col.length ∧ ∀ p, p < col.length → col.getD p 0 ≤ col.getD (argmax col) 0 := by
  cases col with
  | nil => exact absurd rfl hne
  | cons x xs =>
    have := argmaxGo_spec xs 1 0 x [x] rfl (by decide) rfl (by
      intro p hp
      have : p = 0 := by omega
      subst this; simp)
    simpa [argmax] using this

/-- With a unique strict maximum, `argmax` is its position. -/
theorem argmax_of_uniqueMax (col : Slice) (m : Nat) (hm : m < col.length)
    (h : ∀ j, j < col.length → j ≠ m → col.getD j 0 < col.getD m 0) : argmax col = m := by
  have hne : col ≠ [] := by intro h0; subst h0; simp at hm
  obtain ⟨h1, h2⟩ := argmax_spec col hne
  by_contra hc
  have := h (argmax col) h1 hc
  have := h2 m hm
  omega

theorem refBackend_lawful : refBackend.Lawful := by
  intro scores k
  constructor
  · exact List.perm_insertionSort _ _
  · intro i j hij _ hj
    have hs : List.Sorted (fun a b => scores.getD b 0 ≤ scores.getD a 0)
        (sortAll scores k) := by
      haveI : IsTotal Nat (fun a b => scores.getD b 0 ≤ scores.getD a 0) :=
        ⟨fun a b => le_total _ _⟩
      haveI : IsTrans Nat (fun a b => scores.getD b 0 ≤ scores.getD a 0) :=
        ⟨fun a b c h1 h2 => le_trans h2 h1⟩
      exact List.sorted_insertionSort _ _
    have hp := List.pairwise_iff_getElem.mp hs i j (by change i < (sortAll scores k).length; change j < (sortAll scores k).length at hj; omega) hj hij
    change j < (sortAll scores k).length at hj
    have hi : i < (sortAll scores k).length := by omega
    show scores.getD ((sortAll scores k).getD j 0) 0 ≤ scores.getD ((sortAll scores k).getD i 0) 0
    simpa [List.getD_eq_getElem?_getD, List.getElem?_eq_getElem hi, List.getElem?_eq_getElem hj]
      using hp

/-- With a unique strict maximum at position `m`, a lawful partial sort with a non-empty
sorted part puts `m` first. -/
theorem partialSort_head (be : Backend) (hbe : be.Lawful) (scores : List Int) (k m : Nat)
    (hk : 1 ≤ k) (hm : m < scores.length)
    (h : ∀ j, j < scores.length → j ≠ m → scores.getD j 0 < scores.getD m 0) :
    ∃ rest, be.partialSort scores k = m :: rest ∧ (∀ i ∈ rest, i ≠ m ∧ i < scores.length) ∧
      rest.length + 1 = scores.length := by
  obtain ⟨hperm, hord⟩ := hbe scores k
  have hlen : (be.partialSort scores k).length = scores.length := by
    simpa using hperm.length_eq
  have hnodup : (be.partialSort scores k).Nodup := hperm.nodup_iff.mpr (List.nodup_range _)
  have hmem : ∀ i, i ∈ be.partialSort scores k ↔ i < scores.length := by
    intro i; rw [hperm.mem_iff]; simp
  cases hout : be.partialSort scores k with
  | nil => rw [hout] at hlen; simp at hlen; omega
  | cons i0 rest =>
    rw [hout] at hlen hnodup hord
    have hi0 : i0 < scores.length := (hmem i0).mp (by rw [hout]; exact List.mem_cons_self _ _)
    have h0 : i0 = m := by
      by_contra hne
      have hm' : m ∈ i0 :: rest := by rw [← hout]; exact (hmem m).mpr hm
      rcases List.mem_cons.mp hm' with h1 | h1
      · exact hne h1.symm
      · obtain ⟨j, hj, hjm⟩ := List.getElem_of_mem h1
        have := hord 0 (j + 1) (by omega) (by omega) (by simp; omega)
        simp only [List.getD_eq_getElem?_getD, List.getElem?_cons_succ, List.getElem?_cons_zero,
          Option.getD_some, List.getElem?_eq_getElem hj, hjm] at this
        have := h i0 hi0 hne
        simp only [List.getD_eq_getElem?_getD] at this
        omega
    subst h0
    refine ⟨rest, rfl, ?_, by simpa using hlen⟩
    intro i hi
    refine ⟨?_, (hmem i).mp (by rw [hout]; exact List.mem_cons_of_mem _ hi)⟩
    rintro rfl
    exact (List.nodup_cons.mp hnodup).1 hi

theorem index_zero_self (v : Variable) (h : v.length ≤ 1) : index v 0 = v := by
  cases v with
  | nil => rfl
  | cons x xs =>
    cases xs with
    | nil => rfl
    | cons y ys => simp at h

theorem selectState_zero (st : Seq2SeqState) (ha : st.alpha.length ≤ 1)
    (hs : st.summary.length ≤ 1) (hh : ∀ h ∈ st.hidden, h.length ≤ 1) :
    selectState st 0 = st := by
  cases st with
  | mk alpha hidden summary step peak valid =>
    simp only [selectState, Seq2SeqState.mk.injEq, and_true, true_and]
    refine ⟨index_zero_self _ ha, ?_, index_zero_self _ hs⟩
    have : ∀ l : List Variable, (∀ h ∈ l, h.length ≤ 1) → l.map (fun h => index h 0) = l := by
      intro l hl
      induction l with
      | nil => rfl
      | cons a l ih =>
        simp only [List.map_cons, List.cons.injEq]
        exact ⟨index_zero_self a (hl a (List.mem_cons_self _ _)),
          ih (fun h hm => hl h (List.mem_cons_of_mem _ hm))⟩
    exact this hidden hh

theorem concatState_singleton (st : Seq2SeqState) : concatState [st] = .ok st := by
  obtain ⟨hv, hc, hl, hg⟩ := concatLoop_ok st.step st.isValid st.hidden.length [st]
    (by intro s hs; simp at hs; subst hs; exact ⟨rfl, rfl, le_refl _⟩)
  have hhid : hv.map concatenate = st.hidden := by
    apply List.ext_getElem
    · simp [hl]
    · intro r h1 h2
      have hr : r < hv.length := by simpa using h1
      have := hg r (by omega)
      simp only [List.getD_eq_getElem?_getD, List.getElem?_eq_getElem hr, Option.getD_some,
        List.getElem?_eq_getElem h2, List.map_cons, List.map_nil] at this
      simp [this, concatenate]
  simp only [concatState, hc, hhid]
  simp [concatenate]

theorem prevYOf_length (hyp : CandidateHypo) : (prevYOf hyp).length ≤ 1 := by
  unfold prevYOf
  split <;> simp

theorem stepBatch_prevYOf (input : Slice) (hyp : CandidateHypo) :
    stepBatch [input] (prevYOf hyp) = 1 := by
  unfold stepBatch prevYOf
  cases hyp.path.getLast? <;> simp

theorem dims1_prevYOf (hyp : CandidateHypo) : dims1 (prevYOf hyp) = 1 := by
  unfold dims1 prevYOf
  cases hyp.path.getLast? <;> simp

theorem tile_one (s : Slice) : tile s 1 = s := by
  simp [tile]

/-- The first half of a round on a beam of one hypothesis: the decode step is the one
the greedy decode makes, and the flat scores are the hypothesis score added to the
log-softmax of its logits. -/
theorem expandBeam_singleton (c : Seq2SeqCriterion) (be : Backend) (input : Slice)
    (inputT : Int) (inputSizes : Slice) (W : Nat) (hyp : CandidateHypo)
    (ox : Variable) (st : Seq2SeqState)
    (hd : decodeStep c [input] (prevYOf hyp) hyp.state inputSizes [] inputT = .ok (ox, st))
    (hox : ox.length = 1) :
    expandBeam c be input inputT inputSizes W [hyp] =
      .ok (st, (logSoftmax be (ox.headD [])).map (fun v => be.add hyp.score v),
        be.partialSort ((logSoftmax be (ox.headD [])).map (fun v => be.add hyp.score v))
          (min (2 * W) ((logSoftmax be (ox.headD [])).map
            (fun v => be.add hyp.score v)).length)) := by
  obtain ⟨col, rfl⟩ := List.length_eq_one.mp hox
  have hcat : concatenate (List.map prevYOf [hyp]) = prevYOf hyp := by simp [concatenate]
  simp only [expandBeam, List.map_cons, List.map_nil, concatState_singleton]
  rw [show concatenate [prevYOf hyp] = prevYOf hyp from by simp [concatenate]]
  rw [dims1_prevYOf, tile_one, hd]
  simp [flatScores]

theorem trimComplete_singleton (be : Backend) (hbe : be.Lawful) (h : CandidateHypo) :
    trimComplete be 1 [h] = [h] := by
  have hp := (hbe [h.score] 1).1
  have hr : List.range [h.score].length = [0] := rfl
  rw [hr] at hp
  have : be.partialSort [h.score] 1 = [0] := List.perm_singleton.mp hp
  simp [trimComplete, this]

/-- Entry `j` of the candidate scores of a single hypothesis. -/
theorem getD_map_score (be : Backend) (col : Slice) (a : Int) (j : Nat) (hj : j < col.length) :
    ((logSoftmax be col).map (fun v => be.add a v)).getD j 0 =
      be.add a (be.logProb col (col.getD j 0)) := by
  simp [logSoftmax, List.getD_eq_getElem?_getD, List.getElem?_eq_getElem hj]

/-- When rounding keeps the order, a unique strict maximum of the candidate scores of a
single hypothesis sits at the unique strict maximum of its logits, which the greedy
decode picks. -/
theorem argmax_of_scores_uniqueMax (be : Backend) (hM : be.Monotone) (col : Slice) (a : Int)
    (m : Nat) (hm : m < col.length)
    (hmax : ∀ j, j < col.length → j ≠ m →
      ((logSoftmax be col).map (fun v => be.add a v)).getD j 0 <
        ((logSoftmax be col).map (fun v => be.add a v)).getD m 0) :
    argmax col = m := by
  apply argmax_of_uniqueMax col m hm
  intro j hj hne
  have h := hmax j hj hne
  rw [getD_map_score be col a j hj, getD_map_score be col a m hm] at h
  by_contra hle
  have h1 : col.getD m 0 ≤ col.getD j 0 := by omega
  have h2 := hM.2 a _ _ (hM.1 col _ _ h1)
  omega

/-- One round of width one on a single hypothesis whose candidate scores have a unique
strict maximum, under a rounding that keeps the order: either the best class is the end
token and the hypothesis is completed and the search stops, or the hypothesis is
extended by the best class, with the score of that candidate. -/
theorem beamRound_width_one (c : Seq2SeqCriterion) (be : Backend) (hbe : be.Lawful)
    (hM : be.Monotone)
    (input : Slice) (inputT : Int) (inputSizes : Slice) (hyp : CandidateHypo)
    (ox : Variable) (st : Seq2SeqState)
    (hd : decodeStep c [input] (prevYOf hyp) hyp.state inputSizes [] inputT = .ok (ox, st))
    (hox : ox.length = 1) (hcol : (ox.headD []).length = c.nClass_)
    (hU : UniqueMax ((logSoftmax be (ox.headD [])).map (fun v => be.add hyp.score v)))
    (hV : c.nClass_ = 1 → c.eos_ ≠ 0) :
    (((argmax (ox.headD []) : Nat) : Int) = c.eos_ →
      ∃ sc l, beamRound c be input inputT inputSizes 1 [hyp] [] =
        .ok ([l], [{ score := sc, path := hyp.path, state := selectState st 0 }], true)) ∧
    (((argmax (ox.headD []) : Nat) : Int) ≠ c.eos_ →
      beamRound c be input inputT inputSizes 1 [hyp] [] =
        .ok ([{ score := ((logSoftmax be (ox.headD [])).map (fun v => be.add hyp.score v)).getD
                  (argmax (ox.headD [])) 0,
                path := hyp.path ++ [((argmax (ox.headD []) : Nat) : Int)],
                state := selectState st 0 }], [], false)) := by
  obtain ⟨m, hm, hmax⟩ := hU
  set col := ox.headD [] with hcoldef
  set sv := (logSoftmax be col).map (fun v => be.add hyp.score v) with hsv
  have hsvlen : sv.length = c.nClass_ := by simp [hsv, logSoftmax, hcol]
  have hmn : m < c.nClass_ := by omega
  have harg : argmax col = m :=
    argmax_of_scores_uniqueMax be hM col hyp.score m (by omega) (fun j hj hne =>
      hmax j (by omega) hne)
  rw [harg]
  have hsvmax : ∀ j, j < sv.length → j ≠ m → sv.getD j 0 < sv.getD m 0 := hmax
  have hk : 1 ≤ min (2 * 1) sv.length := by
    have : 1 ≤ sv.length := by omega
    omega
  obtain ⟨rest, hout, hrest, hrlen⟩ := partialSort_head be hbe sv (min (2 * 1) sv.length) m hk
    (by omega) hsvmax
  have hexp := expandBeam_singleton c be input inputT inputSizes 1 hyp ox st hd hox
  rw [← hcoldef, ← hsv, hout] at hexp
  have hdiv : m / c.nClass_ = 0 := Nat.div_eq_of_lt hmn
  have hmod : m % c.nClass_ = m := Nat.mod_eq_of_lt hmn
  have hsvm : sv[m]? = some (sv.getD m 0) := by
    have : m < sv.length := by omega
    simp [List.getD_eq_getElem?_getD, List.getElem?_eq_getElem this]
  have hstep0 := fun comp nb => selectStep_ok c.eos_ c.nClass_ 1 [hyp] st sv 0 m comp nb hyp
    (sv.getD m 0) (by rw [hdiv]; rfl) hsvm
  constructor
  · intro heos
    -- a second candidate exists
    have hn2 : 2 ≤ c.nClass_ := by
      by_contra hlt
      have h1 : c.nClass_ = 1 := by omega
      have : m = 0 := by omega
      subst this
      exact hV h1 heos.symm
    cases rest with
    | nil => simp at hrlen; omega
    | cons i1 rest' =>
      obtain ⟨hi1m, hi1n⟩ := hrest i1 (List.mem_cons_self _ _)
      rw [hsvlen] at hi1n
      have hdiv1 : i1 / c.nClass_ = 0 := Nat.div_eq_of_lt hi1n
      have hmod1 : i1 % c.nClass_ = i1 := Nat.mod_eq_of_lt hi1n
      have hsv1 : sv[i1]? = some (sv.getD i1 0) := by
        have : i1 < sv.length := by omega
        simp [List.getD_eq_getElem?_getD, List.getElem?_eq_getElem this]
      have hne1 : ((i1 : Nat) : Int) ≠ c.eos_ := by
        rw [← heos]; intro h; exact hi1m (by exact_mod_cast h)
      have hstep1 := fun comp nb => selectStep_ok c.eos_ c.nClass_ 1 [hyp] st sv 1 i1 comp nb hyp
        (sv.getD i1 0) (by rw [hdiv1]; rfl) hsv1
      refine ⟨sv.getD m 0, { score := sv.getD i1 0, path := hyp.path ++ [((i1 : Nat) : Int)],
                              state := selectState st 0 }, ?_⟩
      have hlt : sv.getD i1 0 < sv.getD m 0 := hsvmax i1 (by omega) hi1m
      simp only [beamRound, hexp, selectLoop, hstep0, hstep1, hmod, hmod1, hdiv, hdiv1, heos,
        hne1, if_true, if_false, List.nil_append, List.length_nil, List.length_singleton,
        Nat.lt_irrefl, ge_iff_le, Nat.le_refl, Nat.zero_lt_one, Nat.not_succ_le_zero]
      rw [if_neg (by decide : ¬ (1 ≤ 0))]
      simp only [List.length_singleton, Nat.le_refl, if_true]
      rw [trimComplete_singleton be hbe]
      simp only [List.getLast?_singleton, List.getElem?_cons_zero, gt_iff_lt, hlt, decide_True]
  · intro hne
    simp only [beamRound, hexp, selectLoop, hstep0, hmod, hdiv, hne, if_false, List.nil_append,
      List.length_singleton, ge_iff_le, Nat.le_refl, if_true, List.length_nil,
      Nat.not_succ_le_zero]
    rw [if_neg (by decide : ¬ (1 ≤ 0))]

theorem prevYOf_concat (sc : Int) (path : List Int) (tok : Int) (st : Seq2SeqState) :
    prevYOf { score := sc, path := path ++ [tok], state := st } = [[tok]] := by
  simp [prevYOf]

/-- The search of width one from a single hypothesis follows the greedy trajectory when
the candidate scores of every step the greedy decode executes have a unique strict
maximum and rounding keeps the order: its first returned hypothesis carries the path
extended by the greedy tokens up to the first end token. -/
theorem beamLoop_width_one (c : Seq2SeqCriterion) (be : Backend) (hbe : be.Lawful)
    (hM : be.Monotone)
    (input : Slice) (inputT : Int) (inputSizes : Slice) (hV : c.nClass_ = 1 → c.eos_ ≠ 0) :
    ∀ (fuel : Nat) (hyp : CandidateHypo) (rounds : Nat),
      c.nAttnRound_ ≤ hyp.state.hidden.length →
      (∀ col ∈ greedyScores c be input inputT inputSizes fuel (prevYOf hyp) hyp.state hyp.score,
        UniqueMax col) →
      ∃ r b comp first,
        beamLoop c be input inputT inputSizes 1 fuel [hyp] [] rounds = (r, .ok (b, comp)) ∧
        (if comp.isEmpty then b else comp)[0]? = some first ∧
        first.path = hyp.path ++
          (greedyTokens c input inputT inputSizes fuel (prevYOf hyp) hyp.state).takeWhile
            (fun p => decide (p ≠ c.eos_)) := by
  intro fuel
  induction fuel with
  | zero =>
    intro hyp rounds _ _
    exact ⟨rounds, [hyp], [], hyp, rfl, rfl, by simp [greedyTokens, greedyTrace]⟩
  | succ n ih =>
    intro hyp rounds hh hU
    obtain ⟨ox, st, heq, hlen, -, -, -, hox, hcols, hhid, halpha, hsum⟩ :=
      decodeStep_ok c [input] (prevYOf hyp) hyp.state inputSizes [] inputT hh
    rw [stepBatch_prevYOf] at hox hhid halpha hsum
    have htr : greedyTrace c input inputT inputSizes (n + 1) (prevYOf hyp) hyp.state =
        ox.headD [] :: greedyTrace c input inputT inputSizes n
          [[(argmax (ox.headD []) : Nat)]] st := by
      simp only [greedyTrace, heq]
    have hcolmem : ox.headD [] ∈ ox := by
      obtain ⟨col, rfl⟩ := List.length_eq_one.mp hox
      simp
    have hsel : selectState st 0 = st :=
      selectState_zero st halpha hsum (fun h hm => le_of_eq (hhid h hm))
    have hhead : UniqueMax ((logSoftmax be (ox.headD [])).map (fun v => be.add hyp.score v)) := by
      apply hU
      simp only [greedyScores, heq]
      split
      · exact List.mem_singleton_self _
      · exact List.mem_cons_self _ _
    have hround := beamRound_width_one c be hbe hM input inputT inputSizes hyp ox st heq hox
      (hcols _ hcolmem) hhead hV
    rw [hsel] at hround
    by_cases hp : ((argmax (ox.headD []) : Nat) : Int) = c.eos_
    · obtain ⟨sc, l, hr⟩ := hround.1 hp
      refine ⟨rounds + 1, [l], [{ score := sc, path := hyp.path, state := st }],
        { score := sc, path := hyp.path, state := st }, ?_, rfl, ?_⟩
      · simp only [beamLoop, hr, if_true]
      · rw [greedyTokens, htr, List.map_cons, List.takeWhile_cons_of_neg, List.append_nil]
        simp only [hp, ne_eq, not_true_eq_false, decide_False, Bool.false_eq_true,
          not_false_eq_true]
    · have hr := hround.2 hp
      obtain ⟨r, b, comp, first, hloop, hfirst, hpath⟩ :=
        ih { score := ((logSoftmax be (ox.headD [])).map (fun v => be.add hyp.score v)).getD
               (argmax (ox.headD [])) 0,
             path := hyp.path ++ [((argmax (ox.headD []) : Nat) : Int)], state := st }
          (rounds + 1) (by show c.nAttnRound_ ≤ st.hidden.length; omega)
          (by
            intro col hcol
            rw [prevYOf_concat] at hcol
            apply hU
            simp only [greedyScores, heq]
            rw [if_neg hp]
            exact List.mem_cons_of_mem _ hcol)
      refine ⟨r, b, comp, first, ?_, hfirst, ?_⟩
      · simp only [beamLoop, hr]
        exact hloop
      · have htok : greedyTokens c input inputT inputSizes (n + 1) (prevYOf hyp) hyp.state =
            ((argmax (ox.headD []) : Nat) : Int) ::
              greedyTokens c input inputT inputSizes n [[(argmax (ox.headD []) : Nat)]] st := by
          rw [greedyTokens, htr, List.map_cons]; rfl
        rw [hpath, prevYOf_concat, htok,
          List.takeWhile_cons_of_pos (by simp only [ne_eq, hp, not_false_eq_true, decide_True]),
          List.append_assoc, List.singleton_append]

theorem flatScores_length (be : Backend) (C : Nat) :
    ∀ (ps : List Int) (ox : Variable), ps.length = ox.length → (∀ col ∈ ox, col.length = C) →
      (flatScores be ps ox).length = ox.length * C := by
  intro ps
  induction ps with
  | nil =>
    intro ox h _
    have : ox = [] := List.length_eq_zero.mp h.symm
    subst this
    simp [flatScores]
  | cons p ps ih =>
    intro ox h hc
    cases ox with
    | nil => simp at h
    | cons col ox =>
      have := ih ox (by simpa using h) (fun c' hc' => hc c' (List.mem_cons_of_mem _ hc'))
      simp only [flatScores] at this ⊢
      simp only [List.zipWith_cons_cons, List.flatten_cons, List.length_append, List.length_map,
        this, hc col (List.mem_cons_self _ _), List.length_cons]
      ring

theorem filterMap_getElem?_length (complete : List CandidateHypo) :
    ∀ (l : List Nat), (∀ i ∈ l, i < complete.length) →
      (l.filterMap (fun i => complete[i]?)).length = l.length := by
  intro l
  induction l with
  | nil => intro _; rfl
  | cons i l ih =>
    intro h
    have hi := h i (List.mem_cons_self _ _)
    have := ih (fun k hk => h k (List.mem_cons_of_mem _ hk))
    simp [List.filterMap_cons, List.getElem?_eq_getElem hi, this]

theorem trimComplete_length_eq (be : Backend) (hbe : be.Lawful) (W : Nat)
    (complete : List CandidateHypo) (h : W ≤ complete.length) :
    (trimComplete be W complete).length = W := by
  have hp := (hbe (complete.map (fun h => h.score)) W).1
  have hlen : (be.partialSort (complete.map (fun h => h.score)) W).length = complete.length := by
    simpa using hp.length_eq
  have hmem : ∀ i ∈ be.partialSort (complete.map (fun h => h.score)) W, i < complete.length := by
    intro i hi
    have := (hp.mem_iff).mp hi
    simpa using this
  simp only [trimComplete, List.length_take, filterMap_getElem?_length complete _ hmem, hlen]
  omega

/-- What `operator==` compares: the three accessors. -/
theorem range_opEq_iff (r other : range) :
    r.opEq other = true ↔
      r.start = other.start ∧ r.end' = other.end' ∧ r.stride = other.stride := by
  simp [range.opEq, range.start, range.end', range.stride, and_assoc]

/-- In evaluation mode the loop of the sequential decoder always completes, and the
previous-token inputs it feeds are the initial `y` followed by the gold target rows. -/
theorem decoderLoop_eval (m : Seq2SeqModel) (rng : RandomDraws) (input target : Variable)
    (inputSizes targetSizes : Slice) (U : Nat) (htrain : m.train_ = false) :
    ∀ (fuel u : Nat) (y : Variable) (state : Seq2SeqState) (outvec alphaVec fed : List Variable),
      m.nAttnRound_ ≤ state.hidden.length →
      ∃ ov av, decoderLoop m rng input target inputSizes targetSizes U fuel u y state outvec
          alphaVec fed =
        .ok (ov, av, fed ++ (y :: (List.range' u fuel).map (targetRow target)).take fuel) ∧
        ov.length = outvec.length + fuel := by
  intro fuel
  induction fuel with
  | zero =>
    intro u y state outvec alphaVec fed _
    exact ⟨outvec, alphaVec, by simp [decoderLoop], rfl⟩
  | succ n ih =>
    intro u y state outvec alphaVec fed hh
    obtain ⟨ox, st, heq, hlen, -⟩ :=
      decodeStep_ok m.toSeq2SeqCriterion input y state inputSizes targetSizes U hh
    obtain ⟨ov, av, hk, hl⟩ := ih (u + 1) (targetRow target u) st (outvec ++ [ox])
      (alphaVec ++ [st.alpha]) (fed ++ [y]) (by omega)
    refine ⟨ov, av, ?_, ?_⟩
    · simp only [decoderLoop, heq, htrain, if_true]
      rw [hk, List.range'_succ, List.map_cons, List.take_succ_cons, List.append_assoc,
        List.singleton_append]
    · rw [hl, List.length_append, List.length_singleton]; omega

/-- The loop of the sequential decoder can only fail with the unknown-strategy error,
and only in training mode with a strategy that is none of the three known ones. -/
theorem decoderLoop_error (m : Seq2SeqModel) (rng : RandomDraws) (input target : Variable)
    (inputSizes targetSizes : Slice) (U : Nat) :
    ∀ (fuel u : Nat) (y : Variable) (state : Seq2SeqState) (outvec alphaVec fed : List Variable)
      (e : ForwardErr),
      m.nAttnRound_ ≤ state.hidden.length →
      decoderLoop m rng input target inputSizes targetSizes U fuel u y state outvec alphaVec fed =
        .error e →
      e = ForwardErr.invalidSamplingStrategy ∧ m.train_ = true ∧
        m.samplingStrategy_ = SamplingStrategy.other := by
  intro fuel
  induction fuel with
  | zero =>
    intro u y state outvec alphaVec fed e _ herr
    simp [decoderLoop] at herr
  | succ n ih =>
    intro u y state outvec alphaVec fed e hh herr
    obtain ⟨ox, st, heq, hlen, -⟩ :=
      decodeStep_ok m.toSeq2SeqCriterion input y state inputSizes targetSizes U hh
    have ih1 := fun y1 ov av fd => ih (u + 1) y1 st ov av fd e (by omega)
    simp only [decoderLoop, heq] at herr
    by_cases h1 : m.train_ = false
    · simp only [h1, if_true] at herr
      exact ih1 _ _ _ _ herr
    · have ht : m.train_ = true := by simpa using h1
      simp only [h1, if_false] at herr
      by_cases h2 : m.samplingStrategy_ = SamplingStrategy.gumbel
      · simp only [h2, if_true] at herr
        exact ih1 _ _ _ _ herr
      · simp only [h2, if_false] at herr
        by_cases h3 : rng.percent u 0 ≤ m.pctTeacherForcing_
        · simp only [h3, if_true] at herr
          exact ih1 _ _ _ _ herr
        · simp only [h3, if_false] at herr
          by_cases h4 : m.samplingStrategy_ = SamplingStrategy.model
          · simp only [h4, if_true] at herr
            exact ih1 _ _ _ _ herr
          · simp only [h4, if_false] at herr
            by_cases h5 : m.samplingStrategy_ = SamplingStrategy.rand
            · simp only [h5, if_true] at herr
              exact ih1 _ _ _ _ herr
            · simp only [h5, if_false] at herr
              have he : e = ForwardErr.invalidSamplingStrategy := by
                injection herr with h; exact h.symm
              refine ⟨he, ht, ?_⟩
              cases hs : m.samplingStrategy_ with
              | rand => exact absurd hs h5
              | model => exact absurd hs h4
              | gumbel => exact absurd hs h2
              | other => rfl

/-- The first part of the vectorized decoder fails exactly in training mode with model
sampling on a target of more than one token, and then with the logic error. -/
theorem vectorizedInput_error_iff (m : Seq2SeqModel) (rng : RandomDraws) (target : Variable)
    (e : ForwardErr) :
    vectorizedInput m rng target = .error e ↔
      (e = ForwardErr.modelSamplingUnsupported ∧ m.train_ = true ∧
        m.samplingStrategy_ = SamplingStrategy.model ∧ 1 < dims0 target) := by
  unfold vectorizedInput
  by_cases hU : dims0 target > 1
  · by_cases ht : m.train_ = true
    · by_cases hs : m.samplingStrategy_ = SamplingStrategy.model
      · simp only [hU, ht, hs, if_true]
        constructor
        · intro h; injection h with h; exact ⟨h.symm, trivial, trivial, trivial⟩
        · intro h; rw [h.1]
      · by_cases hr : m.samplingStrategy_ = SamplingStrategy.rand
        · simp [hU, ht, hs, hr]
        · simp [hU, ht, hs, hr]
    · simp [hU, ht]
  · simp only [hU, if_false]
    constructor
    · intro h; cases h
    · intro h; exact h.2.2.2.elim

/-- The sequential decoder can only fail with the unknown-strategy error, in training
mode with a strategy that is none of the three known ones. -/
theorem decoder_error (m : Seq2SeqModel) (rng : RandomDraws) (input target : Variable)
    (inputSizes targetSizes : Slice) (e : ForwardErr)
    (h : decoder m rng input target inputSizes targetSizes = .error e) :
    e = ForwardErr.invalidSamplingStrategy ∧ m.train_ = true ∧
      m.samplingStrategy_ = SamplingStrategy.other :=
  decoderLoop_error m rng input target inputSizes targetSizes (dims0 target) (dims0 target) 0 []
    (m.newState m.nAttnRound_) [] [] [] e
    (by rw [newState_hidden_length]) h

/-- The vectorized decoder fails exactly when its first part does. -/
theorem vectorizedDecoder_error_iff (m : Seq2SeqModel) (rng : RandomDraws)
    (input target : Variable) (inputSizes targetSizes : Slice) (e : ForwardErr) :
    vectorizedDecoder m rng input target inputSizes targetSizes = .error e ↔
      vectorizedInput m rng target = .error e := by
  unfold vectorizedDecoder
  cases h : vectorizedInput m rng target with
  | error e1 => simp
  | ok hy => simp

/-- The failures of the body of `forward`: the unknown-strategy error of the
sequential decoder, or the model-sampling error of the vectorized decoder. -/
theorem forwardLoss_error (m : Seq2SeqModel) (be : Backend) (rng : RandomDraws)
    (useSeq : Bool) (input target : Variable) (inputSizes targetSizes : Slice) (e : ForwardErr)
    (h : forwardLoss m be rng useSeq input target inputSizes targetSizes = .error e) :
    (e = ForwardErr.invalidSamplingStrategy ∧ useSeq = true ∧ m.train_ = true ∧
      m.samplingStrategy_ = SamplingStrategy.other) ∨
    (e = ForwardErr.modelSamplingUnsupported ∧ useSeq = false ∧ m.train_ = true ∧
      m.samplingStrategy_ = SamplingStrategy.model ∧ 1 < dims0 target) := by
  unfold forwardLoss decodeOut at h
  cases useSeq with
  | true =>
    left
    cases hd : decoder m rng input target inputSizes targetSizes with
    | error e1 =>
      simp only [hd, if_true] at h
      have he : e1 = e := by injection h
      obtain ⟨h1, h2, h3⟩ := decoder_error m rng input target inputSizes targetSizes e1 hd
      exact ⟨he ▸ h1, rfl, h2, h3⟩
    | ok r => simp [hd] at h
  | false =>
    right
    cases hd : vectorizedDecoder m rng input target inputSizes targetSizes with
    | error e1 =>
      simp only [hd] at h
      have he : e1 = e := by simpa using h
      obtain ⟨h1, h2, h3, h4⟩ := (vectorizedInput_error_iff m rng target e1).1
        ((vectorizedDecoder_error_iff m rng input target inputSizes targetSizes e1).1 hd)
      exact ⟨he ▸ h1, rfl, h2, h3, h4⟩
    | ok r => simp [hd] at h

/-- The failures of `forward` by the number of inputs: the size error outside 2..4,
the out-of-range read at 2, and the failures of the body at 3 and 4. -/
theorem forwardWith_error_cases (m : Seq2SeqModel) (be : Backend) (rng : RandomDraws)
    (useSeq : Bool) (inputs : List Variable) (e : ForwardErr)
    (h : forwardWith m be rng useSeq inputs = .error e) :
    (e = ForwardErr.invalidInputsSize ∧ (inputs.length < 2 ∨ inputs.length > 4)) ∨
    (e = ForwardErr.outOfRange ∧ inputs.length = 2) ∨
    ((inputs.length = 3 ∨ inputs.length = 4) ∧
      ((e = ForwardErr.invalidSamplingStrategy ∧ useSeq = true ∧ m.train_ = true ∧
        m.samplingStrategy_ = SamplingStrategy.other) ∨
       (e = ForwardErr.modelSamplingUnsupported ∧ useSeq = false ∧ m.train_ = true ∧
        m.samplingStrategy_ = SamplingStrategy.model ∧ 1 < dims0 (inputs.getD 1 [])))) := by
  rcases inputs with _ | ⟨a, _ | ⟨b, _ | ⟨c, _ | ⟨d, _ | ⟨x, r⟩⟩⟩⟩⟩
  · left; simp [forwardWith] at h; exact ⟨h.symm, by simp⟩
  · left; simp [forwardWith] at h; exact ⟨h.symm, by simp⟩
  · right; left
    simp [forwardWith, readSizes] at h
    exact ⟨h.symm, rfl⟩
  · right; right
    refine ⟨Or.inl rfl, ?_⟩
    simp only [forwardWith, readSizes, List.length_cons, List.length_nil] at h
    simp at h
    simpa using forwardLoss_error m be rng useSeq a b _ _ e h
  · right; right
    refine ⟨Or.inr rfl, ?_⟩
    simp only [forwardWith, readSizes, List.length_cons, List.length_nil] at h
    simp at h
    simpa using forwardLoss_error m be rng useSeq a b _ _ e h
  · left
    simp [forwardWith] at h
    exact ⟨h.symm, by simp⟩

/-- Two extents that are at least 1 and multiply to 1 are both 1. -/
theorem mul_eq_one_of_one_le (a b : Int) (ha : 1 ≤ a) (hb : 1 ≤ b) (h : a * b = 1) :
    a = 1 ∧ b = 1 := by
  constructor <;> nlinarith

/-- The attention rounds store the hidden state of every round and keep the attention
weights of the last round only. -/
theorem attnRounds_outputs (c : Seq2SeqCriterion) (xEncoded : Variable) (inState : Seq2SeqState)
    (inputSizes targetSizes : Slice) (maxDecoderSteps : Int) (batchsize : Nat) :
    ∀ (k i : Nat) (hy : Variable) (outHidden : List Variable) (alpha summaries : Variable),
      i + k ≤ inState.hidden.length →
      ∃ hy1 s1,
        attnRounds c xEncoded inState inputSizes targetSizes maxDecoderSteps batchsize k i hy
          outHidden alpha summaries =
        .ok (hy1,
          outHidden ++ (roundOutputs c xEncoded inState inputSizes targetSizes maxDecoderSteps
            batchsize k i hy).map Prod.fst,
          (match (roundOutputs c xEncoded inState inputSizes targetSizes maxDecoderSteps
              batchsize k i hy).getLast? with
            | some r => r.2
            | none => alpha), s1) ∧
        (roundOutputs c xEncoded inState inputSizes targetSizes maxDecoderSteps
            batchsize k i hy).length = k := by
  intro k
  induction k with
  | zero =>
    intro i hy outHidden alpha summaries _
    exact ⟨hy, summaries, by simp [attnRounds, roundOutputs], by simp [roundOutputs]⟩
  | succ n ih =>
    intro i hy outHidden alpha summaries hh
    obtain ⟨hiddenIn, hin⟩ : ∃ x, inState.hidden[i]? = some x := by
      have hi : i < inState.hidden.length := by omega
      exact ⟨inState.hidden[i], List.getElem?_eq_getElem hi⟩
    have hgd : inState.hidden.getD i [] = hiddenIn := by
      simp [List.getD, hin]
    simp only [attnRounds, hin, roundOutputs, hgd]
    generalize hrnn : hy.mapIdx (fun b h => c.decodeRNN i h (hiddenIn.getD b [])) = rnnOut
    generalize hatt : (rnnOut.map Prod.fst).mapIdx (fun b h =>
      c.attention i h xEncoded b (inState.alpha.getD b [])
        (if (c.hasWindow && (!c.train_ || c.trainWithWindow_)) = true then
          c.computeWindow (inState.alpha.getD b []) inState.step maxDecoderSteps xEncoded
            batchsize inputSizes targetSizes b
        else []) inputSizes) = attOut
    obtain ⟨hy1, s1, heq, hlen⟩ := ih (i + 1) (addVar (rnnOut.map Prod.fst) (attOut.map Prod.snd))
      (outHidden ++ [rnnOut.map Prod.snd]) (attOut.map Prod.fst) (attOut.map Prod.snd) (by omega)
    refine ⟨hy1, s1, ?_, by rw [List.length_cons, hlen]⟩
    rw [heq]
    generalize roundOutputs c xEncoded inState inputSizes targetSizes maxDecoderSteps batchsize n
      (i + 1) (addVar (rnnOut.map Prod.fst) (attOut.map Prod.snd)) = rest
    cases rest with
    | nil => simp
    | cons r rs =>
      obtain ⟨z, hz⟩ : ∃ z, (r :: rs).getLast? = some z :=
        ⟨_, List.getLast?_eq_getLast _ (by simp)⟩
      simp [List.getLast?_cons_cons, hz]

/-- Clearing the training flag forgets the value it had. -/
theorem eval_with_train (c : Seq2SeqCriterion) (b : Bool) :
    ({ c with train_ := b } : Seq2SeqCriterion).eval = c.eval := rfl

/-- What a successful `decodeStep` returns: one column of `nClass_` logits per element
of its output, the step counter advanced by one, and the constructor's validity flag. -/
theorem decodeStep_shape (c : Seq2SeqCriterion) (xEncoded y : Variable) (inState : Seq2SeqState)
    (inputSizes targetSizes : Slice) (maxDecoderSteps : Int) (ox : Variable) (st : Seq2SeqState)
    (h : decodeStep c xEncoded y inState inputSizes targetSizes maxDecoderSteps = .ok (ox, st)) :
    (∀ col ∈ ox, col.length = c.nClass_) ∧ st.step = inState.step + 1 ∧
      st.isValid = c.stateIsValid ∧ st.peakAttnPos = c.statePeakAttnPos := by
  unfold decodeStep at h
  dsimp only at h
  split at h
  · cases h
  · injection h with h
    injection h with h1 h2
    subst h1 h2
    refine ⟨?_, rfl, rfl, rfl⟩
    intro col hcol
    obtain ⟨x, -, rfl⟩ := List.mem_map.1 hcol
    simp

/-- The only error `decodeStep` raises is the out-of-range read of a hidden tensor. -/
theorem attnRounds_error (c : Seq2SeqCriterion) (xEncoded : Variable) (inState : Seq2SeqState)
    (inputSizes targetSizes : Slice) (maxDecoderSteps : Int) (batchsize : Nat) :
    ∀ (k i : Nat) (hy : Variable) (outHidden : List Variable) (alpha summaries : Variable)
      (e : Err),
      attnRounds c xEncoded inState inputSizes targetSizes maxDecoderSteps batchsize k i hy
        outHidden alpha summaries = .error e → e = Err.outOfRange := by
  intro k
  induction k with
  | zero => intro i hy oh a s e h; simp [attnRounds] at h
  | succ n ih =>
    intro i hy oh a s e h
    simp only [attnRounds] at h
    split at h
    · injection h with h; exact h.symm
    · exact ih _ _ _ _ _ e h

theorem decodeStep_error (c : Seq2SeqCriterion) (xEncoded y : Variable) (inState : Seq2SeqState)
    (inputSizes targetSizes : Slice) (maxDecoderSteps : Int) (e : Err)
    (h : decodeStep c xEncoded y inState inputSizes targetSizes maxDecoderSteps = .error e) :
    e = Err.outOfRange := by
  unfold decodeStep at h
  dsimp only at h
  split at h
  · rename_i e1 heq
    injection h with h
    subst h
    exact attnRounds_error _ _ _ _ _ _ _ _ _ _ _ _ _ _ heq
  · cases h

/-- What a successful first half of a round has established. -/
theorem expandBeam_ok_inv (c : Seq2SeqCriterion) (be : Backend) (input : Slice) (inputT : Int)
    (inputSizes : Slice) (W : Nat) (beam : List CandidateHypo) (state : Seq2SeqState)
    (scoreVec : List Int) (indices : List Nat)
    (h : expandBeam c be input inputT inputSizes W beam = .ok (state, scoreVec, indices)) :
    ∃ ps ox0,
      concatState (beam.map (fun h => h.state)) = .ok ps ∧
      decodeStep c [input] (concatenate (beam.map prevYOf)) ps
        (tile inputSizes (dims1 (concatenate (beam.map prevYOf)))) [] inputT = .ok (ox0, state) ∧
      ox0.length = beam.length ∧ (∀ col ∈ ox0, col.length = c.nClass_) ∧
      scoreVec = flatScores be (beam.map (fun h => h.score)) (ox0.map (logSoftmax be)) ∧
      scoreVec.length = beam.length * c.nClass_ ∧
      indices = be.partialSort scoreVec (min (2 * W) scoreVec.length) ∧
      beam ≠ [] := by
  unfold expandBeam at h
  dsimp only at h
  cases hcs : concatState (beam.map (fun h => h.state)) with
  | error e => simp [hcs] at h
  | ok ps =>
    simp only [hcs] at h
    cases hds : decodeStep c [input] (concatenate (beam.map prevYOf)) ps
        (tile inputSizes (dims1 (concatenate (beam.map prevYOf)))) [] inputT with
    | error e => simp [hds] at h
    | ok r =>
      obtain ⟨ox0, st⟩ := r
      simp only [hds] at h
      split at h
      · cases h
      · rename_i hlen
        injection h with h
        injection h with h1 h2
        injection h2 with h2 h3
        subst h1
        have hl : ox0.length = beam.length := by simpa using hlen
        have hcols := (decodeStep_shape _ _ _ _ _ _ _ _ _ hds).1
        have hsv : (flatScores be (beam.map (fun h => h.score)) (ox0.map (logSoftmax be))).length =
            beam.length * c.nClass_ := by
          rw [flatScores_length be c.nClass_ _ _ (by simp [hl])]
          · simp [hl]
          · intro col hcol
            obtain ⟨x, hx, rfl⟩ := List.mem_map.1 hcol
            simp [logSoftmax, hcols x hx]
        refine ⟨ps, ox0, rfl, hds, hl, hcols, h2.symm, by rw [← h2]; exact hsv, ?_, ?_⟩
        · rw [← h3, ← h2]
        · intro hb
          subst hb
          simp [concatState] at hcs

/-- A lawful partial sort returns positions of the score vector, each once. -/
theorem partialSort_positions (be : Backend) (hbe : be.Lawful) (scores : List Int) (k : Nat) :
    (be.partialSort scores k).Nodup ∧ (be.partialSort scores k).length = scores.length ∧
    ∀ idx, idx ∈ be.partialSort scores k ↔ idx < scores.length := by
  have hp := (hbe scores k).1
  refine ⟨hp.nodup_iff.2 (List.nodup_range _), by rw [hp.length_eq, List.length_range], ?_⟩
  intro idx
  rw [hp.mem_iff, List.mem_range]

/-- The candidate loop on valid positions, entered with room in the new beam: the new
beam receives the first non-end candidates, as many as the room allows, in the order of
the positions; `complete` only grows, by completed hypotheses of end-token candidates. -/
theorem selectLoop_spec (eos : Int) (nClass W : Nat) (beam : List CandidateHypo)
    (state : Seq2SeqState) (scoreVec : List Int)
    (hsv : scoreVec.length = beam.length * nClass) :
    ∀ (indices : List Nat) (j : Nat) (complete newBeam : List CandidateHypo),
      (∀ idx ∈ indices, idx < beam.length * nClass) → newBeam.length < W →
      ∃ c1, selectLoop eos nClass W beam state scoreVec j indices complete newBeam =
          .ok (c1, newBeam ++ ((indices.filter (nonEos eos nClass)).take
            (W - newBeam.length)).map (extendHypo nClass beam state scoreVec)) ∧
        (∀ h ∈ c1, h ∈ complete ∨ ∃ idx ∈ indices, ((idx % nClass : Nat) : Int) = eos ∧
          h = finishHypo nClass beam state scoreVec idx) ∧
        (∀ h ∈ complete, h ∈ c1) ∧
        selectLoopSteps eos nClass W beam state scoreVec j indices complete newBeam ≤
          (W - newBeam.length) + (indices.filter (fun idx => !(nonEos eos nClass idx))).length := by
  intro indices
  induction indices with
  | nil =>
    intro j complete newBeam _ _
    exact ⟨complete, by simp [selectLoop], fun h hh => Or.inl hh, fun h hh => hh,
      by simp [selectLoopSteps]⟩
  | cons idx rest ih =>
    intro j complete newBeam hidx hroom
    have hlt := hidx idx (List.mem_cons_self _ _)
    have hC : 0 < nClass := by
      rcases Nat.eq_zero_or_pos nClass with h | h
      · rw [h] at hlt; simp at hlt
      · exact h
    have hdiv : idx / nClass < beam.length := by
      rw [Nat.div_lt_iff_lt_mul hC]; exact hlt
    obtain ⟨hyp, hb⟩ : ∃ hyp, beam[idx / nClass]? = some hyp :=
      ⟨_, List.getElem?_eq_getElem hdiv⟩
    obtain ⟨sc, hs⟩ : ∃ sc, scoreVec[idx]? = some sc :=
      ⟨_, List.getElem?_eq_getElem (by omega)⟩
    have hsc : scoreVec.getD idx 0 = sc := by simp [List.getD, hs]
    have hstep := selectStep_ok eos nClass W beam state scoreVec j idx complete newBeam _ _ hb hs
    have hext : extendHypo nClass beam state scoreVec idx =
        { score := sc, path := hyp.path ++ [((idx % nClass : Nat) : Int)],
          state := selectState state (idx / nClass) } := by
      simp only [extendHypo, hb, hsc]
    have hfin : finishHypo nClass beam state scoreVec idx =
        { score := sc, path := hyp.path, state := selectState state (idx / nClass) } := by
      simp only [finishHypo, hb, hsc]
    have hrest : ∀ i ∈ rest, i < beam.length * nClass :=
      fun i hi => hidx i (List.mem_cons_of_mem _ hi)
    have hnfull : ¬ newBeam.length ≥ W := by omega
    simp only [selectLoop, selectLoopSteps, hstep]
    by_cases h1 : ((idx % nClass : Nat) : Int) = eos
    · have hp : nonEos eos nClass idx = false := by
        rw [nonEos, decide_eq_false_iff_not]; exact not_not.2 h1
      by_cases h2 : j < W
      · simp only [h1, h2, if_true, hnfull, if_false]
        obtain ⟨c1, he, hA, hB, hS⟩ := ih (j + 1)
          (complete ++ [CandidateHypo.mk sc hyp.path (selectState state (idx / nClass))])
          newBeam hrest hroom
        refine ⟨c1, ?_, ?_, ?_, ?_⟩
        · rw [he, List.filter_cons_of_neg (by simp [hp])]
        · intro h hh
          rcases hA h hh with h3 | ⟨i, hi, h4, h5⟩
          · rcases List.mem_append.1 h3 with h3 | h3
            · exact Or.inl h3
            · right
              refine ⟨idx, List.mem_cons_self _ _, h1, ?_⟩
              rw [hfin]; simpa using h3
          · exact Or.inr ⟨i, List.mem_cons_of_mem _ hi, h4, h5⟩
        · intro h hh
          exact hB h (List.mem_append_left _ hh)
        · rw [List.filter_cons_of_pos (by simp [hp]), List.length_cons]
          omega
      · simp only [h1, h2, if_true, if_false, hnfull]
        obtain ⟨c1, he, hA, hB, hS⟩ := ih (j + 1) complete newBeam hrest hroom
        refine ⟨c1, ?_, ?_, hB, ?_⟩
        · rw [he, List.filter_cons_of_neg (by simp [hp])]
        · intro h hh
          rcases hA h hh with h3 | ⟨i, hi, h4, h5⟩
          · exact Or.inl h3
          · exact Or.inr ⟨i, List.mem_cons_of_mem _ hi, h4, h5⟩
        · rw [List.filter_cons_of_pos (by simp [hp]), List.length_cons]
          omega
    · have hp : nonEos eos nClass idx = true := by
        rw [nonEos, decide_eq_true_eq]; exact h1
      simp only [h1, if_false]
      rw [← hext]
      rw [List.filter_cons_of_pos hp]
      obtain ⟨m, hm⟩ : ∃ m, W - newBeam.length = m + 1 := ⟨W - newBeam.length - 1, by omega⟩
      by_cases hfull : (newBeam ++ [extendHypo nClass beam state scoreVec idx]).length ≥ W
      · simp only [hfull, if_true]
        have hm0 : m = 0 := by
          simp only [List.length_append, List.length_singleton] at hfull
          omega
        refine ⟨complete, ?_, fun h hh => Or.inl hh, fun h hh => hh, by omega⟩
        rw [hm, hm0]
        simp
      · simp only [hfull, if_false]
        have hroom2 : (newBeam ++ [extendHypo nClass beam state scoreVec idx]).length < W := by
          omega
        obtain ⟨c1, he, hA, hB, hS⟩ := ih (j + 1) complete
          (newBeam ++ [extendHypo nClass beam state scoreVec idx]) hrest hroom2
        have hlen2 : W - (newBeam ++ [extendHypo nClass beam state scoreVec idx]).length = m := by
          simp only [List.length_append, List.length_singleton]
          omega
        rw [hlen2] at he hS
        refine ⟨c1, ?_, ?_, hB, ?_⟩
        · rw [he, hm, List.take_succ_cons, List.map_cons, List.append_assoc,
            List.singleton_append]
        · intro h hh
          rcases hA h hh with h3 | ⟨i, hi, h4, h5⟩
          · exact Or.inl h3
          · exact Or.inr ⟨i, List.mem_cons_of_mem _ hi, h4, h5⟩
        · rw [List.filter_cons_of_neg (by simp [hp])]
          omega

/-- Among distinct flat positions below `B * C`, at most `B` carry the end token: one
per hypothesis. -/
theorem eos_count_le (eos : Int) (C B : Nat) (l : List Nat) (hnd : l.Nodup)
    (hlt : ∀ idx ∈ l, idx < B * C) :
    (l.filter (fun idx => !(nonEos eos C idx))).length ≤ B := by
  have hq : ∀ idx, (!(nonEos eos C idx)) = true → ((idx % C : Nat) : Int) = eos := by
    intro idx h
    simp only [nonEos, Bool.not_eq_true', decide_eq_false_iff_not, not_not] at h
    exact h
  have hnd2 : (l.filter (fun idx => !(nonEos eos C idx))).Nodup := hnd.filter _
  have hinj : ∀ x ∈ l.filter (fun idx => !(nonEos eos C idx)),
      ∀ y ∈ l.filter (fun idx => !(nonEos eos C idx)), x / C = y / C → x = y := by
    intro x hx y hy hxy
    have h1 := hq x (List.mem_filter.1 hx).2
    have h2 := hq y (List.mem_filter.1 hy).2
    have h3 : x % C = y % C := by
      have : ((x % C : Nat) : Int) = ((y % C : Nat) : Int) := by rw [h1, h2]
      exact_mod_cast this
    rw [← Nat.div_add_mod x C, ← Nat.div_add_mod y C, hxy, h3]
  have hsub : (l.filter (fun idx => !(nonEos eos C idx))).map (fun x => x / C) ⊆ List.range B := by
    intro v hv
    obtain ⟨x, hx, rfl⟩ := List.mem_map.1 hv
    have hxl := hlt x (List.mem_filter.1 hx).1
    have hC : 0 < C := by
      rcases Nat.eq_zero_or_pos C with h | h
      · rw [h] at hxl; simp at hxl
      · exact h
    rw [List.mem_range, Nat.div_lt_iff_lt_mul hC]
    exact hxl
  have := (List.subperm_of_subset (List.Nodup.map_on hinj hnd2) hsub).length_le
  simpa using this

/-- The shape of a lawful partial sort: its first `k` places are in non-increasing
score order, and every place after them scores at most as much as each of them. -/
theorem partialSort_split (be : Backend) (hbe : be.Lawful) (scores : List Int) (k : Nat) :
    ((be.partialSort scores k).take k).Pairwise
      (fun a b => scores.getD b 0 ≤ scores.getD a 0) ∧
    ∀ a ∈ (be.partialSort scores k).take k, ∀ b ∈ (be.partialSort scores k).drop k,
      scores.getD b 0 ≤ scores.getD a 0 := by
  have hord := (hbe scores k).2
  generalize be.partialSort scores k = out at hord
  constructor
  · rw [List.pairwise_iff_getElem]
    intro i j hi hj hij
    rw [List.getElem_take, List.getElem_take]
    have hi2 : i < k := by
      rw [List.length_take] at hi; omega
    have hj2 : j < out.length := by
      rw [List.length_take] at hj; omega
    have hi3 : i < out.length := by omega
    have := hord i j hij hi2 hj2
    rwa [List.getD_eq_getElem out 0 hj2, List.getD_eq_getElem out 0 hi3] at this
  · intro a ha b hb
    obtain ⟨i, hi, rfl⟩ := List.mem_iff_getElem.1 ha
    obtain ⟨j, hj, rfl⟩ := List.mem_iff_getElem.1 hb
    rw [List.getElem_take, List.getElem_drop]
    have hi2 : i < k := by
      rw [List.length_take] at hi; omega
    have hi3 : i < out.length := by
      rw [List.length_take] at hi; omega
    have hj2 : k + j < out.length := by
      rw [List.length_drop] at hj; omega
    have := hord i (k + j) (by omega) hi2 hj2
    rwa [List.getD_eq_getElem out 0 hj2, List.getD_eq_getElem out 0 hi3] at this

/-- Entry `b * C + k` of the flat score vector is the score of hypothesis `b` plus the
log-probability of class `k` in its column. -/
theorem flatScores_getD (be : Backend) (C : Nat) :
    ∀ (ps : List Int) (ox : Variable), ps.length = ox.length → (∀ col ∈ ox, col.length = C) →
      ∀ idx, idx < ox.length * C →
        (flatScores be ps ox).getD idx 0 =
          be.add (ps.getD (idx / C) 0) ((ox.getD (idx / C) []).getD (idx % C) 0) := by
  intro ps
  induction ps with
  | nil =>
    intro ox hl _ idx hidx
    have : ox = [] := List.length_eq_zero.1 hl.symm
    subst this
    simp at hidx
  | cons s ps ih =>
    intro ox hl hcols idx hidx
    cases ox with
    | nil => simp at hl
    | cons col ox =>
      have hcl : col.length = C := hcols col (List.mem_cons_self _ _)
      have hC : 0 < C := by
        rcases Nat.eq_zero_or_pos C with h | h
        · rw [h] at hidx; simp at hidx
        · exact h
      have hfs : flatScores be (s :: ps) (col :: ox) =
          col.map (fun v => be.add s v) ++ flatScores be ps ox := by
        simp [flatScores]
      rw [hfs]
      by_cases hlt : idx < C
      · have hd : idx / C = 0 := Nat.div_eq_of_lt hlt
        have hm : idx % C = idx := Nat.mod_eq_of_lt hlt
        rw [hd, hm]
        have h1 : idx < (col.map (fun v => be.add s v)).length := by simp [hcl, hlt]
        rw [List.getD_eq_getElem?_getD, List.getElem?_append_left h1]
        simp [List.getD_eq_getElem?_getD, List.getElem?_map]
        have h2 : idx < col.length := by omega
        rw [List.getElem?_eq_getElem h2]
        simp
      · have hge : C ≤ idx := by omega
        have h1 : (col.map (fun v => be.add s v)).length ≤ idx := by simp [hcl, hge]
        rw [List.getD_eq_getElem?_getD, List.getElem?_append_right h1]
        simp only [List.length_map, hcl]
        have hidx2 : idx - C < ox.length * C := by
          simp only [List.length_cons, Nat.succ_mul] at hidx
          omega
        have := ih ox (by simpa using hl) (fun c hc => hcols c (List.mem_cons_of_mem _ hc))
          (idx - C) hidx2
        rw [List.getD_eq_getElem?_getD] at this
        rw [this]
        have hd : idx / C = (idx - C) / C + 1 := by
          conv_lhs => rw [← Nat.sub_add_cancel hge]
          rw [Nat.add_div_right _ hC]
        have hm : idx % C = (idx - C) % C := by
          conv_lhs => rw [← Nat.sub_add_cancel hge]
          rw [Nat.add_mod_right]
        rw [hd, hm]
        simp [List.getD_eq_getElem?_getD]

/-- The first `W` non-end candidates of a lawfully sorted round with at most `W`
hypotheses all lie in the sorted part, in non-increasing score order, and every other
non-end candidate scores at most as much as each of them. -/
theorem chosen_in_sorted_part (be : Backend) (hbe : be.Lawful) (eos : Int) (C B W : Nat)
    (hB : B ≤ W) (scoreVec : List Int) (hsv : scoreVec.length = B * C) :
    (((be.partialSort scoreVec (min (2 * W) scoreVec.length)).filter (nonEos eos C)).take
      W).Pairwise (fun a b => scoreVec.getD b 0 ≤ scoreVec.getD a 0) ∧
    ∀ idx, idx < B * C → nonEos eos C idx = true →
      idx ∈ ((be.partialSort scoreVec (min (2 * W) scoreVec.length)).filter (nonEos eos C)).take W ∨
      ∀ a ∈ ((be.partialSort scoreVec (min (2 * W) scoreVec.length)).filter (nonEos eos C)).take W,
        scoreVec.getD idx 0 ≤ scoreVec.getD a 0 := by
  obtain ⟨hnd, hlen, hmem⟩ := partialSort_positions be hbe scoreVec (min (2 * W) scoreVec.length)
  obtain ⟨hpw, hps⟩ := partialSort_split be hbe scoreVec (min (2 * W) scoreVec.length)
  generalize hk : min (2 * W) scoreVec.length = k at *
  generalize be.partialSort scoreVec k = out at *
  have hsplit : out.filter (nonEos eos C) =
      (out.take k).filter (nonEos eos C) ++ (out.drop k).filter (nonEos eos C) := by
    rw [← List.filter_append, List.take_append_drop]
  have hchosen : (out.filter (nonEos eos C)).take W =
      ((out.take k).filter (nonEos eos C)).take W := by
    by_cases hkn : scoreVec.length ≤ 2 * W
    · have hke : k = out.length := by rw [hlen, ← hk]; omega
      rw [hke, List.take_length]
    · have hke : k = 2 * W := by rw [← hk]; omega
      rw [hsplit]
      apply List.take_append_of_le_length
      have htl : (out.take k).length = 2 * W := by
        rw [List.length_take, hlen, hke]; omega
      have heos : ((out.take k).filter (fun idx => !(nonEos eos C idx))).length ≤ B :=
        eos_count_le eos C B (out.take k) (hnd.sublist (List.take_sublist _ _)) (by
          intro idx hidx
          have := (hmem idx).1 (List.mem_of_mem_take hidx)
          omega)
      have hsum := List.length_eq_length_filter_add (l := out.take k) (nonEos eos C)
      omega
  have hsub : List.Sublist (((out.take k).filter (nonEos eos C)).take W) (out.take k) :=
    (List.take_sublist _ _).trans (List.filter_sublist _)
  have hpwf : ((out.take k).filter (nonEos eos C)).Pairwise
      (fun a b => scoreVec.getD b 0 ≤ scoreVec.getD a 0) := hpw.sublist (List.filter_sublist _)
  rw [hchosen]
  refine ⟨hpw.sublist hsub, ?_⟩
  intro idx hidx hne
  have hin : idx ∈ out.filter (nonEos eos C) :=
    List.mem_filter.2 ⟨(hmem idx).2 (by omega), hne⟩
  rw [hsplit, List.mem_append] at hin
  rcases hin with hin | hin
  · rw [← List.take_append_drop W ((out.take k).filter (nonEos eos C)), List.mem_append] at hin
    rcases hin with hin | hin
    · exact Or.inl hin
    · right
      intro a ha
      have hpa := hpwf
      rw [← List.take_append_drop W ((out.take k).filter (nonEos eos C)),
        List.pairwise_append] at hpa
      exact hpa.2.2 a ha idx hin
  · right
    intro a ha
    exact hps a (hsub.subset ha) idx (List.mem_filter.1 hin).1

/-- What the loop body has done when it returns: it read the parent and the score of
the candidate, and moved a completed hypothesis, appended a live one, or dropped an
end-token candidate at a position not below the beam size. -/
theorem selectStep_inv (eos : Int) (nClass W : Nat) (beam : List CandidateHypo)
    (state : Seq2SeqState) (scoreVec : List Int) (j idx : Nat)
    (complete newBeam c1 nb1 : List CandidateHypo)
    (h : selectStep eos nClass W beam state scoreVec j idx complete newBeam = .ok (c1, nb1)) :
    ∃ hyp, beam[idx / nClass]? = some hyp ∧
      ((((idx % nClass : Nat) : Int) = eos ∧ j < W ∧ idx < scoreVec.length ∧ nb1 = newBeam ∧
          c1 = complete ++ [finishHypo nClass beam state scoreVec idx]) ∨
       (((idx % nClass : Nat) : Int) ≠ eos ∧ idx < scoreVec.length ∧ c1 = complete ∧
          nb1 = newBeam ++ [extendHypo nClass beam state scoreVec idx]) ∨
       (((idx % nClass : Nat) : Int) = eos ∧ ¬ j < W ∧ c1 = complete ∧ nb1 = newBeam)) := by
  cases hb : beam[idx / nClass]? with
  | none => simp [selectStep, hb] at h
  | some hyp =>
    refine ⟨hyp, rfl, ?_⟩
    cases hs : scoreVec[idx]? with
    | none =>
      simp only [selectStep, hb, hs] at h
      by_cases h1 : ((idx % nClass : Nat) : Int) = eos
      · by_cases h2 : j < W
        · simp [h1, h2] at h
        · right; right
          simp only [h1, h2, false_and, if_false, ne_eq, not_true_eq_false] at h
          injection h with h
          injection h with h3 h4
          exact ⟨h1, h2, h3.symm, h4.symm⟩
      · rw [if_neg (fun hh => h1 hh.2), if_pos h1] at h
        cases h
    | some sc =>
      have hlt : idx < scoreVec.length := by
        by_contra hge
        rw [List.getElem?_eq_none (by omega)] at hs
        cases hs
      have hsc : scoreVec.getD idx 0 = sc := by simp [List.getD, hs]
      have hstep := selectStep_ok eos nClass W beam state scoreVec j idx complete newBeam _ _ hb hs
      rw [hstep] at h
      injection h with h
      by_cases h1 : ((idx % nClass : Nat) : Int) = eos
      · by_cases h2 : j < W
        · left
          simp only [h1, h2, if_true] at h
          injection h with h3 h4
          refine ⟨h1, h2, hlt, h4.symm, ?_⟩
          rw [← h3]
          simp only [finishHypo, hb, hsc]
        · right; right
          simp only [h1, h2, if_true, if_false] at h
          injection h with h3 h4
          exact ⟨h1, h2, h3.symm, h4.symm⟩
      · right; left
        simp only [h1, if_false] at h
        injection h with h3 h4
        refine ⟨h1, hlt, h3.symm, ?_⟩
        rw [← h4]
        simp only [extendHypo, hb, hsc]

/-- The only error the loop body raises is an out-of-range read. -/
theorem selectStep_error (eos : Int) (nClass W : Nat) (beam : List CandidateHypo)
    (state : Seq2SeqState) (scoreVec : List Int) (j idx : Nat)
    (complete newBeam : List CandidateHypo) (e : Err)
    (h : selectStep eos nClass W beam state scoreVec j idx complete newBeam = .error e) :
    e = Err.outOfRange := by
  unfold selectStep at h
  dsimp only at h
  split at h
  · injection h with h; exact h.symm
  · split at h
    · split at h
      · injection h with h; exact h.symm
      · cases h
    · split at h
      · split at h
        · injection h with h; exact h.symm
        · cases h
      · cases h

/-- Every hypothesis the candidate loop leaves behind was there before or was built from
a candidate of the round that has a parent in the beam and a score. -/
theorem selectLoop_inv (eos : Int) (nClass W : Nat) (beam : List CandidateHypo)
    (state : Seq2SeqState) (scoreVec : List Int) :
    ∀ (indices : List Nat) (j : Nat) (complete newBeam c1 nb1 : List CandidateHypo),
      selectLoop eos nClass W beam state scoreVec j indices complete newBeam = .ok (c1, nb1) →
      (∀ h ∈ nb1, h ∈ newBeam ∨ ∃ idx ∈ indices, idx / nClass < beam.length ∧
        idx < scoreVec.length ∧ ((idx % nClass : Nat) : Int) ≠ eos ∧
        h = extendHypo nClass beam state scoreVec idx) ∧
      (∀ h ∈ c1, h ∈ complete ∨ ∃ idx ∈ indices, idx / nClass < beam.length ∧
        idx < scoreVec.length ∧ ((idx % nClass : Nat) : Int) = eos ∧
        h = finishHypo nClass beam state scoreVec idx) := by
  intro indices
  induction indices with
  | nil =>
    intro j complete newBeam c1 nb1 h
    simp only [selectLoop] at h
    injection h with h
    injection h with h1 h2
    subst h1 h2
    exact ⟨fun h hh => Or.inl hh, fun h hh => Or.inl hh⟩
  | cons idx rest ih =>
    intro j complete newBeam c1 nb1 h
    simp only [selectLoop] at h
    cases hst : selectStep eos nClass W beam state scoreVec j idx complete newBeam with
    | error e => rw [hst] at h; cases h
    | ok r =>
      obtain ⟨c', nb'⟩ := r
      rw [hst] at h
      simp only at h
      obtain ⟨hyp, hb, hcases⟩ := selectStep_inv _ _ _ _ _ _ _ _ _ _ _ _ hst
      have hdiv : idx / nClass < beam.length := by
        by_contra hge
        rw [List.getElem?_eq_none (by omega)] at hb
        cases hb
      have hstepN : ∀ g ∈ nb', g ∈ newBeam ∨ ∃ i ∈ idx :: rest, i / nClass < beam.length ∧
          i < scoreVec.length ∧ ((i % nClass : Nat) : Int) ≠ eos ∧
          g = extendHypo nClass beam state scoreVec i := by
        intro g hg
        rcases hcases with ⟨-, -, -, h4, -⟩ | ⟨h1, h2, -, h4⟩ | ⟨-, -, -, h4⟩
        · rw [h4] at hg; exact Or.inl hg
        · rw [h4] at hg
          rcases List.mem_append.1 hg with hg | hg
          · exact Or.inl hg
          · right
            exact ⟨idx, List.mem_cons_self _ _, hdiv, h2, h1, by simpa using hg⟩
        · rw [h4] at hg; exact Or.inl hg
      have hstepC : ∀ g ∈ c', g ∈ complete ∨ ∃ i ∈ idx :: rest, i / nClass < beam.length ∧
          i < scoreVec.length ∧ ((i % nClass : Nat) : Int) = eos ∧
          g = finishHypo nClass beam state scoreVec i := by
        intro g hg
        rcases hcases with ⟨h1, -, h2, -, h4⟩ | ⟨-, -, h4, -⟩ | ⟨-, -, h4, -⟩
        · rw [h4] at hg
          rcases List.mem_append.1 hg with hg | hg
          · exact Or.inl hg
          · right
            exact ⟨idx, List.mem_cons_self _ _, hdiv, h2, h1, by simpa using hg⟩
        · rw [h4] at hg; exact Or.inl hg
        · rw [h4] at hg; exact Or.inl hg
      split at h
      · injection h with h
        injection h with h1 h2
        subst h1 h2
        exact ⟨hstepN, hstepC⟩
      · obtain ⟨hN, hC⟩ := ih (j + 1) c' nb' c1 nb1 h
        constructor
        · intro g hg
          rcases hN g hg with h3 | ⟨i, hi, h4⟩
          · exact hstepN g h3
          · exact Or.inr ⟨i, List.mem_cons_of_mem _ hi, h4⟩
        · intro g hg
          rcases hC g hg with h3 | ⟨i, hi, h4⟩
          · exact hstepC g h3
          · exact Or.inr ⟨i, List.mem_cons_of_mem _ hi, h4⟩

/-- The only error the candidate loop raises is an out-of-range read. -/
theorem selectLoop_error (eos : Int) (nClass W : Nat) (beam : List CandidateHypo)
    (state : Seq2SeqState) (scoreVec : List Int) :
    ∀ (indices : List Nat) (j : Nat) (complete newBeam : List CandidateHypo) (e : Err),
      selectLoop eos nClass W beam state scoreVec j indices complete newBeam = .error e →
      e = Err.outOfRange := by
  intro indices
  induction indices with
  | nil => intro j complete newBeam e h; simp [selectLoop] at h
  | cons idx rest ih =>
    intro j complete newBeam e h
    simp only [selectLoop] at h
    cases hst : selectStep eos nClass W beam state scoreVec j idx complete newBeam with
    | error e1 =>
      rw [hst] at h
      injection h with h
      subst h
      exact selectStep_error _ _ _ _ _ _ _ _ _ _ _ hst
    | ok r =>
      obtain ⟨c', nb'⟩ := r
      rw [hst] at h
      simp only at h
      split at h
      · cases h
      · exact ih _ _ _ e h

/-- The trimmed completed set holds hypotheses of the set it was cut from. -/
theorem trimComplete_subset (be : Backend) (W : Nat) (complete : List CandidateHypo) :
    ∀ h ∈ trimComplete be W complete, h ∈ complete := by
  intro h hh
  have h1 := List.mem_of_mem_take hh
  obtain ⟨i, -, hi⟩ := List.mem_filterMap.1 h1
  exact List.mem_iff_getElem?.2 ⟨i, hi⟩

/-- What a round that returns has done: its first half succeeded, the candidate loop
returned the new beam, and the completed set is what the loop left, trimmed or not. -/
theorem beamRound_inv (c : Seq2SeqCriterion) (be : Backend) (input : Slice) (inputT : Int)
    (inputSizes : Slice) (W : Nat) (beam complete b1 c1 : List CandidateHypo) (stop : Bool)
    (h : beamRound c be input inputT inputSizes W beam complete = .ok (b1, c1, stop)) :
    ∃ state scoreVec indices c0,
      expandBeam c be input inputT inputSizes W beam = .ok (state, scoreVec, indices) ∧
      selectLoop c.eos_ c.nClass_ W beam state scoreVec 0 indices complete [] = .ok (c0, b1) ∧
      ((c1 = c0 ∧ stop = false ∧ ¬ c0.length ≥ W) ∨
       (c0.length ≥ W ∧ c1 = trimComplete be W c0 ∧
        ∃ worst best, c1.getLast? = some worst ∧ b1[0]? = some best ∧
          stop = decide (worst.score > best.score))) := by
  unfold beamRound at h
  cases hexp : expandBeam c be input inputT inputSizes W beam with
  | error e => rw [hexp] at h; cases h
  | ok r =>
    obtain ⟨state, scoreVec, indices⟩ := r
    rw [hexp] at h
    simp only at h
    cases hsel : selectLoop c.eos_ c.nClass_ W beam state scoreVec 0 indices complete [] with
    | error e => rw [hsel] at h; cases h
    | ok r2 =>
      obtain ⟨c0, nb⟩ := r2
      rw [hsel] at h
      simp only at h
      split at h
      · rename_i hge
        split at h
        · rename_i worst best hw hbst
          injection h with h
          injection h with h1 h2
          injection h2 with h2 h3
          subst h1 h2
          exact ⟨state, scoreVec, indices, c0, rfl, hsel,
            Or.inr ⟨hge, rfl, worst, best, hw, hbst, h3.symm⟩⟩
        · cases h
      · rename_i hge
        injection h with h
        injection h with h1 h2
        injection h2 with h2 h3
        subst h1 h2
        exact ⟨state, scoreVec, indices, c0, rfl, hsel, Or.inl ⟨rfl, h3.symm, hge⟩⟩

/-- The errors of a round: those of its first half, or an out-of-range read in its
second half. -/
theorem beamRound_error (c : Seq2SeqCriterion) (be : Backend) (input : Slice) (inputT : Int)
    (inputSizes : Slice) (W : Nat) (beam complete : List CandidateHypo) (e : Err)
    (h : beamRound c be input inputT inputSizes W beam complete = .error e) :
    expandBeam c be input inputT inputSizes W beam = .error e ∨
    ((∃ r, expandBeam c be input inputT inputSizes W beam = .ok r) ∧ e = Err.outOfRange) := by
  unfold beamRound at h
  cases hexp : expandBeam c be input inputT inputSizes W beam with
  | error e1 =>
    rw [hexp] at h
    injection h with h
    left; rw [h]
  | ok r =>
    right
    refine ⟨⟨r, rfl⟩, ?_⟩
    obtain ⟨state, scoreVec, indices⟩ := r
    rw [hexp] at h
    simp only at h
    cases hsel : selectLoop c.eos_ c.nClass_ W beam state scoreVec 0 indices complete [] with
    | error e1 =>
      rw [hsel] at h
      injection h with h
      subst h
      exact selectLoop_error _ _ _ _ _ _ _ _ _ _ _ hsel
    | ok r2 =>
      obtain ⟨c0, nb⟩ := r2
      rw [hsel] at h
      simp only at h
      split at h
      · split at h
        · cases h
        · injection h with h; exact h.symm
      · cases h

theorem readHidden_error_kind (state : Seq2SeqState) :
    ∀ (n i : Nat) (e : Err), readHidden state n i = .error e → e = Err.outOfRange := by
  intro n
  induction n with
  | zero => intro i e h; simp [readHidden] at h
  | succ k ih =>
    intro i e h
    simp only [readHidden] at h
    split at h
    · injection h with h; exact h.symm
    · split at h
      · rename_i e1 he
        injection h with h
        subst h
        exact ih _ _ he
      · cases h

/-- On states that agree with the reference step and validity flag, the loop of
`concatState` can only fail by reading a missing hidden tensor. -/
theorem concatLoop_error_of_same (step : Int) (isValid : Bool) (n : Nat) :
    ∀ (sv : List Seq2SeqState) (e : Err),
      (∀ s ∈ sv, s.step = step ∧ s.isValid = isValid) →
      concatLoop step isValid n sv = .error e → e = Err.outOfRange := by
  intro sv
  induction sv with
  | nil => intro e _ h; simp [concatLoop] at h
  | cons s rest ih =>
    intro e hall h
    have hs := hall s (List.mem_cons_self _ _)
    simp only [concatLoop, hs.1, hs.2, ne_eq, not_true_eq_false, if_false] at h
    split at h
    · rename_i e1 he
      injection h with h
      subst h
      exact readHidden_error_kind _ _ _ _ he
    · split at h
      · rename_i e1 he
        injection h with h
        subst h
        exact ih _ (fun t ht => hall t (List.mem_cons_of_mem _ ht)) he
      · cases h

/-- The batched state `concatState` returns carries the step and the validity flag of
the first state. -/
theorem concatState_ok_inv (sv : List Seq2SeqState) (ps : Seq2SeqState)
    (h : concatState sv = .ok ps) :
    ∃ s0 rest, sv = s0 :: rest ∧ ps.step = s0.step ∧ ps.isValid = s0.isValid := by
  cases sv with
  | nil => simp [concatState] at h
  | cons s0 rest =>
    refine ⟨s0, rest, rfl, ?_⟩
    simp only [concatState] at h
    split at h
    · cases h
    · injection h with h
      subst h
      exact ⟨rfl, rfl⟩

/-- On states that share step and validity flag, `concatState` raises neither
"step unmatched" nor "isValid unmatched". -/
theorem concatState_error_of_same (sv : List Seq2SeqState) (e : Err)
    (hs : ∀ s ∈ sv, ∀ t ∈ sv, s.step = t.step ∧ s.isValid = t.isValid)
    (h : concatState sv = .error e) : e = Err.emptyStateVec ∨ e = Err.outOfRange := by
  cases sv with
  | nil =>
    simp only [concatState] at h
    injection h with h
    exact Or.inl h.symm
  | cons s0 rest =>
    right
    simp only [concatState] at h
    split at h
    · rename_i e1 he
      injection h with h
      subst h
      exact concatLoop_error_of_same _ _ _ _ _
        (fun s hs1 => hs s hs1 s0 (List.mem_cons_self _ _)) he
    · cases h

/-- The errors of the first half of a round on a beam whose states share step and
validity flag. -/
theorem expandBeam_error_of_same (c : Seq2SeqCriterion) (be : Backend) (input : Slice)
    (inputT : Int) (inputSizes : Slice) (W : Nat) (beam : List CandidateHypo) (e : Err)
    (hs : ∀ h ∈ beam, ∀ g ∈ beam, h.state.step = g.state.step ∧ h.state.isValid = g.state.isValid)
    (h : expandBeam c be input inputT inputSizes W beam = .error e) :
    e = Err.emptyStateVec ∨ e = Err.outOfRange ∨ e = Err.shapeMismatch := by
  unfold expandBeam at h
  dsimp only at h
  cases hcs : concatState (beam.map (fun h => h.state)) with
  | error e1 =>
    rw [hcs] at h
    injection h with h
    subst h
    rcases concatState_error_of_same _ _ (by
      intro s hs1 t ht1
      obtain ⟨a, ha, rfl⟩ := List.mem_map.1 hs1
      obtain ⟨b, hb, rfl⟩ := List.mem_map.1 ht1
      exact hs a ha b hb) hcs with h1 | h1
    · exact Or.inl h1
    · exact Or.inr (Or.inl h1)
  | ok ps =>
    simp only [hcs] at h
    cases hds : decodeStep c [input] (concatenate (beam.map prevYOf)) ps
        (tile inputSizes (dims1 (concatenate (beam.map prevYOf)))) [] inputT with
    | error e1 =>
      rw [hds] at h
      injection h with h
      subst h
      exact Or.inr (Or.inl (decodeStep_error _ _ _ _ _ _ _ _ hds))
    | ok r =>
      obtain ⟨ox0, st⟩ := r
      simp only [hds] at h
      split at h
      · injection h with h
        exact Or.inr (Or.inr h.symm)
      · cases h

/-- After a round that returns, every live hypothesis carries the validity flag of the
state constructor and the step of the first hypothesis of the old beam plus one. -/
theorem beamRound_steps (c : Seq2SeqCriterion) (be : Backend) (input : Slice) (inputT : Int)
    (inputSizes : Slice) (W : Nat) (beam complete b1 c1 : List CandidateHypo) (stop : Bool)
    (h : beamRound c be input inputT inputSizes W beam complete = .ok (b1, c1, stop)) :
    ∃ g0 rest, beam = g0 :: rest ∧
      ∀ h ∈ b1, h.state.isValid = c.stateIsValid ∧ h.state.step = g0.state.step + 1 := by
  obtain ⟨state, scoreVec, indices, c0, hexp, hsel, -⟩ := beamRound_inv _ _ _ _ _ _ _ _ _ _ _ h
  obtain ⟨ps, ox0, hcs, hds, -⟩ := expandBeam_ok_inv _ _ _ _ _ _ _ _ _ _ hexp
  obtain ⟨s0, srest, hsv, hstep, -⟩ := concatState_ok_inv _ _ hcs
  obtain ⟨-, hst, hval, -⟩ := decodeStep_shape _ _ _ _ _ _ _ _ _ hds
  cases beam with
  | nil => simp at hsv
  | cons g0 rest =>
    refine ⟨g0, rest, rfl, ?_⟩
    simp only [List.map_cons, List.cons.injEq] at hsv
    intro g hg
    rcases (selectLoop_inv _ _ _ _ _ _ _ _ _ _ _ _ hsel).1 g hg with h0 | ⟨idx, -, -, -, -, rfl⟩
    · simp at h0
    · simp only [extendHypo, selectState]
      exact ⟨hval, by rw [hst, hstep, ← hsv.1]⟩

/-- The search loop on a beam whose states share step and validity flag: it never
raises the step or validity mismatch of `concatState`, and the live beam it returns
shares step and validity flag again. -/
theorem beamLoop_same_step (c : Seq2SeqCriterion) (be : Backend) (input : Slice) (inputT : Int)
    (inputSizes : Slice) (W : Nat) :
    ∀ (fuel : Nat) (beam complete : List CandidateHypo) (rounds : Nat),
      (∀ h ∈ beam, ∀ g ∈ beam,
        h.state.step = g.state.step ∧ h.state.isValid = g.state.isValid) →
      (∀ e, (beamLoop c be input inputT inputSizes W fuel beam complete rounds).2 = .error e →
        e ≠ Err.stepUnmatched ∧ e ≠ Err.isValidUnmatched) ∧
      (∀ b1 c1, (beamLoop c be input inputT inputSizes W fuel beam complete rounds).2 =
          .ok (b1, c1) →
        ∀ h ∈ b1, ∀ g ∈ b1,
          h.state.step = g.state.step ∧ h.state.isValid = g.state.isValid) := by
  intro fuel
  induction fuel with
  | zero =>
    intro beam complete rounds hs
    constructor
    · intro e h; simp [beamLoop] at h
    · intro b1 c1 h
      simp only [beamLoop] at h
      injection h with h
      injection h with h1 h2
      subst h1
      exact hs
  | succ n ih =>
    intro beam complete rounds hs
    cases hr : beamRound c be input inputT inputSizes W beam complete with
    | error e1 =>
      constructor
      · intro e h
        simp only [beamLoop, hr] at h
        injection h with h
        subst h
        rcases beamRound_error _ _ _ _ _ _ _ _ _ hr with h1 | ⟨-, h1⟩
        · rcases expandBeam_error_of_same _ _ _ _ _ _ _ _ hs h1 with h2 | h2 | h2 <;>
            rw [h2] <;> exact ⟨by decide, by decide⟩
        · rw [h1]; exact ⟨by decide, by decide⟩
      · intro b1 c1 h
        simp [beamLoop, hr] at h
    | ok r =>
      obtain ⟨b, cm, stop⟩ := r
      obtain ⟨g0, rest, -, hb⟩ := beamRound_steps _ _ _ _ _ _ _ _ _ _ _ hr
      have hs1 : ∀ h ∈ b, ∀ g ∈ b,
          h.state.step = g.state.step ∧ h.state.isValid = g.state.isValid := by
        intro h hh g hg
        exact ⟨by rw [(hb h hh).2, (hb g hg).2], by rw [(hb h hh).1, (hb g hg).1]⟩
      cases stop with
      | true =>
        constructor
        · intro e h; simp [beamLoop, hr] at h
        · intro b1 c1 h
          simp only [beamLoop, hr, if_true] at h
          injection h with h
          injection h with h1 h2
          subst h1
          exact hs1
      | false =>
        have := ih b cm (rounds + 1) hs1
        simpa only [beamLoop, hr, Bool.false_eq_true, if_false] using this

/-- The score of a candidate of a round: the parent's score plus the log-probability of
the class in the parent's column. -/
theorem expandBeam_score (c : Seq2SeqCriterion) (be : Backend) (input : Slice) (inputT : Int)
    (inputSizes : Slice) (W : Nat) (beam : List CandidateHypo) (state : Seq2SeqState)
    (scoreVec : List Int) (indices : List Nat)
    (hexp : expandBeam c be input inputT inputSizes W beam = .ok (state, scoreVec, indices)) :
    ∃ ps ox0,
      concatState (beam.map (fun h => h.state)) = .ok ps ∧
      decodeStep c [input] (concatenate (beam.map prevYOf)) ps
        (tile inputSizes (dims1 (concatenate (beam.map prevYOf)))) [] inputT = .ok (ox0, state) ∧
      ∀ idx parent, idx < scoreVec.length → beam[idx / c.nClass_]? = some parent →
        scoreVec.getD idx 0 =
          be.add parent.score
            ((logSoftmax be (ox0.getD (idx / c.nClass_) [])).getD (idx % c.nClass_) 0) ∧
        (logSoftmax be (ox0.getD (idx / c.nClass_) [])).getD (idx % c.nClass_) 0 ∈
          logSoftmax be (ox0.getD (idx / c.nClass_) []) := by
  obtain ⟨ps, ox0, hcs, hds, hl, hcols, hsv, hsvl, -, -⟩ :=
    expandBeam_ok_inv c be input inputT inputSizes W beam state scoreVec indices hexp
  refine ⟨ps, ox0, hcs, hds, ?_⟩
  intro idx parent hidx hpar
  have hcols2 : ∀ col ∈ ox0.map (logSoftmax be), col.length = c.nClass_ := by
    intro col hcol
    obtain ⟨x, hx, rfl⟩ := List.mem_map.1 hcol
    simp [logSoftmax, hcols x hx]
  have hC : 0 < c.nClass_ := by
    rcases Nat.eq_zero_or_pos c.nClass_ with h | h
    · rw [hsvl, h] at hidx; simp at hidx
    · exact h
  have hdiv : idx / c.nClass_ < beam.length := by
    rw [Nat.div_lt_iff_lt_mul hC, ← hsvl]; exact hidx
  have h1 := flatScores_getD be c.nClass_ (beam.map (fun h => h.score)) (ox0.map (logSoftmax be))
    (by simp [hl]) hcols2 idx (by simpa [hl, ← hsvl] using hidx)
  have h2 : (beam.map (fun h => h.score)).getD (idx / c.nClass_) 0 = parent.score := by
    simp [List.getD_eq_getElem?_getD, List.getElem?_map, hpar]
  have h3 : (ox0.map (logSoftmax be)).getD (idx / c.nClass_) [] =
      logSoftmax be (ox0.getD (idx / c.nClass_) []) := by
    have hlt : idx / c.nClass_ < ox0.length := by omega
    simp [List.getD_eq_getElem?_getD, List.getElem?_map, List.getElem?_eq_getElem hlt]
  rw [hsv, h1, h2, h3]
  refine ⟨rfl, ?_⟩
  have hlt : idx / c.nClass_ < ox0.length := by omega
  have hcl : (logSoftmax be (ox0.getD (idx / c.nClass_) [])).length = c.nClass_ := by
    rw [← h3]
    apply hcols2
    rw [List.getD_eq_getElem _ _ (by simpa using hlt)]
    exact List.getElem_mem _
  have hm : idx % c.nClass_ < (logSoftmax be (ox0.getD (idx / c.nClass_) [])).length := by
    rw [hcl]; exact Nat.mod_lt _ hC
  rw [List.getD_eq_getElem _ _ hm]
  exact List.getElem_mem _

/-- The hypotheses of a round that returns: a live hypothesis is its parent's path
extended by a class that is not the end token, a completed hypothesis is one of the old
ones or carries its parent's path unchanged; parent and class are quotient and remainder
of a flat index by the vocabulary size, and the score is the parent's score plus the
log-probability of the class. -/
theorem beamRound_candidates (c : Seq2SeqCriterion) (be : Backend) (input : Slice)
    (inputT : Int) (inputSizes : Slice) (W : Nat) (beam complete b1 c1 : List CandidateHypo)
    (stop : Bool)
    (h : beamRound c be input inputT inputSizes W beam complete = .ok (b1, c1, stop)) :
    ∃ ps ox0 state,
      concatState (beam.map (fun h => h.state)) = .ok ps ∧
      decodeStep c [input] (concatenate (beam.map prevYOf)) ps
        (tile inputSizes (dims1 (concatenate (beam.map prevYOf)))) [] inputT = .ok (ox0, state) ∧
      (∀ h ∈ b1, ∃ idx parent, beam[idx / c.nClass_]? = some parent ∧
        ((idx % c.nClass_ : Nat) : Int) ≠ c.eos_ ∧
        h.path = parent.path ++ [((idx % c.nClass_ : Nat) : Int)] ∧
        h.state = selectState state (idx / c.nClass_) ∧
        h.score = be.add parent.score
          ((logSoftmax be (ox0.getD (idx / c.nClass_) [])).getD (idx % c.nClass_) 0) ∧
        (logSoftmax be (ox0.getD (idx / c.nClass_) [])).getD (idx % c.nClass_) 0 ∈
          logSoftmax be (ox0.getD (idx / c.nClass_) [])) ∧
      (∀ h ∈ c1, h ∈ complete ∨ ∃ idx parent, beam[idx / c.nClass_]? = some parent ∧
        ((idx % c.nClass_ : Nat) : Int) = c.eos_ ∧ h.path = parent.path ∧
        h.state = selectState state (idx / c.nClass_) ∧
        h.score = be.add parent.score
          ((logSoftmax be (ox0.getD (idx / c.nClass_) [])).getD (idx % c.nClass_) 0) ∧
        (logSoftmax be (ox0.getD (idx / c.nClass_) [])).getD (idx % c.nClass_) 0 ∈
          logSoftmax be (ox0.getD (idx / c.nClass_) [])) := by
  obtain ⟨state, scoreVec, indices, c0, hexp, hsel, hc1⟩ := beamRound_inv _ _ _ _ _ _ _ _ _ _ _ h
  obtain ⟨ps, ox0, hcs, hds, hscore⟩ := expandBeam_score _ _ _ _ _ _ _ _ _ _ hexp
  obtain ⟨hN, hC⟩ := selectLoop_inv _ _ _ _ _ _ _ _ _ _ _ _ hsel
  refine ⟨ps, ox0, state, hcs, hds, ?_, ?_⟩
  · intro g hg
    rcases hN g hg with h0 | ⟨idx, -, hdiv, hlt, hcls, rfl⟩
    · simp at h0
    · obtain ⟨parent, hpar⟩ : ∃ p, beam[idx / c.nClass_]? = some p :=
        ⟨_, List.getElem?_eq_getElem hdiv⟩
      obtain ⟨hs1, hs2⟩ := hscore idx parent hlt hpar
      exact ⟨idx, parent, hpar, hcls, by simp only [extendHypo, hpar], rfl,
        by simp only [extendHypo]; exact hs1, hs2⟩
  · intro g hg
    have hg0 : g ∈ c0 := by
      rcases hc1 with ⟨h1, -, -⟩ | ⟨-, h1, -⟩
      · rw [h1] at hg; exact hg
      · rw [h1] at hg; exact trimComplete_subset _ _ _ _ hg
    rcases hC g hg0 with h0 | ⟨idx, -, hdiv, hlt, hcls, rfl⟩
    · exact Or.inl h0
    · right
      obtain ⟨parent, hpar⟩ : ∃ p, beam[idx / c.nClass_]? = some p :=
        ⟨_, List.getElem?_eq_getElem hdiv⟩
      obtain ⟨hs1, hs2⟩ := hscore idx parent hlt hpar
      exact ⟨idx, parent, hpar, hcls, by simp only [finishHypo, hpar], rfl,
        by simp only [finishHypo]; exact hs1, hs2⟩

/-- A round keeps the end token out of every path. -/
theorem beamRound_no_eos (c : Seq2SeqCriterion) (be : Backend) (input : Slice)
    (inputT : Int) (inputSizes : Slice) (W : Nat) (beam complete b1 c1 : List CandidateHypo)
    (stop : Bool)
    (hb : ∀ h ∈ beam, c.eos_ ∉ h.path) (hc : ∀ h ∈ complete, c.eos_ ∉ h.path)
    (h : beamRound c be input inputT inputSizes W beam complete = .ok (b1, c1, stop)) :
    (∀ h ∈ b1, c.eos_ ∉ h.path) ∧ (∀ h ∈ c1, c.eos_ ∉ h.path) := by
  obtain ⟨ps, ox0, state, -, -, hN, hC⟩ := beamRound_candidates _ _ _ _ _ _ _ _ _ _ _ h
  constructor
  · intro g hg
    obtain ⟨idx, parent, hpar, hcls, hpath, -⟩ := hN g hg
    rw [hpath, List.mem_append, List.mem_singleton]
    rintro (h1 | h1)
    · exact hb parent (List.mem_iff_getElem?.2 ⟨_, hpar⟩) h1
    · exact hcls h1.symm
  · intro g hg
    rcases hC g hg with h0 | ⟨idx, parent, hpar, -, hpath, -⟩
    · exact hc g h0
    · rw [hpath]
      exact hb parent (List.mem_iff_getElem?.2 ⟨_, hpar⟩)

/-- The search loop keeps the end token out of every path. -/
theorem beamLoop_no_eos (c : Seq2SeqCriterion) (be : Backend) (input : Slice)
    (inputT : Int) (inputSizes : Slice) (W : Nat) :
    ∀ (fuel : Nat) (beam complete : List CandidateHypo) (rounds : Nat)
      (b1 c1 : List CandidateHypo),
      (∀ h ∈ beam, c.eos_ ∉ h.path) → (∀ h ∈ complete, c.eos_ ∉ h.path) →
      (beamLoop c be input inputT inputSizes W fuel beam complete rounds).2 = .ok (b1, c1) →
      (∀ h ∈ b1, c.eos_ ∉ h.path) ∧ (∀ h ∈ c1, c.eos_ ∉ h.path) := by
  intro fuel
  induction fuel with
  | zero =>
    intro beam complete rounds b1 c1 hb hc h
    simp only [beamLoop] at h
    injection h with h
    injection h with h1 h2
    subst h1 h2
    exact ⟨hb, hc⟩
  | succ n ih =>
    intro beam complete rounds b1 c1 hb hc h
    cases hr : beamRound c be input inputT inputSizes W beam complete with
    | error e => simp [beamLoop, hr] at h
    | ok r =>
      obtain ⟨b, cm, stop⟩ := r
      obtain ⟨hb1, hc1⟩ := beamRound_no_eos _ _ _ _ _ _ _ _ _ _ _ hb hc hr
      cases stop with
      | true =>
        simp only [beamLoop, hr, if_true] at h
        injection h with h
        injection h with h1 h2
        subst h1 h2
        exact ⟨hb1, hc1⟩
      | false =>
        simp only [beamLoop, hr, Bool.false_eq_true, if_false] at h
        exact ih b cm (rounds + 1) b1 c1 hb1 hc1 h

/-- In a list in non-increasing score order, the last hypothesis scores at most as much
as every hypothesis. -/
theorem pairwise_last_le :
    ∀ (l : List CandidateHypo) (w : CandidateHypo),
      l.Pairwise (fun a b => b.score ≤ a.score) → l.getLast? = some w →
      ∀ g ∈ l, w.score ≤ g.score := by
  intro l
  induction l with
  | nil => intro w _ h; simp at h
  | cons a rest ih =>
    intro w hp hl g hg
    cases rest with
    | nil =>
      simp only [List.getLast?_singleton, Option.some.injEq] at hl
      simp only [List.mem_singleton] at hg
      rw [hg, hl]
    | cons b rs =>
      rw [List.getLast?_cons_cons] at hl
      have hp2 := List.pairwise_cons.1 hp
      rcases List.mem_cons.1 hg with rfl | hg
      · have hne : (b :: rs) ≠ [] := by simp
        have hw : w ∈ b :: rs := by
          rw [List.getLast?_eq_getLast _ hne] at hl
          injection hl with hl
          rw [← hl]
          exact List.getLast_mem hne
        exact hp2.1 w hw
      · exact ih w hp2.2 hl g hg

/-- The trimmed completed set is in non-increasing score order. -/
theorem trimComplete_sorted (be : Backend) (hbe : be.Lawful) (W : Nat)
    (complete : List CandidateHypo) :
    (trimComplete be W complete).Pairwise (fun a b => b.score ≤ a.score) := by
  obtain ⟨-, -, hmem⟩ := partialSort_positions be hbe (complete.map (fun h => h.score)) W
  obtain ⟨hpw, -⟩ := partialSort_split be hbe (complete.map (fun h => h.score)) W
  unfold trimComplete
  generalize be.partialSort (complete.map (fun h => h.score)) W = out at hmem hpw
  have hmap : out.filterMap (fun i => complete[i]?) =
      out.map (fun i => (complete[i]?).getD { score := 0, path := [], state := stateNoHidden }) := by
    rw [← List.filterMap_eq_map]
    apply List.filterMap_congr
    intro i hi
    have hlt : i < complete.length := by simpa using (hmem i).1 hi
    simp [List.getElem?_eq_getElem hlt]
  rw [hmap, ← List.map_take, List.pairwise_map]
  refine hpw.imp_of_mem ?_
  intro a b ha hb hab
  have hla : a < complete.length := by simpa using (hmem a).1 (List.mem_of_mem_take ha)
  have hlb : b < complete.length := by simpa using (hmem b).1 (List.mem_of_mem_take hb)
  simpa [List.getD_eq_getElem?_getD, List.getElem?_map, List.getElem?_eq_getElem hla,
    List.getElem?_eq_getElem hlb] using hab

/-- After a round entered with at most `W` hypotheses, under a lawful partial sort, the
first hypothesis of the new live beam scores at least as much as every live hypothesis. -/
theorem beamRound_best_first (c : Seq2SeqCriterion) (be : Backend) (hbe : be.Lawful)
    (input : Slice) (inputT : Int) (inputSizes : Slice) (W : Nat) (hW : 1 ≤ W)
    (beam complete b1 c1 : List CandidateHypo) (stop : Bool) (hB : beam.length ≤ W)
    (h : beamRound c be input inputT inputSizes W beam complete = .ok (b1, c1, stop)) :
    b1.Pairwise (fun a b => b.score ≤ a.score) ∧
    ∀ best, b1[0]? = some best → ∀ g ∈ b1, g.score ≤ best.score := by
  obtain ⟨state, scoreVec, indices, c0, hexp, hsel, -⟩ := beamRound_inv _ _ _ _ _ _ _ _ _ _ _ h
  obtain ⟨ps, ox0, -, -, -, -, -, hsv, hidx, hne⟩ :=
    expandBeam_ok_inv c be input inputT inputSizes W beam state scoreVec indices hexp
  obtain ⟨-, -, hmem⟩ := partialSort_positions be hbe scoreVec (min (2 * W) scoreVec.length)
  obtain ⟨hcp, -⟩ := chosen_in_sorted_part be hbe c.eos_ c.nClass_ beam.length W hB scoreVec hsv
  rw [← hidx] at hmem hcp
  have hvalid : ∀ idx ∈ indices, idx < beam.length * c.nClass_ := by
    intro idx hi
    rw [← hsv]; exact (hmem idx).1 hi
  obtain ⟨c1', hsel2, -⟩ := selectLoop_spec c.eos_ c.nClass_ W beam state scoreVec hsv
    indices 0 complete [] hvalid (by simp; omega)
  rw [hsel] at hsel2
  injection hsel2 with hsel2
  injection hsel2 with h1 h2
  simp only [List.length_nil, Nat.sub_zero, List.nil_append] at h2
  have hsorted : b1.Pairwise (fun a b => b.score ≤ a.score) := by
    rw [h2, List.pairwise_map]
    exact hcp
  refine ⟨hsorted, ?_⟩
  intro best hbest g hg
  cases b1 with
  | nil => simp at hg
  | cons b rest =>
    simp only [List.getElem?_cons_zero, Option.some.injEq] at hbest
    subst hbest
    rcases List.mem_cons.1 hg with rfl | hg
    · exact le_refl _
    · exact (List.pairwise_cons.1 hsorted).1 g hg

/-- With log-probabilities that are at most 0 and an addition that does not raise a
score by them, a round does not raise scores: a bound on
the scores of the beam bounds the new live beam and every new completed hypothesis. -/
theorem beamRound_score_le (c : Seq2SeqCriterion) (be : Backend) (hnp : NonPosLogProb be)
    (hadd : be.AddNonPos) (input : Slice) (inputT : Int) (inputSizes : Slice) (W : Nat)
    (beam complete b1 c1 : List CandidateHypo) (stop : Bool) (M : Int)
    (hM : ∀ h ∈ beam, h.score ≤ M)
    (h : beamRound c be input inputT inputSizes W beam complete = .ok (b1, c1, stop)) :
    (∀ h ∈ b1, h.score ≤ M) ∧ (∀ h ∈ c1, h ∈ complete ∨ h.score ≤ M) := by
  obtain ⟨ps, ox0, state, -, -, hN, hC⟩ := beamRound_candidates _ _ _ _ _ _ _ _ _ _ _ h
  constructor
  · intro g hg
    obtain ⟨idx, parent, hpar, -, -, -, hsc, hin⟩ := hN g hg
    have h1 := hM parent (List.mem_iff_getElem?.2 ⟨_, hpar⟩)
    have h2 := hadd parent.score _ (hnp _ _ hin)
    omega
  · intro g hg
    rcases hC g hg with h0 | ⟨idx, parent, hpar, -, -, -, hsc, hin⟩
    · exact Or.inl h0
    · right
      have h1 := hM parent (List.mem_iff_getElem?.2 ⟨_, hpar⟩)
      have h2 := hadd parent.score _ (hnp _ _ hin)
      omega

/-- With log-probabilities that are at most 0 and an addition that does not raise a
score by them, no number of further rounds raises a score above a bound on the live beam and the completed set. -/
theorem beamLoop_score_le (c : Seq2SeqCriterion) (be : Backend) (hnp : NonPosLogProb be)
    (hadd : be.AddNonPos) (input : Slice) (inputT : Int) (inputSizes : Slice) (W : Nat) (M : Int) :
    ∀ (fuel : Nat) (beam complete : List CandidateHypo) (rounds : Nat)
      (b1 c1 : List CandidateHypo),
      (∀ h ∈ beam, h.score ≤ M) → (∀ h ∈ complete, h.score ≤ M) →
      (beamLoop c be input inputT inputSizes W fuel beam complete rounds).2 = .ok (b1, c1) →
      (∀ h ∈ b1, h.score ≤ M) ∧ (∀ h ∈ c1, h.score ≤ M) := by
  intro fuel
  induction fuel with
  | zero =>
    intro beam complete rounds b1 c1 hb hc h
    simp only [beamLoop] at h
    injection h with h
    injection h with h1 h2
    subst h1 h2
    exact ⟨hb, hc⟩
  | succ n ih =>
    intro beam complete rounds b1 c1 hb hc h
    cases hr : beamRound c be input inputT inputSizes W beam complete with
    | error e => simp [beamLoop, hr] at h
    | ok r =>
      obtain ⟨b, cm, stop⟩ := r
      obtain ⟨hb1, hc1⟩ := beamRound_score_le c be hnp hadd _ _ _ _ _ _ _ _ _ M hb hr
      have hc2 : ∀ h ∈ cm, h.score ≤ M := by
        intro g hg
        rcases hc1 g hg with h0 | h0
        · exact hc g h0
        · exact h0
      cases stop with
      | true =>
        simp only [beamLoop, hr, if_true] at h
        injection h with h
        injection h with h1 h2
        subst h1 h2
        exact ⟨hb1, hc2⟩
      | false =>
        simp only [beamLoop, hr, Bool.false_eq_true, if_false] at h
        exact ih b cm (rounds + 1) b1 c1 hb1 hc2 h

theorem foldl_max_ge (xs : List Int) :
    ∀ init : Int, init ≤ xs.foldl max init ∧ ∀ y ∈ xs, y ≤ xs.foldl max init := by
  induction xs with
  | nil => intro init; simp
  | cons x rest ih =>
    intro init
    simp only [List.foldl_cons]
    obtain ⟨h1, h2⟩ := ih (max init x)
    refine ⟨le_trans (le_max_left _ _) h1, ?_⟩
    intro y hy
    rcases List.mem_cons.1 hy with rfl | hy
    · exact le_trans (le_max_right _ _) h1
    · exact h2 y hy

/-- No entry of a column exceeds its largest entry. -/
theorem le_colMax (col : Slice) : ∀ v ∈ col, v ≤ colMax col := by
  intro v hv
  cases col with
  | nil => simp at hv
  | cons x xs =>
    simp only [colMax]
    rcases List.mem_cons.1 hv with rfl | hv
    · exact (foldl_max_ge xs v).1
    · exact (foldl_max_ge xs x).2 v hv

/-- With the largest logit as normaliser, every log-probability is at most 0. -/
theorem nonPos_of_colMax (be : Backend) (h : be.logProb = fun col v => v - colMax col) :
    NonPosLogProb be := by
  intro col v hv
  simp only [logSoftmax, List.mem_map, h] at hv
  obtain ⟨x, hx, rfl⟩ := hv
  have := le_colMax col x hx
  omega

/-- An exact addition does not raise a score by a log-probability that is at most 0. -/
theorem addNonPos_of_exact (be : Backend) (h : be.add = fun s v => s + v) : be.AddNonPos := by
  intro s v hv
  rw [h]
  show s + v ≤ s
  omega

/-- The reference backend keeps the order of logits and of sums. -/
theorem refBackend_monotone : refBackend.Monotone :=
  ⟨fun _ _ _ h => h, fun s v w h => by show s + v ≤ s + w; omega⟩

/-- The coarse log-softmax keeps the order of the logits. -/
theorem coarseBackend_monotone : coarseBackend.Monotone := by
  refine ⟨fun col v w h => ?_, fun s v w h => ?_⟩
  · show -((colMax col - v) / 4 * 4) ≤ -((colMax col - w) / 4 * 4)
    omega
  · show s + v ≤ s + w
    omega

theorem maxBackend_lawful : maxBackend.Lawful := fun scores k => refBackend_lawful scores k

/-- Why the loop of `concatState` stops: "step unmatched" on a state with another step,
"isValid unmatched" on a state with another validity flag, and the read outside the
vector on a state with fewer hidden tensors than the loop reads. -/
theorem concatLoop_error_cause (step : Int) (isValid : Bool) (n : Nat) :
    ∀ (sv : List Seq2SeqState) (e : Err),
      concatLoop step isValid n sv = .error e →
      (e = Err.stepUnmatched ∧ ∃ s ∈ sv, s.step ≠ step) ∨
      (e = Err.isValidUnmatched ∧ ∃ s ∈ sv, s.isValid ≠ isValid) ∨
      (e = Err.outOfRange ∧ ∃ s ∈ sv, s.hidden.length < n) := by
  intro sv
  induction sv with
  | nil => intro e h; simp [concatLoop] at h
  | cons s rest ih =>
    intro e h
    by_cases h1 : s.step = step
    · by_cases h2 : s.isValid = isValid
      · simp only [concatLoop, h1, h2, ne_eq, not_true_eq_false, if_false] at h
        cases hrd : readHidden s n 0 with
        | error e1 =>
          simp only [hrd] at h
          injection h with h
          subst h
          right; right
          refine ⟨readHidden_error_kind s n 0 e1 hrd, s, List.mem_cons_self _ _, ?_⟩
          by_contra hge
          have := readHidden_ok s n 0 (by omega)
          rw [hrd] at this
          cases this
        | ok hs =>
          simp only [hrd] at h
          cases hrest : concatLoop step isValid n rest with
          | error e1 =>
            simp only [hrest] at h
            injection h with h
            subst h
            rcases ih e1 hrest with ⟨he, t, ht, hc⟩ | ⟨he, t, ht, hc⟩ | ⟨he, t, ht, hc⟩
            · exact Or.inl ⟨he, t, List.mem_cons_of_mem _ ht, hc⟩
            · exact Or.inr (Or.inl ⟨he, t, List.mem_cons_of_mem _ ht, hc⟩)
            · exact Or.inr (Or.inr ⟨he, t, List.mem_cons_of_mem _ ht, hc⟩)
          | ok v =>
            simp only [hrest] at h
            cases h
      · simp only [concatLoop, h1, h2, ne_eq, not_true_eq_false, not_false_eq_true, if_false,
          if_true] at h
        injection h with h
        exact Or.inr (Or.inl ⟨h.symm, s, List.mem_cons_self _ _, h2⟩)
    · simp only [concatLoop, ne_eq, h1, not_false_eq_true, if_true] at h
      injection h with h
      exact Or.inl ⟨h.symm, s, List.mem_cons_self _ _, h1⟩

/-- A value inside the 64-bit range is left as it is. -/
theorem wrapDim_of_fits (x : Int) (h0 : 0 ≤ x) (h1 : x < 9223372036854775808) :
    wrapDim x = x := by
  unfold wrapDim
  omega

/-! ## The claims -/

/-- C1. `viterbiPathBase` always returns, and its path is exactly the sequence of
per-step argmax tokens of the greedy trajectory (one token per step, for
`maxDecoderOutputLen_` steps) taken up to but excluding the first end token: cut off
after `maxDecoderOutputLen_` tokens when no end token occurs, never padded.  In
particular the path is empty when the first argmax is the end token. -/
theorem viterbiPathBase_greedy_path (c : Seq2SeqCriterion) (input : Slice) (inputT : Int)
    (inputSizes : Slice) (saveAttn : Bool) :
    (greedyTokens c.eval input inputT inputSizes c.maxDecoderOutputLen_ []
        (c.newState c.nAttnRound_)).length = c.maxDecoderOutputLen_ ∧
    (∃ alpha, (viterbiPathBase c input inputT inputSizes saveAttn).result =
        .ok ((greedyTokens c.eval input inputT inputSizes c.maxDecoderOutputLen_ []
            (c.newState c.nAttnRound_)).takeWhile (fun p => decide (p ≠ c.eos_)), alpha)) ∧
    ((greedyTokens c.eval input inputT inputSizes c.maxDecoderOutputLen_ []
        (c.newState c.nAttnRound_)).head? = some c.eos_ →
      ∃ alpha, (viterbiPathBase c input inputT inputSizes saveAttn).result = .ok ([], alpha)) := by
  obtain ⟨h1, av, k, h2, -, -⟩ := viterbiRun_spec c input inputT inputSizes saveAttn
  have hres : (viterbiPathBase c input inputT inputSizes saveAttn).result =
      .ok ((greedyTokens c.eval input inputT inputSizes c.maxDecoderOutputLen_ []
            (c.newState c.nAttnRound_)).takeWhile (fun p => decide (p ≠ c.eos_)),
          if saveAttn then concatenateRows av else []) := by
    simp only [viterbiPathBase, h2]
  refine ⟨h1, ⟨_, hres⟩, ?_⟩
  intro hhead
  refine ⟨if saveAttn then concatenateRows av else [], ?_⟩
  rw [hres]
  cases hg : greedyTokens c.eval input inputT inputSizes c.maxDecoderOutputLen_ []
        (c.newState c.nAttnRound_) with
  | nil => rfl
  | cons a l =>
    rw [hg] at hhead
    simp only [List.head?_cons, Option.some.injEq] at hhead
    rw [List.takeWhile_cons_of_neg]
    simp only [hhead, ne_eq, not_true_eq_false, decide_False, Bool.false_eq_true,
      not_false_eq_true]

/-- C1 (scenario). Vocabulary size 5, end token 4, `maxDecoderOutputLen_ = 3`, and a
first step whose argmax is the end token: the returned path is empty. -/
theorem viterbiPathBase_greedy_path_witness :
    ∃ alpha, (viterbiPathBase sampleEosFirst [] 1 [] false).result = .ok ([], alpha) :=
  (viterbiPathBase_greedy_path sampleEosFirst [] 1 [] false).2.2 (by decide)

/-- C2. For every input `viterbiPathBase` terminates with a result after at most
`maxDecoderOutputLen_` calls to `decodeStep`, and the returned path has at most
`maxDecoderOutputLen_` tokens. -/
theorem viterbiPathBase_bounded (c : Seq2SeqCriterion) (input : Slice) (inputT : Int)
    (inputSizes : Slice) (saveAttn : Bool) :
    ∃ path alphaVec calls alpha,
      viterbiRun c input inputT inputSizes saveAttn = .ok (path, alphaVec, calls) ∧
      (viterbiPathBase c input inputT inputSizes saveAttn).result = .ok (path, alpha) ∧
      calls ≤ c.maxDecoderOutputLen_ ∧ path.length ≤ c.maxDecoderOutputLen_ := by
  obtain ⟨-, av, k, h2, h3, h4⟩ := viterbiRun_spec c input inputT inputSizes saveAttn
  refine ⟨_, av, k, if saveAttn then concatenateRows av else [], h2, ?_, h3, le_trans h4 h3⟩
  simp only [viterbiPathBase, h2]

/-- C3. For every input, no token of the path returned by `viterbiPathBase` equals the
end-of-sequence id `eos_`. -/
theorem viterbiPathBase_no_eos (c : Seq2SeqCriterion) (input : Slice) (inputT : Int)
    (inputSizes : Slice) (saveAttn : Bool) :
    ∃ path alpha,
      (viterbiPathBase c input inputT inputSizes saveAttn).result = .ok (path, alpha) ∧
      ∀ tok ∈ path, tok ≠ c.eos_ := by
  obtain ⟨-, av, k, h2, -, -⟩ := viterbiRun_spec c input inputT inputSizes saveAttn
  refine ⟨(greedyTokens c.eval input inputT inputSizes c.maxDecoderOutputLen_ []
            (c.newState c.nAttnRound_)).takeWhile (fun p => decide (p ≠ c.eos_)),
    if saveAttn then concatenateRows av else [], ?_, ?_⟩
  · simp only [viterbiPathBase, h2]
  · intro tok htok
    have := List.mem_takeWhile_imp htok
    simpa using this

/-- C4 (amended). For an encoder output of batch size one, a lawful `std::partial_sort`,
a log-softmax and a score addition whose rounding keeps the order, a vocabulary that is
not the end token alone, and candidate scores (the running score of the greedy path added
to the log-softmax of the logits, as `beamSearch` computes them) that have a unique strict
maximum at every step the greedy decode executes: `beamSearch` started from the single
empty hypothesis with beam width 1 and `maxLen = maxDecoderOutputLen_` returns as its
first hypothesis the token path that `viterbiPathBase` returns, so `beamPath` with beam
size 1 equals `viterbiPath`. -/
theorem beamSearch_width_one_eq_viterbi (c : Seq2SeqCriterion) (be : Backend)
    (hbe : be.Lawful) (hM : be.Monotone) (input : Slice) (inputT : Int) (inputSizes : Slice)
    (hV : c.nClass_ = 1 → c.eos_ ≠ 0)
    (hU : ∀ col ∈ greedyScores c.eval be input inputT inputSizes c.maxDecoderOutputLen_ []
      (c.newState c.nAttnRound_) 0, UniqueMax col) :
    ∃ path hyps first,
      viterbiPath c input inputT inputSizes = .ok path ∧
      (viterbiPathBase c input inputT inputSizes false).result = .ok (path, []) ∧
      (beamSearch c be input inputT inputSizes [c.emptyHypo] 1 c.maxDecoderOutputLen_).result =
        .ok hyps ∧
      hyps[0]? = some first ∧ first.path = path ∧
      beamPath c be input inputT inputSizes 1 = .ok path := by
  obtain ⟨-, av, k, hv, -, -⟩ := viterbiRun_spec c input inputT inputSizes false
  obtain ⟨r, b, comp, first, hloop, hfirst, hpath⟩ :=
    beamLoop_width_one c.eval be hbe hM input inputT inputSizes hV c.maxDecoderOutputLen_
      c.emptyHypo 0 (by
        show c.nAttnRound_ ≤ (c.newState c.nAttnRound_).hidden.length
        rw [newState_hidden_length]) hU
  have hbs : (beamSearch c be input inputT inputSizes [c.emptyHypo] 1
      c.maxDecoderOutputLen_).result = .ok (if comp.isEmpty then b else comp) := by
    simp only [beamSearch, hloop]
  have hpath' : first.path = (greedyTokens c.eval input inputT inputSizes
      c.maxDecoderOutputLen_ [] (c.newState c.nAttnRound_)).takeWhile
        (fun p => decide (p ≠ c.eos_)) := by
    rw [hpath]; rfl
  refine ⟨_, _, first, ?_, ?_, hbs, hfirst, hpath', ?_⟩
  · simp only [viterbiPath, viterbiPathBase, hv]
  · simp only [viterbiPathBase, hv]
    rfl
  · simp only [beamPath, hbs, hfirst, hpath']

/-- C4 (witness). The equivalence on a concrete model whose greedy path is one token
followed by the end token. -/
theorem beamSearch_width_one_eq_viterbi_witness :
    ∃ path hyps first,
      viterbiPath sampleLateEos [] 1 [] = .ok path ∧
      (viterbiPathBase sampleLateEos [] 1 [] false).result = .ok (path, []) ∧
      (beamSearch sampleLateEos refBackend [] 1 [] [sampleLateEos.emptyHypo] 1
        sampleLateEos.maxDecoderOutputLen_).result = .ok hyps ∧
      hyps[0]? = some first ∧ first.path = path ∧
      beamPath sampleLateEos refBackend [] 1 [] 1 = .ok path :=
  beamSearch_width_one_eq_viterbi sampleLateEos refBackend refBackend_lawful
    refBackend_monotone [] 1 [] (by decide) (by decide)

/-- C4 (counterexample). Two models whose logits have a unique strict maximum at every
step.  On the model whose vocabulary is the end token alone the greedy decode returns the
empty path, but the search of width one reads the first hypothesis of an empty live beam
and returns nothing.  On the model whose first step ranks token 1 just above token 0,
with a log-softmax that rounds both to the log-probability 0 (a rounding that keeps the
order) and the partial sort of libstdc++, the greedy decode returns the path `[1]` and the
search of width one the path `[0]`. -/
theorem beamSearch_width_one_differs_from_greedy :
    ((∀ col ∈ greedyTrace sampleOnlyEos.eval [] 1 [] sampleOnlyEos.maxDecoderOutputLen_ []
        (sampleOnlyEos.newState sampleOnlyEos.nAttnRound_), UniqueMax col) ∧
      viterbiPath sampleOnlyEos [] 1 [] = .ok [] ∧
      (beamSearch sampleOnlyEos refBackend [] 1 [] [sampleOnlyEos.emptyHypo] 1
        sampleOnlyEos.maxDecoderOutputLen_).result = .error .outOfRange ∧
      beamPath sampleOnlyEos refBackend [] 1 [] 1 = .error .outOfRange) ∧
    (coarseBackend.Monotone ∧
      greedyTrace sampleNearTie.eval [] 1 [] sampleNearTie.maxDecoderOutputLen_ []
        (sampleNearTie.newState sampleNearTie.nAttnRound_) = [[0, 1, -9], [-9, -9, 0]] ∧
      UniqueMax [0, 1, -9] ∧ UniqueMax [-9, -9, 0] ∧
      logSoftmax coarseBackend [0, 1, -9] = [0, 0, -8] ∧
      stdPartialSort [0, 0, -8] 2 = [0, 1, 2] ∧
      viterbiPath sampleNearTie [] 1 [] = .ok [1] ∧
      beamPath sampleNearTie coarseBackend [] 1 [] 1 = .ok [0]) :=
  ⟨by decide, coarseBackend_monotone, by decide, by decide, by decide, by decide, by decide,
   by decide, by decide⟩

/-- C5 (amended). In `beamSearch` with beam width `W ≥ 1`, started from a beam of at
most `W` hypotheses: (a) inside a round entered with at most `W` completed hypotheses,
after every candidate examined (the candidate loop run on any list of positions, so on
every prefix of the round's positions), the new beam holds at most `W` hypotheses, while
the completed collection is only bounded by `2 * W`; (b) at the end of every round the
live beam and the completed collection hold at most `W` hypotheses each; (c) after any
number of rounds the search holds at most `W` live and at most `W` completed
hypotheses. -/
theorem beam_sizes_bounded (c : Seq2SeqCriterion) (be : Backend) (input : Slice)
    (inputT : Int) (inputSizes : Slice) (W : Nat) (hW : 1 ≤ W)
    (beam : List CandidateHypo) (hbeam : beam.length ≤ W) (maxLen : Nat)
    (state : Seq2SeqState) (scoreVec : List Int) (indices : List Nat)
    (complete : List CandidateHypo) (hcomplete : complete.length ≤ W) :
    (match selectLoop c.eos_ c.nClass_ W beam state scoreVec 0 indices complete [] with
      | .ok (c1, nb1) => nb1.length ≤ W ∧ c1.length ≤ 2 * W
      | .error _ => True) ∧
    (match beamRound c be input inputT inputSizes W beam complete with
      | .ok (b1, c1, _) => b1.length ≤ W ∧ c1.length ≤ W
      | .error _ => True) ∧
    (match (beamLoop c be input inputT inputSizes W maxLen beam [] 0).2 with
      | .ok (b1, c1) => b1.length ≤ W ∧ c1.length ≤ W
      | .error _ => True) := by
  refine ⟨?_, ?_, ?_⟩
  · cases h : selectLoop c.eos_ c.nClass_ W beam state scoreVec 0 indices complete [] with
    | error e => trivial
    | ok v =>
      obtain ⟨c1, nb1⟩ := v
      have := selectLoop_sizes c.eos_ c.nClass_ W beam state scoreVec indices 0 complete [] c1 nb1
        (by simpa using hW) h
      exact ⟨this.1, by have := this.2; omega⟩
  · cases h : beamRound c be input inputT inputSizes W beam complete with
    | error e => trivial
    | ok v =>
      obtain ⟨b1, c1, stop⟩ := v
      exact beamRound_sizes c be input inputT inputSizes W hW beam complete b1 c1 stop h
  · cases h : beamLoop c be input inputT inputSizes W maxLen beam [] 0 with
    | mk r res =>
      cases res with
      | error e => trivial
      | ok v =>
        obtain ⟨b1, c1⟩ := v
        exact beamLoop_sizes c be input inputT inputSizes W hW maxLen beam [] 0 r b1 c1 hbeam
          (by simp) h

/-- C5 (witness). The bounds on a concrete search of width 2. -/
theorem beam_sizes_bounded_witness :
    (match selectLoop sampleEosSecond.eval.eos_ sampleEosSecond.eval.nClass_ 2
        [sampleEosSecond.emptyHypo] (sampleEosSecond.newState 1) [0, -2, -1] 0 [0, 2, 1] [] [] with
      | .ok (c1, nb1) => nb1.length ≤ 2 ∧ c1.length ≤ 2 * 2
      | .error _ => True) ∧
    (match beamRound sampleEosSecond.eval refBackend [] 1 [] 2 [sampleEosSecond.emptyHypo] [] with
      | .ok (b1, c1, _) => b1.length ≤ 2 ∧ c1.length ≤ 2
      | .error _ => True) ∧
    (match (beamLoop sampleEosSecond.eval refBackend [] 1 [] 2 2 [sampleEosSecond.emptyHypo]
        [] 0).2 with
      | .ok (b1, c1) => b1.length ≤ 2 ∧ c1.length ≤ 2
      | .error _ => True) :=
  beam_sizes_bounded sampleEosSecond.eval refBackend [] 1 [] 2 (by decide)
    [sampleEosSecond.emptyHypo] (by decide) 2 (sampleEosSecond.newState 1) [0, -2, -1] [0, 2, 1]
    [] (by decide)

/-- C5 (counterexample). Width 2, started from the single empty hypothesis: in the
second round, after the first two candidates have been examined, the completed
collection holds three hypotheses. -/
theorem complete_exceeds_width_mid_round :
    ∃ (b1 c1 : List CandidateHypo) (state : Seq2SeqState) (scoreVec : List Int)
      (indices : List Nat) (cm nb : List CandidateHypo),
      [sampleEosSecond.emptyHypo].length ≤ 2 ∧
      beamLoop sampleEosSecond.eval refBackend [] 1 [] 2 1 [sampleEosSecond.emptyHypo] [] 0 =
        (1, .ok (b1, c1)) ∧
      expandBeam sampleEosSecond.eval refBackend [] 1 [] 2 b1 = .ok (state, scoreVec, indices) ∧
      selectLoop sampleEosSecond.eos_ sampleEosSecond.nClass_ 2 b1 state scoreVec 0
        (indices.take 2) c1 [] = .ok (cm, nb) ∧
      cm.length = 3 ∧ ¬ cm.length ≤ 2 :=
  ⟨_, _, _, _, _, _, _, by decide, rfl, rfl, rfl, rfl, by decide⟩

/-- C6 (failing input). Width 3 and `maxLen = 2`: the search returns two completed
hypotheses in the order they were completed, the first with score -9 and the second with
score -1; the list is not sorted by non-increasing score and `beamPath` returns the
path of the worse one. -/
theorem beamSearch_returns_unsorted_complete :
    (beamSearch sampleLateEos refBackend [] 1 [] [sampleLateEos.emptyHypo] 3 2).result =
      .ok [{ score := -9, path := [],
             state := { alpha := [[0]], hidden := [[[0]]], summary := [[0]], step := 1,
                        peakAttnPos := -1, isValid := false } },
           { score := -1, path := [0],
             state := { alpha := [[1]], hidden := [[[1]]], summary := [[0]], step := 2,
                        peakAttnPos := -1, isValid := false } }] ∧
    beamPath sampleLateEos refBackend [] 1 [] 3 = .ok [] := by
  decide

/-- C7 (amended). The candidate at position `j` of a round, with flat index `idx`,
hypothesis `hyp = beam[idx / nClass]` and class `idx % nClass`: if the class is the end
token, the hypothesis (end token not appended) is moved to the completed set exactly
when `j < beamSize`, and is dropped otherwise; if the class is not the end token, the
extended hypothesis is appended to the new live beam.  The loop examines the next
candidate only while the new beam holds fewer than `beamSize` hypotheses. -/
theorem selectStep_cases (eos : Int) (nClass W : Nat) (beam : List CandidateHypo)
    (state : Seq2SeqState) (scoreVec : List Int) (j idx : Nat) (rest : List Nat)
    (complete newBeam : List CandidateHypo) (hyp : CandidateHypo) (sc : Int)
    (hb : beam[idx / nClass]? = some hyp) (hs : scoreVec[idx]? = some sc) :
    selectStep eos nClass W beam state scoreVec j idx complete newBeam =
      .ok (if ((idx % nClass : Nat) : Int) = eos then
             (if j < W then
                (complete ++ [{ score := sc, path := hyp.path,
                                state := selectState state (idx / nClass) }], newBeam)
              else (complete, newBeam))
           else
             (complete, newBeam ++ [{ score := sc, path := hyp.path ++ [((idx % nClass : Nat) : Int)],
                                      state := selectState state (idx / nClass) }])) ∧
    selectLoop eos nClass W beam state scoreVec j (idx :: rest) complete newBeam =
      (match selectStep eos nClass W beam state scoreVec j idx complete newBeam with
        | .error e => .error e
        | .ok (c1, nb1) =>
          if nb1.length < W then selectLoop eos nClass W beam state scoreVec (j + 1) rest c1 nb1
          else .ok (c1, nb1)) := by
  constructor
  · exact selectStep_ok eos nClass W beam state scoreVec j idx complete newBeam hyp sc hb hs
  · simp only [selectLoop]
    cases selectStep eos nClass W beam state scoreVec j idx complete newBeam with
    | error e => rfl
    | ok v =>
      obtain ⟨c1, nb1⟩ := v
      simp only [ge_iff_le]
      by_cases h : nb1.length < W
      · simp [h, Nat.not_le.mpr h]
      · simp [h, Nat.not_lt.mp h]

/-- C7 (witness). The step on the end-token candidate of a first round of width 2. -/
theorem selectStep_cases_witness :
    selectStep 2 3 2 [sampleTwoEos.emptyHypo] (sampleTwoEos.newState 1) [0, -1, -5] 0 2 [] [] =
      .ok (if ((2 % 3 : Nat) : Int) = 2 then
             (if 0 < 2 then
                ([] ++ [{ score := -5, path := sampleTwoEos.emptyHypo.path,
                          state := selectState (sampleTwoEos.newState 1) (2 / 3) }], [])
              else ([], []))
           else
             ([], [] ++ [{ score := -5, path := sampleTwoEos.emptyHypo.path ++ [((2 % 3 : Nat) : Int)],
                           state := selectState (sampleTwoEos.newState 1) (2 / 3) }])) ∧
    selectLoop 2 3 2 [sampleTwoEos.emptyHypo] (sampleTwoEos.newState 1) [0, -1, -5] 0 (2 :: [1]) [] [] =
      (match selectStep 2 3 2 [sampleTwoEos.emptyHypo] (sampleTwoEos.newState 1) [0, -1, -5] 0 2
          [] [] with
        | .error e => .error e
        | .ok (c1, nb1) =>
          if nb1.length < 2 then
            selectLoop 2 3 2 [sampleTwoEos.emptyHypo] (sampleTwoEos.newState 1) [0, -1, -5] (0 + 1)
              [1] c1 nb1
          else .ok (c1, nb1)) :=
  selectStep_cases 2 3 2 [sampleTwoEos.emptyHypo] (sampleTwoEos.newState 1) [0, -1, -5] 0 2 [1]
    [] [] sampleTwoEos.emptyHypo (-5) (by decide) (by decide)

/-- C7 (counterexample). Width 2, second round of the search from the empty
hypothesis: after two candidates the new beam holds one hypothesis (it is not full) and
one completion has been accepted in this round (fewer than the width); the third
candidate carries the end token, and the step leaves it out of the completed set. -/
theorem eos_candidate_dropped_below_width :
    ∃ (b1 c1 : List CandidateHypo) (state : Seq2SeqState) (scoreVec : List Int)
      (indices : List Nat) (cm nb : List CandidateHypo) (idx : Nat),
      beamLoop sampleTwoEos.eval refBackend [] 1 [] 2 1 [sampleTwoEos.emptyHypo] [] 0 =
        (1, .ok (b1, c1)) ∧
      expandBeam sampleTwoEos.eval refBackend [] 1 [] 2 b1 = .ok (state, scoreVec, indices) ∧
      selectLoop sampleTwoEos.eos_ sampleTwoEos.nClass_ 2 b1 state scoreVec 0
        (indices.take 2) c1 [] = .ok (cm, nb) ∧
      indices[2]? = some idx ∧
      ((idx % sampleTwoEos.nClass_ : Nat) : Int) = sampleTwoEos.eos_ ∧
      nb.length < 2 ∧ cm.length - c1.length < 2 ∧
      selectStep sampleTwoEos.eos_ sampleTwoEos.nClass_ 2 b1 state scoreVec 2 idx cm nb =
        .ok (cm, nb) :=
  ⟨_, _, _, _, _, _, _, _, rfl, rfl, rfl, rfl, by decide, by decide, by decide, by decide⟩

/-- C9 (amended). For a non-empty list of states that share step and validity flag, each
carrying a single batch element, and all holding as many hidden tensors as the first:
`concatState` succeeds and `selectState` with index `i` gives back the `alpha`, `summary`,
every `hidden[r]`, the step and the validity flag of the `i`-th state. -/
theorem concat_select_roundtrip (sv : List Seq2SeqState) (s0 : Seq2SeqState)
    (hhead : sv.head? = some s0)
    (hstep : ∀ s ∈ sv, s.step = s0.step) (hvalid : ∀ s ∈ sv, s.isValid = s0.isValid)
    (hone : ∀ s ∈ sv, s.alpha.length = 1 ∧ s.summary.length = 1 ∧ ∀ h ∈ s.hidden, h.length = 1)
    (hrounds : ∀ s ∈ sv, s.hidden.length = s0.hidden.length) :
    ∃ cat, concatState sv = .ok cat ∧
      ∀ (i : Nat) (hi : i < sv.length),
        (selectState cat i).alpha = sv[i].alpha ∧
        (selectState cat i).summary = sv[i].summary ∧
        (selectState cat i).hidden = sv[i].hidden ∧
        (selectState cat i).step = sv[i].step ∧
        (selectState cat i).isValid = sv[i].isValid := by
  cases sv with
  | nil => simp at hhead
  | cons t rest =>
    simp only [List.head?_cons, Option.some.injEq] at hhead
    subst hhead
    obtain ⟨hv, hc, hl, hg⟩ := concatLoop_ok t.step t.isValid t.hidden.length (t :: rest)
      (fun s hs => ⟨hstep s hs, hvalid s hs, by rw [hrounds s hs]⟩)
    have hcs : concatState (t :: rest) = .ok
        { step := t.step, peakAttnPos := t.peakAttnPos, isValid := t.isValid,
          alpha := concatenate ((t :: rest).map (fun s => s.alpha)),
          hidden := hv.map concatenate,
          summary := concatenate ((t :: rest).map (fun s => s.summary)) } := by
      simp only [concatState, hc]
    refine ⟨_, hcs, ?_⟩
    intro i hi
    have hmem : (t :: rest)[i] ∈ t :: rest := List.getElem_mem hi
    obtain ⟨ha, hs, hh⟩ := hone _ hmem
    refine ⟨?_, ?_, ?_, (hstep _ hmem).symm, (hvalid _ hmem).symm⟩
    · simp only [selectState]
      rw [index_concatenate_singletons _ i (by simpa using hi)]
      · exact List.getElem_map _
      · intro v hv'
        simp only [List.mem_map] at hv'
        obtain ⟨s, hs', rfl⟩ := hv'
        exact (hone s hs').1
    · simp only [selectState]
      rw [index_concatenate_singletons _ i (by simpa using hi)]
      · exact List.getElem_map _
      · intro v hv'
        simp only [List.mem_map] at hv'
        obtain ⟨s, hs', rfl⟩ := hv'
        exact (hone s hs').2.1
    · simp only [selectState]
      apply List.ext_getElem
      · simp [hl, hrounds _ hmem]
      · intro r h1 h2
        have hr : r < t.hidden.length := by simpa [hl] using h1
        have hrv : r < hv.length := by omega
        have hgr := hg r hr
        simp only [List.getD_eq_getElem?_getD, List.getElem?_eq_getElem hrv,
          Option.getD_some] at hgr
        simp only [List.getElem_map, hgr]
        rw [index_concatenate_singletons _ i (by simpa using hi)]
        · rw [List.getElem_map]
          simp only [List.getD_eq_getElem?_getD, List.getElem?_eq_getElem h2, Option.getD_some]
        · intro v hv'
          simp only [List.mem_map] at hv'
          obtain ⟨s, hs', rfl⟩ := hv'
          have hrs : r < s.hidden.length := by rw [hrounds s hs']; exact hr
          simp only [List.getElem?_eq_getElem hrs, Option.getD_some]
          exact (hone s hs').2.2 _ (List.getElem_mem hrs)

/-- C9 (witness). The round trip on two concrete single-sequence states. -/
theorem concat_select_roundtrip_witness :
    ∃ cat, concatState [stateOneHidden, stateOneHiddenB] = .ok cat ∧
      ∀ (i : Nat) (hi : i < [stateOneHidden, stateOneHiddenB].length),
        (selectState cat i).alpha = [stateOneHidden, stateOneHiddenB][i].alpha ∧
        (selectState cat i).summary = [stateOneHidden, stateOneHiddenB][i].summary ∧
        (selectState cat i).hidden = [stateOneHidden, stateOneHiddenB][i].hidden ∧
        (selectState cat i).step = [stateOneHidden, stateOneHiddenB][i].step ∧
        (selectState cat i).isValid = [stateOneHidden, stateOneHiddenB][i].isValid :=
  concat_select_roundtrip [stateOneHidden, stateOneHiddenB] stateOneHidden rfl
    (by decide) (by decide) (by decide) (by decide)

/-- C9 (counterexample). Two states with the same step and validity flag, each carrying
a single batch element, the first without hidden tensors and the second with one:
`concatState` succeeds, but selecting index 1 does not give back the second state's
hidden tensor. -/
theorem concat_select_loses_hidden :
    (∀ s ∈ [stateNoHidden, stateOneHidden],
        s.step = stateNoHidden.step ∧ s.isValid = stateNoHidden.isValid ∧
        s.alpha.length = 1 ∧ s.summary.length = 1 ∧ ∀ h ∈ s.hidden, h.length = 1) ∧
    ¬ ∃ cat, concatState [stateNoHidden, stateOneHidden] = .ok cat ∧
        ∀ (i : Nat) (hi : i < [stateNoHidden, stateOneHidden].length),
          (selectState cat i).alpha = [stateNoHidden, stateOneHidden][i].alpha ∧
          (selectState cat i).summary = [stateNoHidden, stateOneHidden][i].summary ∧
          (selectState cat i).hidden = [stateNoHidden, stateOneHidden][i].hidden ∧
          (selectState cat i).step = [stateNoHidden, stateOneHidden][i].step ∧
          (selectState cat i).isValid = [stateNoHidden, stateOneHidden][i].isValid := by
  refine ⟨by decide, ?_⟩
  rintro ⟨cat, hc, h⟩
  have hcat : concatState [stateNoHidden, stateOneHidden] =
      .ok { alpha := [[1, 2], [5, 6]], hidden := [], summary := [[3], [8]], step := 4,
            peakAttnPos := 0, isValid := true } := by decide
  rw [hcat] at hc
  cases hc
  have := (h 1 (by decide)).2.2.1
  revert this
  decide

/-- C10. `concatState` raises only one of its three runtime errors, and only when the
state list is empty, or some state's step differs from the first state's step, or some
state's validity flag differs from the first state's; in each of these cases it does not
return; and when it succeeds, the step and validity flag of the result are those of
every state.  So on every call that reads no `state.hidden[i]` outside its vector it
raises if and only if one of the three cases holds; this covers every state list in which
each state holds at least as many hidden tensors as the first one. -/
theorem concatState_fails_iff (sv : List Seq2SeqState) :
    (∀ e, concatState sv = .error e → e ≠ Err.outOfRange →
      (e = Err.emptyStateVec ∨ e = Err.stepUnmatched ∨ e = Err.isValidUnmatched) ∧
      (sv = [] ∨ ∃ s0, sv.head? = some s0 ∧ ∃ s ∈ sv,
        s.step ≠ s0.step ∨ s.isValid ≠ s0.isValid)) ∧
    ((sv = [] ∨ ∃ s0, sv.head? = some s0 ∧ ∃ s ∈ sv,
        s.step ≠ s0.step ∨ s.isValid ≠ s0.isValid) →
      ∃ e, concatState sv = .error e) ∧
    (∀ r, concatState sv = .ok r → ∀ s ∈ sv, r.step = s.step ∧ r.isValid = s.isValid) ∧
    (concatState sv ≠ .error Err.outOfRange →
      ((∃ e, concatState sv = .error e) ↔
        (sv = [] ∨ ∃ s0, sv.head? = some s0 ∧ ∃ s ∈ sv,
          s.step ≠ s0.step ∨ s.isValid ≠ s0.isValid))) ∧
    ((∀ s0, sv.head? = some s0 → ∀ s ∈ sv, s0.hidden.length ≤ s.hidden.length) →
      concatState sv ≠ .error Err.outOfRange) := by
  have hA : ∀ e, concatState sv = .error e → e ≠ Err.outOfRange →
      (e = Err.emptyStateVec ∨ e = Err.stepUnmatched ∨ e = Err.isValidUnmatched) ∧
      (sv = [] ∨ ∃ s0, sv.head? = some s0 ∧ ∃ s ∈ sv,
        s.step ≠ s0.step ∨ s.isValid ≠ s0.isValid) := by
    intro e he hne
    cases sv with
    | nil =>
      simp only [concatState] at he
      injection he with he
      exact ⟨Or.inl he.symm, Or.inl rfl⟩
    | cons s0 rest =>
      cases hc : concatLoop s0.step s0.isValid s0.hidden.length (s0 :: rest) with
      | error e1 =>
        simp only [concatState, hc] at he
        injection he with he
        subst he
        rcases concatLoop_error_cause s0.step s0.isValid s0.hidden.length (s0 :: rest) e1 hc with
          ⟨h1, s, hs, hbad⟩ | ⟨h1, s, hs, hbad⟩ | ⟨h1, -⟩
        · exact ⟨Or.inr (Or.inl h1), Or.inr ⟨s0, rfl, s, hs, Or.inl hbad⟩⟩
        · exact ⟨Or.inr (Or.inr h1), Or.inr ⟨s0, rfl, s, hs, Or.inr hbad⟩⟩
        · exact absurd h1 hne
      | ok v =>
        simp only [concatState, hc] at he
        cases he
  have hB : (sv = [] ∨ ∃ s0, sv.head? = some s0 ∧ ∃ s ∈ sv,
        s.step ≠ s0.step ∨ s.isValid ≠ s0.isValid) →
      ∃ e, concatState sv = .error e := by
    intro h
    cases sv with
    | nil => exact ⟨Err.emptyStateVec, rfl⟩
    | cons s0 rest =>
      rcases h with h | ⟨t0, ht0, s, hs, hex⟩
      · cases h
      · simp only [List.head?_cons, Option.some.injEq] at ht0
        subst ht0
        obtain ⟨e, he⟩ := (concatLoop_error_iff s0.step s0.isValid s0.hidden.length
          (s0 :: rest)).mpr ⟨s, hs, by
            rcases hex with h | h
            · exact Or.inl h
            · exact Or.inr (Or.inl h)⟩
        exact ⟨e, by simp only [concatState, he]⟩
  refine ⟨hA, hB, ?_, ?_, ?_⟩
  · intro r hr s hs
    cases sv with
    | nil => simp at hs
    | cons s0 rest =>
      cases hc : concatLoop s0.step s0.isValid s0.hidden.length (s0 :: rest) with
      | error e =>
        simp only [concatState, hc] at hr
        cases hr
      | ok v =>
        obtain ⟨a, hv, sm⟩ := v
        simp only [concatState, hc, Except.ok.injEq] at hr
        subst hr
        by_contra hne
        obtain ⟨e, he⟩ := (concatLoop_error_iff s0.step s0.isValid s0.hidden.length
          (s0 :: rest)).mpr ⟨s, hs, by
            by_cases h1 : s.step = s0.step
            · right; left
              intro h2
              exact hne ⟨h1.symm, h2.symm⟩
            · exact Or.inl h1⟩
        rw [hc] at he
        cases he
  · intro hno
    constructor
    · rintro ⟨e, he⟩
      exact (hA e he (fun h => hno (by rw [he, h]))).2
    · exact hB
  · intro hread h
    cases sv with
    | nil => simp [concatState] at h
    | cons s0 rest =>
      cases hc : concatLoop s0.step s0.isValid s0.hidden.length (s0 :: rest) with
      | error e =>
        simp only [concatState, hc] at h
        injection h with h
        subst h
        rcases concatLoop_error_cause s0.step s0.isValid s0.hidden.length (s0 :: rest) _ hc with
          ⟨h1, -⟩ | ⟨h1, -⟩ | ⟨-, s, hs, hbad⟩
        · cases h1
        · cases h1
        · exact absurd (hread s0 rfl s hs) (by omega)
      | ok v =>
        simp only [concatState, hc] at h
        cases h

/-- C10 (scenarios). Two states that share step and validity flag are concatenated, and
the result carries their step and flag; a second state at another step makes
`concatState` raise "step unmatched". -/
theorem concatState_fails_iff_witness :
    (∀ r, concatState [stateOneHidden, stateOneHiddenB] = .ok r →
      ∀ s ∈ [stateOneHidden, stateOneHiddenB], r.step = s.step ∧ r.isValid = s.isValid) ∧
    ((∃ e, concatState [stateOneHidden, { stateOneHiddenB with step := 5 }] = .error e) ↔
      ([stateOneHidden, { stateOneHiddenB with step := 5 }] = [] ∨
        ∃ s0, [stateOneHidden, { stateOneHiddenB with step := 5 }].head? = some s0 ∧
          ∃ s ∈ [stateOneHidden, { stateOneHiddenB with step := 5 }],
            s.step ≠ s0.step ∨ s.isValid ≠ s0.isValid)) ∧
    concatState [stateOneHidden, { stateOneHiddenB with step := 5 }] =
      .error Err.stepUnmatched :=
  ⟨(concatState_fails_iff [stateOneHidden, stateOneHiddenB]).2.2.1,
   (concatState_fails_iff [stateOneHidden, { stateOneHiddenB with step := 5 }]).2.2.2.1
      (by decide),
   by decide⟩

/-- C11. For every bound `n` (an integer or the sentinel), the one-argument `range(n)` is
`range(0, n)` and `range(0, n, 1)`: the same members, equal under `operator==`, with
start 0 and stride 1. -/
theorem range_ofEnd_defaults (n : Idx) :
    range.ofEnd n = range.ofStartEnd (Idx.int 0) n ∧
    range.ofEnd n = range.ofStartEndStride (Idx.int 0) n 1 ∧
    (range.ofEnd n).opEq (range.ofStartEnd (Idx.int 0) n) = true ∧
    (range.ofEnd n).opEq (range.ofStartEndStride (Idx.int 0) n 1) = true ∧
    (range.ofEnd n).start = 0 ∧ (range.ofEnd n).stride = 1 := by
  refine ⟨rfl, rfl, ?_, ?_, rfl, rfl⟩ <;>
    simp [range.opEq, range.ofEnd, range.ofStartEnd, range.start, range.end', range.stride]

/-- C11 (scenario). `range(5) == range(0, 5)`. -/
theorem range_ofEnd_defaults_witness :
    (range.ofEnd (Idx.int 5)).opEq (range.ofStartEnd (Idx.int 0) (Idx.int 5)) = true :=
  (range_ofEnd_defaults (Idx.int 5)).2.2.1

/-- C12. `range(0, end)` has `end()` equal to the sentinel's value and compares equal to
`fl::span`; an `Index` built from it reports `isSpan() = true`, an `Index` built from a
literal integer or from a tensor reports `isSpan() = false`. -/
theorem range_zero_end_isSpan (i : Int) (tensor : List Int) :
    (range.ofStartEnd (Idx.int 0) Idx.end_).end' = endSentinel ∧
    (range.ofStartEnd (Idx.int 0) Idx.end_).opEq span = true ∧
    (Index.ofRange (range.ofStartEnd (Idx.int 0) Idx.end_)).isSpan = true ∧
    (Index.ofInt i).isSpan = false ∧
    (Index.ofTensor tensor).isSpan = false := by
  refine ⟨rfl, by decide, by decide, rfl, rfl⟩

/-- C13 (amended). For all `int` values `s`, `e` and `k` with `e` above the smallest
`int`, `range(s, e, k)` has `start() = s`, `end() = e - 1` and `stride() = k`; and for all
`int` values `s` and `k`, `range(s, end, k)` has `start() = s`, `stride() = k` and `end()`
equal to the sentinel's value, nothing subtracted. -/
theorem range_accessors (s e k : CInt) (he : INT_MIN < e.val) :
    (range.ofStartEndStride (Idx.int s) (Idx.int e) k).start = s.val ∧
    (range.ofStartEndStride (Idx.int s) (Idx.int e) k).end' = e.val - 1 ∧
    (range.ofStartEndStride (Idx.int s) (Idx.int e) k).stride = k.val ∧
    (range.ofStartEndStride (Idx.int s) Idx.end_ k).start = s.val ∧
    (range.ofStartEndStride (Idx.int s) Idx.end_ k).end' = endSentinel ∧
    (range.ofStartEndStride (Idx.int s) Idx.end_ k).stride = k.val := by
  refine ⟨rfl, ?_, rfl, rfl, rfl, rfl⟩
  have h2 := e.property.2
  show (e.val - 1 - INT_MIN) % 4294967296 + INT_MIN = e.val - 1
  unfold INT_MIN INT_MAX at *
  omega

/-- C13 (scenario). `range(2, 7, 2)` has start 2, end 6 and stride 2. -/
theorem range_accessors_witness :
    (range.ofStartEndStride (Idx.int 2) (Idx.int 7) 2).start = 2 ∧
    (range.ofStartEndStride (Idx.int 2) (Idx.int 7) 2).end' = 6 ∧
    (range.ofStartEndStride (Idx.int 2) (Idx.int 7) 2).stride = 2 :=
  ⟨(range_accessors 2 7 2 (by decide)).1, (range_accessors 2 7 2 (by decide)).2.1,
   (range_accessors 2 7 2 (by decide)).2.2.1⟩

/-- C13 (counterexample). With the smallest `int` as end, the subtraction overflows:
`range(0, INT_MIN, 1)` has `end() = 2147483647`, which is not `INT_MIN - 1`. -/
theorem range_end_overflows_at_int_min :
    (wrapInt INT_MIN).val = -2147483648 ∧
    (range.ofStartEndStride (Idx.int 0) (Idx.int (wrapInt INT_MIN)) 1).end' = 2147483647 ∧
    (range.ofStartEndStride (Idx.int 0) (Idx.int (wrapInt INT_MIN)) 1).end' ≠
      (wrapInt INT_MIN).val - 1 := by
  decide

/-- C14 (amended). Two ranges compare equal exactly when their `start()`, `end()` and
`stride()` agree, and `operator!=` is the negation of `operator==`.  In terms of the
constructor arguments: with integer starts, `range(s1, e1, k1) == range(s2, e2, k2)`
holds for two integer ends iff `s1 = s2`, `e1 = e2` and `k1 = k2`; for two sentinel ends
iff `s1 = s2` and `k1 = k2`; and for an integer end `e1` against the sentinel iff
`s1 = s2`, `k1 = k2` and `e1 = 0`. -/
theorem range_opEq_cases (r other : range) (s1 s2 e1 e2 k1 k2 : CInt) :
    (r.opEq other = true ↔
      r.start = other.start ∧ r.end' = other.end' ∧ r.stride = other.stride) ∧
    r.opNe other = !(r.opEq other) ∧
    ((range.ofStartEndStride (Idx.int s1) (Idx.int e1) k1).opEq
        (range.ofStartEndStride (Idx.int s2) (Idx.int e2) k2) = true ↔
      s1 = s2 ∧ e1 = e2 ∧ k1 = k2) ∧
    ((range.ofStartEndStride (Idx.int s1) Idx.end_ k1).opEq
        (range.ofStartEndStride (Idx.int s2) Idx.end_ k2) = true ↔
      s1 = s2 ∧ k1 = k2) ∧
    ((range.ofStartEndStride (Idx.int s1) (Idx.int e1) k1).opEq
        (range.ofStartEndStride (Idx.int s2) Idx.end_ k2) = true ↔
      s1 = s2 ∧ e1 = 0 ∧ k1 = k2) := by
  have hw : ∀ e : CInt, (wrapInt (e.val - 1)).val =
      (e.val - 1 - INT_MIN) % 4294967296 + INT_MIN := fun _ => rfl
  have h11 := e1.property.1
  have h12 := e1.property.2
  have h21 := e2.property.1
  have h22 := e2.property.2
  refine ⟨range_opEq_iff r other, rfl, ?_, ?_, ?_⟩
  · rw [range_opEq_iff]
    simp only [range.ofStartEndStride, range.start, range.end', range.stride, hw]
    constructor
    · rintro ⟨h1, h2, h3⟩
      refine ⟨Subtype.ext h1, Subtype.ext ?_, Subtype.ext h3⟩
      unfold INT_MIN INT_MAX at *
      omega
    · rintro ⟨h1, h2, h3⟩
      subst h1 h2 h3
      exact ⟨rfl, rfl, rfl⟩
  · rw [range_opEq_iff]
    simp only [range.ofStartEndStride, range.start, range.end', range.stride]
    constructor
    · rintro ⟨h1, -, h3⟩
      exact ⟨Subtype.ext h1, Subtype.ext h3⟩
    · rintro ⟨h1, h3⟩
      subst h1 h3
      exact ⟨rfl, trivial, rfl⟩
  · rw [range_opEq_iff]
    simp only [range.ofStartEndStride, range.start, range.end', range.stride, endSentinel, hw]
    constructor
    · rintro ⟨h1, h2, h3⟩
      refine ⟨Subtype.ext h1, Subtype.ext ?_, Subtype.ext h3⟩
      show e1.val = 0
      unfold INT_MIN INT_MAX at *
      omega
    · rintro ⟨h1, h2, h3⟩
      subst h1 h2 h3
      exact ⟨rfl, by decide, rfl⟩

/-- C14 (counterexample). `range(0, 0, 1)` and `range(0, end, 1)` compare equal although
one was built with the integer end 0 and the other with the sentinel. -/
theorem range_opEq_zero_end_sentinel :
    (range.ofStartEndStride (Idx.int 0) (Idx.int 0) 1).opEq
      (range.ofStartEndStride (Idx.int 0) Idx.end_ 1) = true ∧
    Idx.int 0 ≠ Idx.end_ ∧
    ¬ ((range.ofStartEndStride (Idx.int 0) (Idx.int 0) 1).opEq
        (range.ofStartEndStride (Idx.int 0) Idx.end_ 1) = true ↔
      (Idx.int 0 = Idx.int 0 ∧ Idx.int 0 = Idx.end_ ∧ (1 : Int) = 1)) := by
  decide

/-- C15 (amended). `forward` raises its input-count error exactly when the number of
inputs is below 2 or above 4, whatever the criterion, the random draws and the decoder
path are, so no decoder has run.  The only other invalid-argument error of `forward`
comes from the sequential decoder in training mode, on a sampling strategy that is none
of the known ones. -/
theorem forward_invalid_inputs_size (m : Seq2SeqModel) (be : Backend) (rng : RandomDraws)
    (useSeq : Bool) (inputs : List Variable) :
    (forwardWith m be rng useSeq inputs = .error ForwardErr.invalidInputsSize ↔
      (inputs.length < 2 ∨ inputs.length > 4)) ∧
    (forward m be rng inputs = .error ForwardErr.invalidInputsSize ↔
      (inputs.length < 2 ∨ inputs.length > 4)) ∧
    (∀ e, forwardWith m be rng useSeq inputs = .error e → e.isInvalidArgument = true →
      e ≠ ForwardErr.invalidInputsSize →
      e = ForwardErr.invalidSamplingStrategy ∧ (inputs.length = 3 ∨ inputs.length = 4) ∧
        useSeq = true ∧ m.train_ = true ∧ m.samplingStrategy_ = SamplingStrategy.other) := by
  have key : ∀ flag, (forwardWith m be rng flag inputs = .error ForwardErr.invalidInputsSize ↔
      (inputs.length < 2 ∨ inputs.length > 4)) := by
    intro flag
    constructor
    · intro h
      rcases forwardWith_error_cases m be rng flag inputs _ h with h1 | h1 | ⟨-, h1 | h1⟩
      · exact h1.2
      · exact absurd h1.1 (by decide)
      · exact absurd h1.1 (by decide)
      · exact absurd h1.1 (by decide)
    · intro h
      simp only [forwardWith, h, if_true]
  refine ⟨key useSeq, key _, ?_⟩
  intro e h hia hne
  rcases forwardWith_error_cases m be rng useSeq inputs _ h with h1 | h1 | ⟨hl, h1 | h1⟩
  · exact absurd h1.1 hne
  · rw [h1.1] at hia; exact absurd hia (by decide)
  · exact ⟨h1.1, hl, h1.2⟩
  · rw [h1.1] at hia; exact absurd hia (by decide)

/-- Witness for C15 (amended): a single input is refused with the input-count error,
and three inputs are not. -/
theorem forward_invalid_inputs_size_witness :
    forward (sampleModel (sampleConfig SamplingStrategy.rand 100 false true)) refBackend
        (constDraws 0) [[[7]]] = .error ForwardErr.invalidInputsSize ∧
    forward (sampleModel (sampleConfig SamplingStrategy.rand 100 false true)) refBackend
        (constDraws 0) [[[7]], [[0, 1]], [[1]]] ≠ .error ForwardErr.invalidInputsSize :=
  ⟨(forward_invalid_inputs_size _ refBackend (constDraws 0) false [[[7]]]).2.1.2 (by decide),
   fun h => absurd ((forward_invalid_inputs_size _ refBackend (constDraws 0) false
      [[[7]], [[0, 1]], [[1]]]).2.1.1 h) (by decide)⟩

/-- C15 (counterexample). With three inputs, a training-mode criterion on the
sequential path whose sampling strategy is none of the known ones raises an
invalid-argument error as soon as a draw asks for sampling. -/
theorem forward_invalid_argument_with_three_inputs :
    setUseSequentialDecoder (sampleModel (sampleConfig SamplingStrategy.other 50 true true)) =
      true ∧
    forward (sampleModel (sampleConfig SamplingStrategy.other 50 true true)) refBackend
        (constDraws 80) [[[7]], [[0, 1]], [[1]]] = .error ForwardErr.invalidSamplingStrategy ∧
    ForwardErr.invalidSamplingStrategy.isInvalidArgument = true ∧
    ¬ (([[[7]], [[0, 1]], [[1]]] : List Variable).length < 2 ∨
       ([[[7]], [[0, 1]], [[1]]] : List Variable).length > 4) := by
  decide

/-- C16 (evaluation). With two inputs `forward` reads position 3 of the list, which
does not exist; with three inputs it takes `inputSizes` from position 2 and leaves
`targetSizes` empty, and with four inputs it takes them from positions 2 and 3. -/
theorem forward_two_inputs_reads_out_of_range (m : Seq2SeqModel) (be : Backend)
    (rng : RandomDraws) (useSeq : Bool) (input target sizes tsizes : Variable) :
    readSizes [input, target] = .error ForwardErr.outOfRange ∧
    forwardWith m be rng useSeq [input, target] = .error ForwardErr.outOfRange ∧
    forward m be rng [input, target] = .error ForwardErr.outOfRange ∧
    readSizes [input, target, sizes] = .ok (sizes.flatten, []) ∧
    readSizes [input, target, sizes, tsizes] = .ok (sizes.flatten, tsizes.flatten) := by
  refine ⟨by simp [readSizes], by simp [forwardWith, readSizes],
    by simp [forward, forwardWith, readSizes], by simp [readSizes], by simp [readSizes]⟩

/-- C17. With a label-smoothing weight of 0, in training and in evaluation mode, the
losses `forward` returns are the token cross-entropy of the returned `out` against the
target, and `out` is the log-softmax of the decoder logits: no smoothing term and no
mask is applied. -/
theorem forward_zero_smoothing_loss (m : Seq2SeqModel) (be : Backend) (rng : RandomDraws)
    (useSeq : Bool) (inputs : List Variable) (h : m.labelSmooth_ = 0) :
    (∀ target out, lossOf m target out = (m.crossEntropy out target m.pad_, out)) ∧
    (∀ input target inputSizes targetSizes,
      forwardLoss m be rng useSeq input target inputSizes targetSizes =
        (decodeOut m be rng useSeq input target inputSizes targetSizes).map
          (fun out => (m.crossEntropy out target m.pad_, out))) ∧
    (∀ losses out, forwardWith m be rng useSeq inputs = .ok (losses, out) →
      losses = m.crossEntropy out (inputs.getD 1 []) m.pad_) := by
  have hl : ∀ target out, lossOf m target out = (m.crossEntropy out target m.pad_, out) := by
    intro target out
    simp [lossOf, h]
  have hf : ∀ input target inputSizes targetSizes,
      forwardLoss m be rng useSeq input target inputSizes targetSizes =
        (decodeOut m be rng useSeq input target inputSizes targetSizes).map
          (fun out => (m.crossEntropy out target m.pad_, out)) := by
    intro input target inputSizes targetSizes
    unfold forwardLoss
    cases hd : decodeOut m be rng useSeq input target inputSizes targetSizes with
    | error e => rfl
    | ok out => simp only [hl, Except.map]
  refine ⟨hl, hf, ?_⟩
  intro losses out hrun
  have hgen : ∀ input target inputSizes targetSizes,
      forwardLoss m be rng useSeq input target inputSizes targetSizes = .ok (losses, out) →
      losses = m.crossEntropy out target m.pad_ := by
    intro input target inputSizes targetSizes h1
    rw [hf] at h1
    cases hd : decodeOut m be rng useSeq input target inputSizes targetSizes with
    | error e => rw [hd] at h1; cases h1
    | ok o =>
      rw [hd] at h1
      simp only [Except.map, Except.ok.injEq, Prod.mk.injEq] at h1
      rw [← h1.1, h1.2]
  rcases inputs with _ | ⟨a, _ | ⟨b, _ | ⟨c, _ | ⟨d, _ | ⟨x, r⟩⟩⟩⟩⟩
  · simp [forwardWith] at hrun
  · simp [forwardWith] at hrun
  · simp [forwardWith, readSizes] at hrun
  · simp only [forwardWith, readSizes, List.length_cons, List.length_nil] at hrun
    simp at hrun
    simpa using hgen _ _ _ _ hrun
  · simp only [forwardWith, readSizes, List.length_cons, List.length_nil] at hrun
    simp at hrun
    simpa using hgen _ _ _ _ hrun
  · simp [forwardWith] at hrun

/-- Witness for C17: a training-mode run with label-smoothing weight 0 on a target of
two tokens returns the loss 6, the token cross-entropy of the returned `out`. -/
theorem forward_zero_smoothing_loss_witness :
    (sampleModel (sampleConfig SamplingStrategy.rand 50 false true)).labelSmooth_ = 0 ∧
    forwardWith (sampleModel (sampleConfig SamplingStrategy.rand 50 false true)) refBackend
        (constDraws 80) false [[[7]], [[0, 1]], [[1]]] =
      .ok ([6], [[[0, -2, -9]], [[-5, -6, -1]]]) ∧
    ([6] : List ℚ) = tokenCrossEntropy [[[0, -2, -9]], [[-5, -6, -1]]] [[0, 1]] (-1) :=
  have hrun : forwardWith (sampleModel (sampleConfig SamplingStrategy.rand 50 false true))
      refBackend (constDraws 80) false [[[7]], [[0, 1]], [[1]]] =
      .ok ([6], [[[0, -2, -9]], [[-5, -6, -1]]]) := by decide
  ⟨rfl, hrun,
   (forward_zero_smoothing_loss (sampleModel (sampleConfig SamplingStrategy.rand 50 false true))
      refBackend (constDraws 80) false [[[7]], [[0, 1]], [[1]]] rfl).2.2 _ _ hrun⟩

/-- C18 (amended). For a configuration with model sampling and a teacher-forcing
percentage below 100, `setUseSequentialDecoder` selects the sequential decoder, and
`forward` never fails with the model-sampling error of the vectorized decoder. -/
theorem model_sampling_below_full_forcing_is_sequential (m : Seq2SeqModel)
    (hs : m.samplingStrategy_ = SamplingStrategy.model) (hp : m.pctTeacherForcing_ < 100) :
    setUseSequentialDecoder m = true ∧
    ∀ (be : Backend) (rng : RandomDraws) (inputs : List Variable),
      forward m be rng inputs ≠ .error ForwardErr.modelSamplingUnsupported := by
  have hseq : setUseSequentialDecoder m = true := by
    simp [setUseSequentialDecoder, hs, hp]
  refine ⟨hseq, ?_⟩
  intro be rng inputs h
  rw [forward, hseq] at h
  rcases forwardWith_error_cases m be rng true inputs _ h with h1 | h1 | ⟨-, h1 | h1⟩
  · exact absurd h1.1 (by decide)
  · exact absurd h1.1 (by decide)
  · exact absurd h1.1 (by decide)
  · exact absurd h1.2.1 (by decide)

/-- Witness for C18 (amended): model sampling with 50 percent teacher forcing runs on
the sequential decoder. -/
theorem model_sampling_below_full_forcing_is_sequential_witness :
    setUseSequentialDecoder (sampleModel (sampleConfig SamplingStrategy.model 50 false true)) =
      true ∧
    forward (sampleModel (sampleConfig SamplingStrategy.model 50 false true)) refBackend
        (constDraws 80) [[[7]], [[0, 1]], [[1]]] ≠ .error ForwardErr.modelSamplingUnsupported :=
  ⟨(model_sampling_below_full_forcing_is_sequential
      (sampleModel (sampleConfig SamplingStrategy.model 50 false true)) rfl (by decide)).1,
   (model_sampling_below_full_forcing_is_sequential
      (sampleModel (sampleConfig SamplingStrategy.model 50 false true)) rfl (by decide)).2
      refBackend (constDraws 80) [[[7]], [[0, 1]], [[1]]]⟩

/-- C18 (counterexample). With model sampling and a teacher-forcing percentage of 100
(content attention, no input feeding, no window), `setUseSequentialDecoder` selects the
vectorized decoder and a training-mode `forward` on a target of two tokens fails with
the model-sampling error. -/
theorem model_sampling_full_forcing_is_vectorized :
    (sampleModel (sampleConfig SamplingStrategy.model 100 false true)).samplingStrategy_ =
      SamplingStrategy.model ∧
    (sampleModel (sampleConfig SamplingStrategy.model 100 false true)).train_ = true ∧
    setUseSequentialDecoder (sampleModel (sampleConfig SamplingStrategy.model 100 false true)) =
      false ∧
    forward (sampleModel (sampleConfig SamplingStrategy.model 100 false true)) refBackend
        (constDraws 20) [[[7]], [[0, 1]], [[1]]] = .error ForwardErr.modelSamplingUnsupported := by
  decide

/-- C19 (amended). In training mode with model sampling, the vectorized decoder fails
with the logic error exactly on the targets of at least two tokens.  On such a target it
fails in its first part, whatever the recurrent cells, the attention modules and the
window are: none of them has run.  On a target of at most one token it does not fail: it
goes on to its rounds and returns. -/
theorem vectorizedDecoder_model_sampling_fails (m : Seq2SeqModel) (rng : RandomDraws)
    (input target : Variable) (inputSizes targetSizes : Slice)
    (ht : m.train_ = true) (hs : m.samplingStrategy_ = SamplingStrategy.model) :
    (vectorizedDecoder m rng input target inputSizes targetSizes =
        .error ForwardErr.modelSamplingUnsupported ↔ 2 ≤ dims0 target) ∧
    (2 ≤ dims0 target →
      vectorizedInput m rng target = .error ForwardErr.modelSamplingUnsupported ∧
      ∀ rnn att win,
        vectorizedDecoder
          { m with rnnSeq := rnn, attentionSeq := att, computeVectorizedWindow := win }
          rng input target inputSizes targetSizes = .error ForwardErr.modelSamplingUnsupported) ∧
    (dims0 target ≤ 1 →
      ∃ r, vectorizedDecoder m rng input target inputSizes targetSizes = .ok r) := by
  have key : ∀ m1 : Seq2SeqModel, m1.train_ = true →
      m1.samplingStrategy_ = SamplingStrategy.model → 2 ≤ dims0 target →
      vectorizedInput m1 rng target = .error ForwardErr.modelSamplingUnsupported := by
    intro m1 h1 h2 hU
    exact (vectorizedInput_error_iff m1 rng target _).2 ⟨rfl, h1, h2, by omega⟩
  refine ⟨⟨?_, ?_⟩, ?_, ?_⟩
  · intro h
    have h1 := (vectorizedDecoder_error_iff m rng input target inputSizes targetSizes _).1 h
    have h2 := ((vectorizedInput_error_iff m rng target _).1 h1).2.2.2
    omega
  · intro hU
    exact (vectorizedDecoder_error_iff m rng input target inputSizes targetSizes _).2
      (key m ht hs hU)
  · intro hU
    refine ⟨key m ht hs hU, ?_⟩
    intro rnn att win
    exact (vectorizedDecoder_error_iff _ rng input target inputSizes targetSizes _).2
      (key _ ht hs hU)
  · intro hU
    cases hres : vectorizedDecoder m rng input target inputSizes targetSizes with
    | ok r => exact ⟨r, rfl⟩
    | error e =>
      have h1 := (vectorizedDecoder_error_iff m rng input target inputSizes targetSizes e).1 hres
      have h2 := ((vectorizedInput_error_iff m rng target e).1 h1).2.2.2
      omega

/-- Witness for C19 (amended): the failure on a target of two tokens. -/
theorem vectorizedDecoder_model_sampling_fails_witness :
    (sampleModel (sampleConfig SamplingStrategy.model 50 false true)).train_ = true ∧
    2 ≤ dims0 [[0, 1]] ∧
    vectorizedDecoder (sampleModel (sampleConfig SamplingStrategy.model 50 false true))
        (constDraws 80) [[7]] [[0, 1]] [] [] = .error ForwardErr.modelSamplingUnsupported :=
  ⟨rfl, by decide,
   (vectorizedDecoder_model_sampling_fails
      (sampleModel (sampleConfig SamplingStrategy.model 50 false true)) (constDraws 80) [[7]]
      [[0, 1]] [] [] rfl rfl).1.2 (by decide)⟩

/-- C19 (counterexample). In training mode with model sampling, the vectorized decoder
returns on a target of one token. -/
theorem vectorizedDecoder_single_token_returns :
    (sampleModel (sampleConfig SamplingStrategy.model 50 false true)).train_ = true ∧
    (sampleModel (sampleConfig SamplingStrategy.model 50 false true)).samplingStrategy_ =
      SamplingStrategy.model ∧
    dims0 [[0]] = 1 ∧
    vectorizedDecoder (sampleModel (sampleConfig SamplingStrategy.model 50 false true))
        (constDraws 80) [[7]] [[0]] [] [] = .ok ([[[0, -2, -9]]], []) := by
  decide

/-- C20 (amended). When the criterion is not in training mode, the sequential decoder
always returns, and the previous-token input of every decode step after the first is
the gold target row of the step before, for every sampling strategy and whatever the
random draws are; the first step is fed the empty input. -/
theorem decoder_eval_feeds_gold (m : Seq2SeqModel) (rng : RandomDraws)
    (input target : Variable) (inputSizes targetSizes : Slice) (h : m.train_ = false) :
    ∃ outvec alphaVec,
      decoder m rng input target inputSizes targetSizes =
        .ok (outvec, alphaVec,
          ([] :: (List.range (dims0 target)).map (targetRow target)).take (dims0 target)) ∧
      outvec.length = dims0 target := by
  obtain ⟨ov, av, h1, h2⟩ := decoderLoop_eval m rng input target inputSizes targetSizes
    (dims0 target) h (dims0 target) 0 [] (m.newState m.nAttnRound_) [] [] []
    (by rw [newState_hidden_length])
  refine ⟨ov, av, ?_, by simpa using h2⟩
  rw [decoder, h1, List.nil_append, List.range_eq_range']

/-- Witness for C20 (amended): an evaluation-mode run over a target of three tokens. -/
theorem decoder_eval_feeds_gold_witness :
    (sampleModel (sampleConfig SamplingStrategy.model 50 false false)).train_ = false ∧
    ∃ outvec alphaVec,
      decoder (sampleModel (sampleConfig SamplingStrategy.model 50 false false)) (constDraws 80)
          [[7]] [[0, 1, 2]] [] [] =
        .ok (outvec, alphaVec,
          ([] :: (List.range (dims0 [[0, 1, 2]])).map (targetRow [[0, 1, 2]])).take
            (dims0 [[0, 1, 2]])) ∧
      outvec.length = dims0 [[0, 1, 2]] :=
  ⟨rfl, decoder_eval_feeds_gold
    (sampleModel (sampleConfig SamplingStrategy.model 50 false false)) (constDraws 80)
    [[7]] [[0, 1, 2]] [] [] rfl⟩

/-- C20 (counterexample). In evaluation mode the sequential decoder feeds the gold
tokens: on the target `0, 1, 2` the steps after the first receive the target tokens 0
and 1 as previous-token input. -/
theorem decoder_eval_feeds_target_token :
    (sampleModel (sampleConfig SamplingStrategy.model 50 false false)).train_ = false ∧
    decoder (sampleModel (sampleConfig SamplingStrategy.model 50 false false)) (constDraws 80)
        [[7]] [[0, 1, 2]] [] [] =
      .ok ([[[0, -2, -9]], [[-5, -6, -1]], [[-1, -1, -50]]], [[[0]], [[1]], [[2]]],
           [[], targetRow [[0, 1, 2]] 0, targetRow [[0, 1, 2]] 1]) ∧
    targetRow [[0, 1, 2]] 0 = [[0]] ∧ targetRow [[0, 1, 2]] 1 = [[1]] := by
  decide

/-- C22 (amended). For `n ≥ 1` attention rounds and an input state that holds `n`
hidden tensors, `decodeStep` returns a state that retains, for every round `i < n`, the
new hidden state produced by round `i`, and the attention weights of the last round
only: the weights of the earlier rounds are overwritten. -/
theorem decodeStep_keeps_hidden_and_last_alpha (c : Seq2SeqCriterion) (xEncoded y : Variable)
    (inState : Seq2SeqState) (inputSizes targetSizes : Slice) (maxDecoderSteps : Int)
    (h : c.nAttnRound_ ≤ inState.hidden.length) (hn : 1 ≤ c.nAttnRound_) :
    ∃ ox st last,
      decodeStep c xEncoded y inState inputSizes targetSizes maxDecoderSteps = .ok (ox, st) ∧
      (roundOutputs c xEncoded inState inputSizes targetSizes maxDecoderSteps
        (stepBatch xEncoded y) c.nAttnRound_ 0 (stepInput c xEncoded y inState)).length =
        c.nAttnRound_ ∧
      st.hidden = (roundOutputs c xEncoded inState inputSizes targetSizes maxDecoderSteps
        (stepBatch xEncoded y) c.nAttnRound_ 0 (stepInput c xEncoded y inState)).map Prod.fst ∧
      (roundOutputs c xEncoded inState inputSizes targetSizes maxDecoderSteps
        (stepBatch xEncoded y) c.nAttnRound_ 0 (stepInput c xEncoded y inState)).getLast? =
        some last ∧
      st.alpha = last.2 := by
  obtain ⟨hy1, s1, heq, hlen⟩ := attnRounds_outputs c xEncoded inState inputSizes targetSizes
    maxDecoderSteps (stepBatch xEncoded y) c.nAttnRound_ 0 (stepInput c xEncoded y inState)
    [] [] [] (by simpa using h)
  generalize htr : roundOutputs c xEncoded inState inputSizes targetSizes maxDecoderSteps
    (stepBatch xEncoded y) c.nAttnRound_ 0 (stepInput c xEncoded y inState) = trace at heq hlen
  obtain ⟨last, hlast⟩ : ∃ last, trace.getLast? = some last := by
    cases trace with
    | nil => simp at hlen; omega
    | cons r rs => exact ⟨_, List.getLast?_eq_getLast _ (by simp)⟩
  rw [hlast] at heq
  have hd : decodeStep c xEncoded y inState inputSizes targetSizes maxDecoderSteps =
      .ok (hy1.map (fun h => (List.range c.nClass_).map (c.linearOut h)),
         { step := inState.step + 1
           peakAttnPos := c.statePeakAttnPos
           isValid := c.stateIsValid
           alpha := last.2
           hidden := [] ++ trace.map Prod.fst
           summary := s1 }) := by
    have heq2 := heq
    simp only [stepInput, stepBatch] at heq2
    simp only [decodeStep, heq2]
  exact ⟨_, _, last, hd, hlen, by simp, hlast, rfl⟩

/-- Witness for C22 (amended): the two-round sample keeps both hidden states and the
attention weights of round 1. -/
theorem decodeStep_keeps_hidden_and_last_alpha_witness :
    ∃ ox st last,
      decodeStep sampleTwoRounds [[7]] [] (sampleTwoRounds.newState 2) [] [] 1 = .ok (ox, st) ∧
      (roundOutputs sampleTwoRounds [[7]] (sampleTwoRounds.newState 2) [] [] 1
        (stepBatch [[7]] []) sampleTwoRounds.nAttnRound_ 0
        (stepInput sampleTwoRounds [[7]] [] (sampleTwoRounds.newState 2))).length =
        sampleTwoRounds.nAttnRound_ ∧
      st.hidden = (roundOutputs sampleTwoRounds [[7]] (sampleTwoRounds.newState 2) [] [] 1
        (stepBatch [[7]] []) sampleTwoRounds.nAttnRound_ 0
        (stepInput sampleTwoRounds [[7]] [] (sampleTwoRounds.newState 2))).map Prod.fst ∧
      (roundOutputs sampleTwoRounds [[7]] (sampleTwoRounds.newState 2) [] [] 1
        (stepBatch [[7]] []) sampleTwoRounds.nAttnRound_ 0
        (stepInput sampleTwoRounds [[7]] [] (sampleTwoRounds.newState 2))).getLast? =
        some last ∧
      st.alpha = last.2 :=
  decodeStep_keeps_hidden_and_last_alpha sampleTwoRounds [[7]] [] (sampleTwoRounds.newState 2)
    [] [] 1 (by decide) (by decide)

/-- C22 (counterexample). With two attention rounds, round 0 produces the attention
weights `1` and round 1 the weights `2`; the state `decodeStep` returns holds the
weights of round 1, and the weights of round 0 are in none of its fields. -/
theorem decodeStep_drops_first_round_alpha :
    roundOutputs sampleTwoRounds [[7]] (sampleTwoRounds.newState 2) [] [] 1 1 2 0
        (stepInput sampleTwoRounds [[7]] [] (sampleTwoRounds.newState 2)) =
      [([[10]], [[1]]), ([[11]], [[2]])] ∧
    decodeStep sampleTwoRounds [[7]] [] (sampleTwoRounds.newState 2) [] [] 1 =
      .ok ([[0, -2, -9]],
        { alpha := [[2]], hidden := [[[10]], [[11]]], summary := [[0]], step := 1,
          peakAttnPos := -1, isValid := false }) ∧
    ([[1]] : Variable) ≠ [[2]] ∧ ([[1]] : Variable) ∉ ([[[10]], [[11]]] : List Variable) ∧
    ([[1]] : Variable) ≠ [[0]] := by
  decide

/-- C23 (amended). `viterbiPathBase` and `beamSearch` run their decode steps in
evaluation mode: their results do not depend on the training flag at entry.
`viterbiPathBase` always returns and leaves the flag as it was at entry, on the normal
return and on the break at the end token.  `beamSearch` leaves the flag as it was at
entry whenever it returns, also after early termination; when an error is raised during
the search the flag is left cleared. -/
theorem decoding_train_flag (c : Seq2SeqCriterion) (be : Backend) (input : Slice)
    (inputT : Int) (inputSizes : Slice) (saveAttn : Bool) (beam : List CandidateHypo)
    (W maxLen : Nat) :
    (∃ r, (viterbiPathBase c input inputT inputSizes saveAttn).result = .ok r) ∧
    (viterbiPathBase c input inputT inputSizes saveAttn).train = c.train_ ∧
    (∀ b, (viterbiPathBase { c with train_ := b } input inputT inputSizes saveAttn).result =
      (viterbiPathBase c input inputT inputSizes saveAttn).result) ∧
    (∀ b, (beamSearch { c with train_ := b } be input inputT inputSizes beam W maxLen).result =
      (beamSearch c be input inputT inputSizes beam W maxLen).result) ∧
    (∀ hyps, (beamSearch c be input inputT inputSizes beam W maxLen).result = .ok hyps →
      (beamSearch c be input inputT inputSizes beam W maxLen).train = c.train_) ∧
    (∀ e, (beamSearch c be input inputT inputSizes beam W maxLen).result = .error e →
      (beamSearch c be input inputT inputSizes beam W maxLen).train = false) := by
  obtain ⟨-, av, k, hrun, -, -⟩ := viterbiRun_spec c input inputT inputSizes saveAttn
  refine ⟨?_, ?_, ?_, ?_, ?_, ?_⟩
  · rw [viterbiPathBase, hrun]; exact ⟨_, rfl⟩
  · simp only [viterbiPathBase, hrun]
  · intro b
    have h1 : viterbiRun { c with train_ := b } input inputT inputSizes saveAttn =
        viterbiRun c input inputT inputSizes saveAttn := rfl
    simp only [viterbiPathBase, h1, hrun]
  · intro b
    have h1 : beamLoop ({ c with train_ := b } : Seq2SeqCriterion).eval be input inputT
        inputSizes W maxLen beam [] 0 = beamLoop c.eval be input inputT inputSizes W maxLen beam [] 0 :=
      rfl
    simp only [beamSearch, h1]
    cases (beamLoop c.eval be input inputT inputSizes W maxLen beam [] 0).2 with
    | error e => rfl
    | ok r => rfl
  · intro hyps h
    simp only [beamSearch] at h ⊢
    cases hl : (beamLoop c.eval be input inputT inputSizes W maxLen beam [] 0).2 with
    | error e => rw [hl] at h; cases h
    | ok r => rfl
  · intro e h
    simp only [beamSearch] at h ⊢
    cases hl : (beamLoop c.eval be input inputT inputSizes W maxLen beam [] 0).2 with
    | error e => rfl
    | ok r => rw [hl] at h; cases h

/-- Witness for C23 (amended): a beam search in training mode that returns leaves the
flag set. -/
theorem decoding_train_flag_witness :
    sampleLateEos.train_ = true ∧
    (beamSearch sampleLateEos refBackend [7] 1 [] [sampleLateEos.emptyHypo] 3 2).result =
      .ok [{ score := -9, path := [],
             state := { alpha := [[0]], hidden := [[[0]]], summary := [[0]], step := 1,
                        peakAttnPos := -1, isValid := false } },
           { score := -1, path := [0],
             state := { alpha := [[1]], hidden := [[[1]]], summary := [[0]], step := 2,
                        peakAttnPos := -1, isValid := false } }] ∧
    (beamSearch sampleLateEos refBackend [7] 1 [] [sampleLateEos.emptyHypo] 3 2).train = true :=
  have hrun : (beamSearch sampleLateEos refBackend [7] 1 [] [sampleLateEos.emptyHypo] 3 2).result =
      .ok [{ score := -9, path := [],
             state := { alpha := [[0]], hidden := [[[0]]], summary := [[0]], step := 1,
                        peakAttnPos := -1, isValid := false } },
           { score := -1, path := [0],
             state := { alpha := [[1]], hidden := [[[1]]], summary := [[0]], step := 2,
                        peakAttnPos := -1, isValid := false } }] := by decide
  ⟨rfl, hrun,
   (decoding_train_flag sampleLateEos refBackend [7] 1 [] false [sampleLateEos.emptyHypo] 3 2).2.2.2.2.1
     _ hrun⟩

/-- C23 (counterexample). A beam search entered in training mode with two hypotheses
whose states disagree on the step raises the error of `concatState` and leaves the
training flag cleared. -/
theorem beamSearch_error_leaves_eval_mode :
    sampleLateEos.train_ = true ∧
    (beamSearch sampleLateEos refBackend [7] 1 []
      [{ score := 0, path := [0], state := stateOneHidden },
       { score := 0, path := [1], state := { stateOneHiddenB with step := 5 } }] 2 2).result =
      .error Err.stepUnmatched ∧
    (beamSearch sampleLateEos refBackend [7] 1 []
      [{ score := 0, path := [0], state := stateOneHidden },
       { score := 0, path := [1], state := { stateOneHiddenB with step := 5 } }] 2 2).train =
      false := by
  decide

/-- C25 (amended). When a round of `beamSearch` that was entered with at most `W` live
hypotheses terminates the search early, under a lawful `std::partial_sort`, token
log-probabilities that are at most 0 and a score addition that does not raise a score by
such a log-probability: the completed set holds `W` hypotheses, its last one is its
worst, the first live hypothesis is the best live one and scores strictly below the worst
completed one; and every hypothesis, live or completed, that any number of further
rounds from the live beam produces scores strictly below every kept completed
hypothesis. -/
theorem early_termination_sound (c : Seq2SeqCriterion) (be : Backend) (hbe : be.Lawful)
    (hnp : NonPosLogProb be) (hadd : be.AddNonPos) (input : Slice) (inputT : Int) (inputSizes : Slice) (W : Nat)
    (hW : 1 ≤ W) (beam complete b1 c1 : List CandidateHypo) (hB : beam.length ≤ W)
    (hr : beamRound c be input inputT inputSizes W beam complete = .ok (b1, c1, true)) :
    ∃ worst best, c1.getLast? = some worst ∧ b1[0]? = some best ∧
      best.score < worst.score ∧ c1.length = W ∧
      (∀ g ∈ c1, worst.score ≤ g.score) ∧ (∀ h ∈ b1, h.score ≤ best.score) ∧
      ∀ fuel rounds b2 c2,
        (beamLoop c be input inputT inputSizes W fuel b1 [] rounds).2 = .ok (b2, c2) →
        ∀ h, h ∈ b2 ∨ h ∈ c2 → ∀ g ∈ c1, h.score < g.score := by
  obtain ⟨state, scoreVec, indices, c0, -, -, hc1⟩ := beamRound_inv _ _ _ _ _ _ _ _ _ _ _ hr
  rcases hc1 with ⟨-, hstop, -⟩ | ⟨hge, hc1, worst, best, hworst, hbest, hstop⟩
  · cases hstop
  · have hlt : best.score < worst.score := by
      have := hstop.symm
      simpa using this
    have hsorted : c1.Pairwise (fun a b => b.score ≤ a.score) := by
      rw [hc1]; exact trimComplete_sorted be hbe W c0
    have hworstle := pairwise_last_le c1 worst hsorted hworst
    have hbestge := (beamRound_best_first c be hbe input inputT inputSizes W hW beam complete b1
      c1 true hB hr).2 best hbest
    refine ⟨worst, best, hworst, hbest, hlt, ?_, hworstle, hbestge, ?_⟩
    · rw [hc1]; exact trimComplete_length_eq be hbe W c0 hge
    · intro fuel rounds b2 c2 hloop h hh g hg
      obtain ⟨h1, h2⟩ := beamLoop_score_le c be hnp hadd input inputT inputSizes W best.score fuel b1 []
        rounds b2 c2 hbestge (by simp) hloop
      have h3 := hworstle g hg
      rcases hh with hh | hh
      · have := h1 h hh; omega
      · have := h2 h hh; omega

/-- Witness for C25 (amended): beam width 1 on the sample whose first step ranks the end
token first; the round stops the search with one completed hypothesis of score 0 and a
live hypothesis of score -6. -/
theorem early_termination_sound_witness :
    ∃ worst best,
      ([{ score := 0, path := [],
          state := { alpha := [[0]], hidden := [[[0]]], summary := [[0]], step := 1,
                     peakAttnPos := -1, isValid := false } }] : List CandidateHypo).getLast? =
        some worst ∧
      ([{ score := -6, path := [3],
          state := { alpha := [[0]], hidden := [[[0]]], summary := [[0]], step := 1,
                     peakAttnPos := -1, isValid := false } }] : List CandidateHypo)[0]? =
        some best ∧
      best.score < worst.score :=
  have h := early_termination_sound sampleEosFirst maxBackend maxBackend_lawful
    (nonPos_of_colMax maxBackend rfl) (addNonPos_of_exact maxBackend rfl) [7] 1 [] 1 (by decide) [sampleEosFirst.emptyHypo] []
    [{ score := -6, path := [3],
       state := { alpha := [[0]], hidden := [[[0]]], summary := [[0]], step := 1,
                  peakAttnPos := -1, isValid := false } }]
    [{ score := 0, path := [],
       state := { alpha := [[0]], hidden := [[[0]]], summary := [[0]], step := 1,
                  peakAttnPos := -1, isValid := false } }] (by decide) (by decide)
  match h with
  | ⟨worst, best, h1, h2, h3, _⟩ => ⟨worst, best, h1, h2, h3⟩

set_option maxRecDepth 20000 in
/-- C25 (counterexample). Beam width 4 entered with eight live hypotheses, with the
partial sort of libstdc++, exact addition and log-probabilities that are at most 0.  The
eight best candidates of the round are end-token candidates, so the new beam is filled
from the places behind the sorted part, in the order the partial sort leaves there.  The
round terminates the search with the completed scores 0, 0, 0, -1 and the live scores
-2, -2, -2, -1: the fourth live hypothesis ties with the worst kept completed one, and one
more round from the live beam, in which the end token has log-probability 0, completes a
hypothesis of score -1, which is not strictly below it. -/
theorem early_termination_tie_with_wide_beam :
    NonPosLogProb stdBackend ∧ stdBackend.AddNonPos ∧ sampleEightBeam.length = 8 ∧
    (expandBeam sampleByHidden stdBackend [7] 1 [] 4 sampleEightBeam).map
        (fun r => (r.2.1, r.2.2)) =
      .ok ([-1, -1, -2, -1, -2, -1, -2, -1, -1, -1, -1, 0, -1, 0, -1, 0],
           [15, 13, 11, 7, 3, 9, 1, 5, 6, 2, 4, 0, 12, 8, 14, 10]) ∧
    (beamRound sampleByHidden stdBackend [7] 1 [] 4 sampleEightBeam []).map
        (fun r => (r.1.map (fun h => (h.score, h.path)),
          r.2.1.map (fun h => (h.score, h.path)), r.2.2)) =
      .ok ([(-2, [0, 0]), (-2, [0, 0]), (-2, [0, 0]), (-1, [0, 0])],
           [(0, [0]), (0, [0]), (0, [0]), (-1, [0])], true) ∧
    ∃ b1 c1 b2 c2,
      beamRound sampleByHidden stdBackend [7] 1 [] 4 sampleEightBeam [] = .ok (b1, c1, true) ∧
      (beamLoop sampleByHidden stdBackend [7] 1 [] 4 1 b1 [] 0).2 = .ok (b2, c2) ∧
      ∃ h ∈ c2, ∃ g ∈ c1, ¬ h.score < g.score :=
  ⟨nonPos_of_colMax stdBackend rfl, addNonPos_of_exact stdBackend rfl, by decide, by decide,
   by decide,
   [{ score := -2, path := [0, 0],
      state := { alpha := [[1]], hidden := [[[1]]], summary := [[0]], step := 2,
                 peakAttnPos := -1, isValid := false } },
    { score := -2, path := [0, 0],
      state := { alpha := [[1]], hidden := [[[1]]], summary := [[0]], step := 2,
                 peakAttnPos := -1, isValid := false } },
    { score := -2, path := [0, 0],
      state := { alpha := [[1]], hidden := [[[1]]], summary := [[0]], step := 2,
                 peakAttnPos := -1, isValid := false } },
    { score := -1, path := [0, 0],
      state := { alpha := [[0]], hidden := [[[1]]], summary := [[0]], step := 2,
                 peakAttnPos := -1, isValid := false } }],
   [{ score := 0, path := [0],
      state := { alpha := [[1]], hidden := [[[1]]], summary := [[0]], step := 2,
                 peakAttnPos := -1, isValid := false } },
    { score := 0, path := [0],
      state := { alpha := [[1]], hidden := [[[1]]], summary := [[0]], step := 2,
                 peakAttnPos := -1, isValid := false } },
    { score := 0, path := [0],
      state := { alpha := [[1]], hidden := [[[1]]], summary := [[0]], step := 2,
                 peakAttnPos := -1, isValid := false } },
    { score := -1, path := [0],
      state := { alpha := [[1]], hidden := [[[1]]], summary := [[0]], step := 2,
                 peakAttnPos := -1, isValid := false } }],
   [{ score := -2, path := [0, 0, 0],
      state := { alpha := [[1]], hidden := [[[1]]], summary := [[0]], step := 3,
                 peakAttnPos := -1, isValid := false } },
    { score := -3, path := [0, 0, 0],
      state := { alpha := [[1]], hidden := [[[1]]], summary := [[0]], step := 3,
                 peakAttnPos := -1, isValid := false } },
    { score := -3, path := [0, 0, 0],
      state := { alpha := [[1]], hidden := [[[1]]], summary := [[0]], step := 3,
                 peakAttnPos := -1, isValid := false } },
    { score := -3, path := [0, 0, 0],
      state := { alpha := [[1]], hidden := [[[1]]], summary := [[0]], step := 3,
                 peakAttnPos := -1, isValid := false } }],
   [{ score := -1, path := [0, 0],
      state := { alpha := [[1]], hidden := [[[1]]], summary := [[0]], step := 3,
                 peakAttnPos := -1, isValid := false } },
    { score := -2, path := [0, 0],
      state := { alpha := [[1]], hidden := [[[1]]], summary := [[0]], step := 3,
                 peakAttnPos := -1, isValid := false } },
    { score := -2, path := [0, 0],
      state := { alpha := [[1]], hidden := [[[1]]], summary := [[0]], step := 3,
                 peakAttnPos := -1, isValid := false } },
    { score := -2, path := [0, 0],
      state := { alpha := [[1]], hidden := [[[1]]], summary := [[0]], step := 3,
                 peakAttnPos := -1, isValid := false } }],
   by decide, by decide,
   { score := -1, path := [0, 0],
      state := { alpha := [[1]], hidden := [[[1]]], summary := [[0]], step := 3,
                 peakAttnPos := -1, isValid := false } },
   by decide,
   { score := -1, path := [0],
      state := { alpha := [[1]], hidden := [[[1]]], summary := [[0]], step := 2,
                 peakAttnPos := -1, isValid := false } },
   by decide, by decide⟩

/-- C26. If no path in the initial beam contains the end id, then after every round of
`beamSearch` no live path and no completed path contains it.  In a round that returns, a
completed hypothesis is an earlier one or carries exactly its parent's path, with score
parent score plus the log-probability of the end token; a live hypothesis carries its
parent's path extended by one token that is not the end token, with score parent score
plus the log-probability of that token; parent index and token are quotient and
remainder of the flat candidate index by the vocabulary size. -/
theorem beam_paths_exclude_eos (c : Seq2SeqCriterion) (be : Backend) (input : Slice)
    (inputT : Int) (inputSizes : Slice) (W maxLen : Nat) (beam complete : List CandidateHypo)
    (hb : ∀ h ∈ beam, c.eos_ ∉ h.path) (hc : ∀ h ∈ complete, c.eos_ ∉ h.path) :
    (∀ b1 c1 stop, beamRound c be input inputT inputSizes W beam complete = .ok (b1, c1, stop) →
      (∀ h ∈ b1, c.eos_ ∉ h.path) ∧ (∀ h ∈ c1, c.eos_ ∉ h.path) ∧
      ∃ ps ox0 state,
        concatState (beam.map (fun h => h.state)) = .ok ps ∧
        decodeStep c [input] (concatenate (beam.map prevYOf)) ps
          (tile inputSizes (dims1 (concatenate (beam.map prevYOf)))) [] inputT =
            .ok (ox0, state) ∧
        (∀ h ∈ b1, ∃ idx parent, beam[idx / c.nClass_]? = some parent ∧
          ((idx % c.nClass_ : Nat) : Int) ≠ c.eos_ ∧
          h.path = parent.path ++ [((idx % c.nClass_ : Nat) : Int)] ∧
          h.score = be.add parent.score
            ((logSoftmax be (ox0.getD (idx / c.nClass_) [])).getD (idx % c.nClass_) 0)) ∧
        (∀ h ∈ c1, h ∈ complete ∨ ∃ idx parent, beam[idx / c.nClass_]? = some parent ∧
          ((idx % c.nClass_ : Nat) : Int) = c.eos_ ∧ h.path = parent.path ∧
          h.score = be.add parent.score
            ((logSoftmax be (ox0.getD (idx / c.nClass_) [])).getD (idx % c.nClass_) 0))) ∧
    (∀ b1 c1, (beamLoop c be input inputT inputSizes W maxLen beam [] 0).2 = .ok (b1, c1) →
      (∀ h ∈ b1, c.eos_ ∉ h.path) ∧ (∀ h ∈ c1, c.eos_ ∉ h.path)) ∧
    (∀ hyps, (beamSearch c be input inputT inputSizes beam W maxLen).result = .ok hyps →
      ∀ h ∈ hyps, c.eos_ ∉ h.path) := by
  refine ⟨?_, ?_, ?_⟩
  · intro b1 c1 stop hr
    obtain ⟨h1, h2⟩ := beamRound_no_eos _ _ _ _ _ _ _ _ _ _ _ hb hc hr
    obtain ⟨ps, ox0, state, hcs, hds, hN, hC⟩ := beamRound_candidates _ _ _ _ _ _ _ _ _ _ _ hr
    refine ⟨h1, h2, ps, ox0, state, hcs, hds, ?_, ?_⟩
    · intro g hg
      obtain ⟨idx, parent, a1, a2, a3, -, a5, -⟩ := hN g hg
      exact ⟨idx, parent, a1, a2, a3, a5⟩
    · intro g hg
      rcases hC g hg with h0 | ⟨idx, parent, a1, a2, a3, -, a5, -⟩
      · exact Or.inl h0
      · exact Or.inr ⟨idx, parent, a1, a2, a3, a5⟩
  · intro b1 c1 h
    exact beamLoop_no_eos c be input inputT inputSizes W maxLen beam [] 0 b1 c1 hb (by simp) h
  · intro hyps h g hg
    simp only [beamSearch] at h
    cases hres : (beamLoop c.eval be input inputT inputSizes W maxLen beam [] 0).2 with
    | error e => rw [hres] at h; cases h
    | ok r =>
      obtain ⟨b1, c1⟩ := r
      rw [hres] at h
      simp only at h
      injection h with h
      have hb2 : ∀ h ∈ beam, c.eval.eos_ ∉ h.path := hb
      obtain ⟨h1, h2⟩ := beamLoop_no_eos c.eval be input inputT inputSizes W maxLen beam [] 0
        b1 c1 hb2 (by simp) hres
      subst h
      split at hg
      · exact h1 g hg
      · exact h2 g hg

/-- Witness for C26: the search of the three-class sample from the empty hypothesis. -/
theorem beam_paths_exclude_eos_witness :
    (∀ h ∈ [sampleLateEos.emptyHypo], sampleLateEos.eos_ ∉ h.path) ∧
    (∀ b1 c1,
      (beamLoop sampleLateEos refBackend [7] 1 [] 2 2 [sampleLateEos.emptyHypo] [] 0).2 =
        .ok (b1, c1) →
      (∀ h ∈ b1, sampleLateEos.eos_ ∉ h.path) ∧ (∀ h ∈ c1, sampleLateEos.eos_ ∉ h.path)) ∧
    ∃ r, (beamLoop sampleLateEos refBackend [7] 1 [] 2 2 [sampleLateEos.emptyHypo] [] 0).2 =
      .ok r :=
  ⟨by decide,
   (beam_paths_exclude_eos sampleLateEos refBackend [7] 1 [] 2 2 [sampleLateEos.emptyHypo] []
     (by decide) (by decide)).2.1,
   ⟨_, rfl⟩⟩

/-- C28. If all hypotheses of the initial beam share the same step and the same
validity flag, then no round of `beamSearch` raises "step unmatched" or "isValid
unmatched"; after every round that returns, all live hypotheses carry the previous common
step plus one and the validity flag the state constructor gives, so they share step and
validity flag again; and this holds after any number of rounds. -/
theorem beam_states_share_step (c : Seq2SeqCriterion) (be : Backend) (input : Slice)
    (inputT : Int) (inputSizes : Slice) (W maxLen : Nat) (beam complete : List CandidateHypo)
    (hs : ∀ h ∈ beam, ∀ g ∈ beam,
      h.state.step = g.state.step ∧ h.state.isValid = g.state.isValid) :
    (∀ e, beamRound c be input inputT inputSizes W beam complete = .error e →
      e ≠ Err.stepUnmatched ∧ e ≠ Err.isValidUnmatched) ∧
    (∀ b1 c1 stop, beamRound c be input inputT inputSizes W beam complete = .ok (b1, c1, stop) →
      ∀ h ∈ b1, h.state.isValid = c.stateIsValid ∧
        ∀ g ∈ beam, h.state.step = g.state.step + 1) ∧
    (∀ e, (beamLoop c be input inputT inputSizes W maxLen beam [] 0).2 = .error e →
      e ≠ Err.stepUnmatched ∧ e ≠ Err.isValidUnmatched) ∧
    (∀ b1 c1, (beamLoop c be input inputT inputSizes W maxLen beam [] 0).2 = .ok (b1, c1) →
      ∀ h ∈ b1, ∀ g ∈ b1,
        h.state.step = g.state.step ∧ h.state.isValid = g.state.isValid) ∧
    (∀ e, (beamSearch c be input inputT inputSizes beam W maxLen).result = .error e →
      e ≠ Err.stepUnmatched ∧ e ≠ Err.isValidUnmatched) := by
  refine ⟨?_, ?_, (beamLoop_same_step c be input inputT inputSizes W maxLen beam [] 0 hs).1,
    (beamLoop_same_step c be input inputT inputSizes W maxLen beam [] 0 hs).2, ?_⟩
  · intro e hr
    rcases beamRound_error _ _ _ _ _ _ _ _ _ hr with h1 | ⟨-, h1⟩
    · rcases expandBeam_error_of_same _ _ _ _ _ _ _ _ hs h1 with h2 | h2 | h2 <;>
        rw [h2] <;> exact ⟨by decide, by decide⟩
    · rw [h1]; exact ⟨by decide, by decide⟩
  · intro b1 c1 stop hr h hh
    obtain ⟨g0, rest, hbeam, hb⟩ := beamRound_steps _ _ _ _ _ _ _ _ _ _ _ hr
    refine ⟨(hb h hh).1, ?_⟩
    intro g hg
    rw [(hb h hh).2, (hs g hg g0 (by rw [hbeam]; exact List.mem_cons_self _ _)).1]
  · intro e h
    have hl := (beamLoop_same_step c.eval be input inputT inputSizes W maxLen beam [] 0 hs).1 e
    apply hl
    simp only [beamSearch] at h
    cases hres : (beamLoop c.eval be input inputT inputSizes W maxLen beam [] 0).2 with
    | error e1 =>
      rw [hres] at h
      injection h with h
      rw [h]
    | ok r => rw [hres] at h; cases h

/-- Witness for C28: two hypotheses at step 4 are expanded without a mismatch, and the
new live hypotheses are at step 5. -/
theorem beam_states_share_step_witness :
    (∀ e, beamRound sampleLateEos refBackend [7] 1 [] 2 sampleTwoHypos [] = .error e →
      e ≠ Err.stepUnmatched ∧ e ≠ Err.isValidUnmatched) ∧
    (∀ b1 c1 stop, beamRound sampleLateEos refBackend [7] 1 [] 2 sampleTwoHypos [] =
        .ok (b1, c1, stop) →
      ∀ h ∈ b1, h.state.isValid = sampleLateEos.stateIsValid ∧
        ∀ g ∈ sampleTwoHypos, h.state.step = g.state.step + 1) ∧
    ∃ r, beamRound sampleLateEos refBackend [7] 1 [] 2 sampleTwoHypos [] = .ok r :=
  have h := beam_states_share_step sampleLateEos refBackend [7] 1 [] 2 2 sampleTwoHypos []
    (by decide)
  ⟨h.1, h.2.1, ⟨_, rfl⟩⟩

/-- C29 (evaluation). For a single hypothesis with previous token 1, the same encoder
output and the same input state, on a model without a window: `decodeStep` stores the
context vector `0` of the attention round as summary, `decodeBatchStep` stores the
decoder output `2` to which the context vector has been added. -/
theorem decodeBatchStep_summary_differs :
    sampleLateEos.eval.hasWindow = false ∧
    decodeStep sampleLateEos.eval [[7]] [[1]] stateOneHidden [] [] 1 =
      .ok ([[-1, -1, -50]],
        { alpha := [[2]], hidden := [[[2]]], summary := [[0]], step := 5, peakAttnPos := -1,
          isValid := false }) ∧
    decodeBatchStep sampleLateEos.eval refBackend id [[7]] [[[1]]] [stateOneHidden] 1 =
      .ok ([[-1, -1, -50]],
        [{ alpha := [[2]], hidden := [[[2]]], summary := [[2]], step := 5, peakAttnPos := 0,
           isValid := true }]) ∧
    ([[0]] : Variable) ≠ [[2]] := by
  decide

/-- C30 (amended). For every `dim4` whose four entries are at least 1 and whose product
is below `2 ^ 63`, so that the element count does not overflow `dim_t`, `afToFlDims` is
defined: its backward scan, when it runs, stops at an index inside the four entries; the
shape has at most 4 dimensions, and `flToAfDims` maps it back to the `dim4`. -/
theorem afToFlDims_roundtrip (d : dim4) (h0 : 1 ≤ d.d0) (h1 : 1 ≤ d.d1) (h2 : 1 ≤ d.d2)
    (h3 : 1 ≤ d.d3) (hfit : d.d0 * d.d1 * d.d2 * d.d3 < 9223372036854775808) :
    ∃ s, afToFlDims d = .ok s ∧ Shape.ndim s ≤ 4 ∧ flToAfDims s = .ok d ∧
      (d.elements ≠ 1 →
        ∃ idx, afToFlDimsScan d 3 = .ok idx ∧ idx ≤ 3 ∧ Shape.ndim s = idx + 1) := by
  obtain ⟨a, b, c, e⟩ := d
  simp only at h0 h1 h2 h3 hfit
  have hab : 1 ≤ a * b := by nlinarith
  have habc : 1 ≤ a * b * c := by nlinarith
  have habce : 1 ≤ a * b * c * e := by nlinarith
  have hle3 : a * b * c ≤ a * b * c * e := by nlinarith
  have hle2 : a * b ≤ a * b * c := by nlinarith
  have hle1 : a ≤ a * b := by nlinarith
  have hw1 : wrapDim a = a := wrapDim_of_fits a (by omega) (by omega)
  have hw2 : wrapDim (a * b) = a * b := wrapDim_of_fits _ (by omega) (by omega)
  have hw3 : wrapDim (a * b * c) = a * b * c := wrapDim_of_fits _ (by omega) (by omega)
  have hw4 : wrapDim (a * b * c * e) = a * b * c * e := wrapDim_of_fits _ (by omega) (by omega)
  have hwone : wrapDim 1 = 1 := by decide
  have hel : (dim4.mk a b c e).elements = a * b * c * e := hw4
  have hne : a * b * c * e ≠ 0 := by omega
  by_cases hone : a * b * c * e = 1
  · obtain ⟨h4, he⟩ := mul_eq_one_of_one_le _ _ habc h3 hone
    obtain ⟨h5, hc⟩ := mul_eq_one_of_one_le _ _ hab h2 h4
    obtain ⟨ha, hb⟩ := mul_eq_one_of_one_le _ _ h0 h1 h5
    subst ha hb hc he
    refine ⟨[1], ?_, by simp [Shape.ndim], ?_, fun h => absurd hel h⟩
    · simp only [afToFlDims, hel]
      decide
    · simp only [flToAfDims, Shape.ndim, Shape.elements]
      decide
  · have ha0 : a ≠ 0 := by omega
    have hb0 : b ≠ 0 := by omega
    have hc0 : c ≠ 0 := by omega
    have he0 : e ≠ 0 := by omega
    by_cases he : e = 1
    · subst he
      by_cases hc : c = 1
      · subst hc
        by_cases hb : b = 1
        · subst hb
          have ha : a ≠ 1 := by
            intro ha; apply hone; rw [ha]; rfl
          refine ⟨[a], ?_, by simp [Shape.ndim], ?_, fun _ => ⟨0, ?_, by omega, by simp [Shape.ndim]⟩⟩
          · simp only [afToFlDims, hel, hne, hone, if_false]
            simp [afToFlDimsScan, dim4.get, ha, List.range_succ]
          · simp [flToAfDims, Shape.ndim, Shape.elements, ha0, hw1]
          · simp [afToFlDimsScan, dim4.get, ha]
        · refine ⟨[a, b], ?_, by simp [Shape.ndim], ?_, fun _ => ⟨1, ?_, by omega, by simp [Shape.ndim]⟩⟩
          · simp only [afToFlDims, hel, hne, hone, if_false]
            simp [afToFlDimsScan, dim4.get, hb, List.range_succ]
          · simp [flToAfDims, Shape.ndim, Shape.elements, ha0, hb0, hw2]
          · simp [afToFlDimsScan, dim4.get, hb]
      · refine ⟨[a, b, c], ?_, by simp [Shape.ndim], ?_, fun _ => ⟨2, ?_, by omega, by simp [Shape.ndim]⟩⟩
        · simp only [afToFlDims, hel, hne, hone, if_false]
          simp [afToFlDimsScan, dim4.get, hc, List.range_succ]
        · simp [flToAfDims, Shape.ndim, Shape.elements, ha0, hb0, hc0, ← mul_assoc, hw3]
        · simp [afToFlDimsScan, dim4.get, hc]
    · refine ⟨[a, b, c, e], ?_, by simp [Shape.ndim], ?_, fun _ => ⟨3, ?_, by omega, by simp [Shape.ndim]⟩⟩
      · simp only [afToFlDims, hel, hne, hone, if_false]
        simp [afToFlDimsScan, dim4.get, he, List.range_succ]
      · simp [flToAfDims, Shape.ndim, Shape.elements, ha0, hb0, hc0, he0, ← mul_assoc, hw4]
      · simp [afToFlDimsScan, dim4.get, he]

/-- Witness for C30 (amended): the dims `(3, 1, 2, 1)` give the shape `(3, 1, 2)` and come
back. -/
theorem afToFlDims_roundtrip_witness :
    ∃ s, afToFlDims { d0 := 3, d1 := 1, d2 := 2, d3 := 1 } = .ok s ∧ Shape.ndim s ≤ 4 ∧
      flToAfDims s = .ok { d0 := 3, d1 := 1, d2 := 2, d3 := 1 } ∧
      ((dim4.mk 3 1 2 1).elements ≠ 1 →
        ∃ idx, afToFlDimsScan { d0 := 3, d1 := 1, d2 := 2, d3 := 1 } 3 = .ok idx ∧ idx ≤ 3 ∧
          Shape.ndim s = idx + 1) :=
  afToFlDims_roundtrip { d0 := 3, d1 := 1, d2 := 2, d3 := 1 } (by decide) (by decide)
    (by decide) (by decide) (by decide)

/-- C30 (counterexample). The dims `(2 ^ 32, 2 ^ 32, 1, 1)` have entries that are at least
1, but their element count overflows `dim_t` to 0: `afToFlDims` returns the empty shape,
and `flToAfDims` does not map it back to the dims. -/
theorem afToFlDims_overflow_loses_dims :
    (1 : Int) ≤ 4294967296 ∧
    (dim4.mk 4294967296 4294967296 1 1).elements = 0 ∧
    afToFlDims (dim4.mk 4294967296 4294967296 1 1) = .ok [] ∧
    flToAfDims [] ≠ .ok (dim4.mk 4294967296 4294967296 1 1) ∧
    ¬ ∃ s, afToFlDims (dim4.mk 4294967296 4294967296 1 1) = .ok s ∧
        flToAfDims s = .ok (dim4.mk 4294967296 4294967296 1 1) := by
  refine ⟨by decide, by decide, by decide, by decide, ?_⟩
  rintro ⟨s, h1, h2⟩
  have h3 : afToFlDims (dim4.mk 4294967296 4294967296 1 1) = .ok [] := by decide
  rw [h3] at h1
  injection h1 with h1
  subst h1
  revert h2
  decide

end Flashlight
